import Mathlib

/-!
# fix-imports: the import-path resolution and rewriting engine

A shallow embedding of `src/main.go` (ntbosscher/fix-imports).  Go strings and
byte slices are lists of characters (`Str`); the functions of the Go standard
library the program calls (`strings.*`, `bytes.Replace`, `path.Clean`,
`path.Join`, `path.Dir`, `path.Ext`) are embedded after their documented
behaviour and their library source, loop by loop.  A call of `log.Fatalln`
ends the process, so a function that can reach one returns an `Option`
(`rel`) or an `Outcome` (`checkImport`).
-/

namespace FixImports

/-- Go `string` / `[]byte`: a sequence of bytes. -/
abbrev Str := List Char

/-! ## Go standard library: `strings` and `bytes` -/

/-- Go `strings.HasPrefix(s, pre)`. -/
def hasPrefix (s pre : Str) : Bool := pre.isPrefixOf s

/-- Go `strings.HasSuffix(s, suf)`. -/
def hasSuffix (s suf : Str) : Bool := suf.reverse.isPrefixOf s.reverse

/-- Go `strings.Contains(s, sub)`: `sub` occurs somewhere in `s`. -/
def contains : Str → Str → Bool
  | [], sub => sub.isEmpty
  | c :: rest, sub => sub.isPrefixOf (c :: rest) || contains rest sub

/-- Go `strings.TrimPrefix(s, pre)`. -/
def trimPrefix (s pre : Str) : Str :=
  if hasPrefix s pre then s.drop pre.length else s

/-- Go `strings.TrimSuffix(s, suf)`. -/
def trimSuffix (s suf : Str) : Str :=
  if hasSuffix s suf then s.take (s.length - suf.length) else s

/-- Go `strings.TrimLeft(s, cutset)`: drops the leading bytes that occur in `cutset`. -/
def trimLeft (s cutset : Str) : Str := s.dropWhile (fun c => cutset.contains c)

/-- Go `strings.TrimRight(s, cutset)`. -/
def trimRight (s cutset : Str) : Str :=
  (s.reverse.dropWhile (fun c => cutset.contains c)).reverse

/-- Go `strings.Trim(s, cutset)`: leading and trailing bytes of `cutset` removed. -/
def trim (s cutset : Str) : Str := trimRight (trimLeft s cutset) cutset

/-- Go `strings.Count(s, "/")`: number of path separators. -/
def countSlash (s : Str) : Nat := s.count '/'

/-- Go `strings.Repeat(s, n)`. -/
def strRepeat (s : Str) : Nat → Str
  | 0 => []
  | n + 1 => s ++ strRepeat s n

/-- Go `strings.ReplaceAll(s, "../", "")`: every non-overlapping `../`, scanning
from the left, is removed. -/
def removeDotDotSlash : Str → Str
  | [] => []
  | c :: c2 :: c3 :: rest =>
    if c = '.' ∧ c2 = '.' ∧ c3 = '/' then removeDotDotSlash rest
    else c :: removeDotDotSlash (c2 :: c3 :: rest)
  | c :: rest => c :: removeDotDotSlash rest

/-- Go `strings.Split(s, "/")`: the pieces of `s` between separators (always at
least one piece). -/
def splitSlash : Str → List Str
  | [] => [[]]
  | c :: rest =>
    if c = '/' then [] :: splitSlash rest
    else
      match splitSlash rest with
      | [] => [[c]]
      | p :: ps => (c :: p) :: ps

/-- Go `strings.Join(parts, "/")`. -/
def joinSlash : List Str → Str
  | [] => []
  | [p] => p
  | p :: q :: ps => p ++ '/' :: joinSlash (q :: ps)

/-- Go `bytes.Replace(s, old, new, 1)`: the first occurrence of `old` in `s` is
replaced by `new`; without an occurrence `s` is returned as it is. -/
def replaceFirst : Str → Str → Str → Str
  | [], old, new => if old.isEmpty then new else []
  | c :: rest, old, new =>
    if old.isPrefixOf (c :: rest) then new ++ (c :: rest).drop old.length
    else c :: replaceFirst rest old new

/-! ## Go standard library: `path` -/

/-- The inner loop of the `..` case of `path.Clean`:
`for out.w > dotdot && out.index(out.w) != '/' { out.w-- }`.  The buffer
`out[0:w]` is passed reversed, `last` is the byte `out[w]`. -/
def backtrack (dotdot : Nat) : Str → Char → Str
  | [], _ => []
  | c :: rest, last =>
    if (c :: rest).length > dotdot ∧ last ≠ '/' then backtrack dotdot rest c
    else c :: rest

/-- The `..` case of `path.Clean` when `out.w > dotdot`: `out.w--` and then the
inner loop; the result is the new buffer content. -/
def popElem (dotdot : Nat) (out : Str) : Str :=
  match out.reverse with
  | [] => []
  | last :: rest => (backtrack dotdot rest last).reverse

/-- The slash that `path.Clean` puts before a real path element:
`if rooted && out.w != 1 || !rooted && out.w != 0 { out.append('/') }`. -/
def addSlash (rooted : Bool) (out : Str) : Str :=
  if (rooted && out.length != 1) || (!rooted && out.length != 0) then out ++ ['/'] else out

/-- The main loop `for r < n` of `path.Clean`.  `p` is the unread input
`path[r:]`, `out` the buffer content `out[0:w]`, `dotdot` the index where `..`
must stop; the result is the buffer and `dotdot` at the end of the loop.
Every iteration reads at least one byte, so `fuel` = the length of the input
is enough. -/
def cleanLoop (rooted : Bool) : Nat → Str → Str → Nat → Str × Nat
  | 0, _, out, dotdot => (out, dotdot)
  | fuel + 1, p, out, dotdot =>
    match p with
    | [] => (out, dotdot)
    | c :: rest =>
      if c = '/' then
        -- empty path element
        cleanLoop rooted fuel rest out dotdot
      else if c = '.' ∧ (rest = [] ∨ rest.head? = some '/') then
        -- . element
        cleanLoop rooted fuel rest out dotdot
      else if c = '.' ∧ rest.head? = some '.' ∧
          (rest.tail = [] ∨ rest.tail.head? = some '/') then
        -- .. element: remove to last /
        if out.length > dotdot then
          -- can backtrack
          cleanLoop rooted fuel rest.tail (popElem dotdot out) dotdot
        else if !rooted then
          -- cannot backtrack, but not rooted, so append .. element
          cleanLoop rooted fuel rest.tail
            ((if out.length > 0 then out ++ ['/'] else out) ++ ['.', '.'])
            ((if out.length > 0 then out ++ ['/'] else out) ++ ['.', '.']).length
        else
          cleanLoop rooted fuel rest.tail out dotdot
      else
        -- real path element: add slash if needed, copy element
        cleanLoop rooted fuel (rest.dropWhile (fun x => x != '/'))
          (addSlash rooted out ++ c :: rest.takeWhile (fun x => x != '/')) dotdot

/-- The buffer `out` at the end of the loop of `path.Clean`; a path that starts
with a slash is `rooted`: its buffer starts as `/` and reading starts after it. -/
def cleanOut (p : Str) : Str :=
  if p.head? = some '/' then (cleanLoop true p.length p.tail ['/'] 1).1
  else (cleanLoop false p.length p [] 0).1

/-- Go `path.Clean`. -/
def clean (p : Str) : Str :=
  if p = [] then ['.']
  else if (cleanOut p).length = 0 then ['.']
  else cleanOut p

/-- Go `path.Join(a, b)` for two elements: empty elements are ignored, the rest
is joined with `/` and cleaned; two empty elements give the empty string. -/
def pathJoin (a b : Str) : Str :=
  if a.length + b.length = 0 then []
  else if a = [] then clean b
  else clean (a ++ '/' :: b)

/-- The directory part of Go `path.Split`: everything up to and including the
final slash (empty without a slash). -/
def splitDir : Str → Str
  | [] => []
  | c :: rest =>
    if rest.contains '/' then c :: splitDir rest
    else if c = '/' then [c] else []

/-- Go `path.Dir`. -/
def pathDir (p : Str) : Str := clean (splitDir p)

/-- The loop of Go `path.Ext` over the reversed path: the suffix from the last
dot of the final element, empty without one. `acc` is the suffix read so far. -/
def extLoop : Str → Str → Str
  | [], _ => []
  | c :: rest, acc =>
    if c = '/' then []
    else if c = '.' then c :: acc
    else extLoop rest (c :: acc)

/-- Go `path.Ext`. -/
def pathExt (p : Str) : Str := extLoop p.reverse []

/-! ## The program: `src/main.go` -/

/-- The byte `"`. -/
def dquote : Char := Char.ofNat 34

/-- The byte `'`. -/
def squote : Char := Char.ofNat 39

/-- `var validSuffixes = []string{".tsx", ".ts", ".js", ".jsx"}`. -/
def validSuffixes : List Str :=
  [['.', 't', 's', 'x'], ['.', 't', 's'], ['.', 'j', 's'], ['.', 'j', 's', 'x']]

/-- `type FileContext struct { AllFiles []string }`. -/
structure FileContext where
  AllFiles : List Str

/-- The character class `["']` of `importRegex`. -/
def isQuote (c : Char) : Bool := c = dquote || c = squote

/-- The part `(["'].*?["']);$` of `importRegex` matched against the text `s`
that follows `from `: the match has to reach the end of the text, so `s` is an
opening quote, any bytes without a newline, a closing quote and the final `;`.
The result is capture group 1, `s` without the semicolon. -/
def matchQuoted (s : Str) : Option Str :=
  match s.reverse with
  | semi :: q2 :: midrev =>
    match midrev.reverse with
    | q1 :: mid =>
      if semi = ';' ∧ isQuote q2 ∧ isQuote q1 ∧ ¬ mid.contains '\n' then some s.dropLast
      else none
    | [] => none
  | _ => none

/-- `importRegex.FindStringSubmatch(line)[1]` for
`importRegex = from (["'].*?["']);$`: the match starts at the leftmost `from `
from which the rest of the pattern matches up to the end of the line; `none`
when the line does not match (`importRegex.Match` is false). -/
def importRegexSubmatch : Str → Option Str
  | [] => none
  | c :: rest =>
    if hasPrefix (c :: rest) ['f', 'r', 'o', 'm', ' '] then
      match matchQuoted ((c :: rest).drop 5) with
      | some g => some g
      | none => importRegexSubmatch rest
    else importRegexSubmatch rest

/-- `FileContext.getSuffixPermutations`: `importName+suffix` for every valid
suffix, then `path.Join(importName, "index"+suffix)` for every valid suffix. -/
def FileContext.getSuffixPermutations (_f : FileContext) (importName : Str) : List Str :=
  validSuffixes.map (fun suffix => importName ++ suffix) ++
    validSuffixes.map (fun suffix => pathJoin importName (['i', 'n', 'd', 'e', 'x'] ++ suffix))

/-- The inner loop of `partialMatchesFor`: `file` is appended once for every
permutation it ends with. -/
def appendMatches (file : Str) : List Str → List Str → List Str
  | [], matches_ => matches_
  | perm :: perms, matches_ =>
    if hasSuffix file perm then appendMatches file perms (matches_ ++ [file])
    else appendMatches file perms matches_

/-- The outer loop of `partialMatchesFor` over `f.AllFiles`. -/
def partialMatchesLoop (importName : Str) (permutations : List Str) :
    List Str → List Str → List Str
  | [], matches_ => matches_
  | file :: files, matches_ =>
    if !contains file importName then partialMatchesLoop importName permutations files matches_
    else partialMatchesLoop importName permutations files (appendMatches file permutations matches_)

/-- `FileContext.partialMatchesFor`. -/
def FileContext.partialMatchesFor (f : FileContext) (importName : Str) : List Str :=
  partialMatchesLoop importName (f.getSuffixPermutations importName) f.AllFiles []

/-- `FileContext.fileExistsForImport`: some corpus file has `importName` as a
prefix and is equal to one of the permutations. -/
def FileContext.fileExistsForImport (f : FileContext) (importName : Str) : Bool :=
  f.AllFiles.any (fun file =>
    hasPrefix file importName &&
      (f.getSuffixPermutations importName).any (fun m => decide (m = file)))

/-- `resolve`: `path.Clean(path.Join(path.Dir(file), importName))`. -/
def resolve (importName file : Str) : Str :=
  clean (pathJoin (pathDir file) importName)

/-- The loop `for dir != "/"` of `rel`; `none` is `log.Fatalln`.  The counter
`ct` stops the loop after 100 hops, so a `fuel` of 101 is never used up. -/
def relLoop (newImport : Str) : Nat → Str → Nat → Option Str
  | 0, _, _ => none
  | fuel + 1, dir, ct =>
    if dir = ['/'] then none
    else if hasPrefix newImport dir then
      let pre := if ct > 0 then strRepeat ['.', '.', '/'] ct else ['.', '/']
      let updated := pathJoin pre (trimPrefix newImport dir)
      if !hasPrefix updated ['.', '/'] && !hasPrefix updated ['.', '.', '/'] then
        some (['.', '/'] ++ updated)
      else some updated
    else if ct + 1 > 100 then none
    else relLoop newImport fuel (pathDir dir) (ct + 1)

/-- `rel(file, newImport)`; `none` when the run is aborted by `log.Fatalln`. -/
def rel (file newImport : Str) : Option Str :=
  relLoop newImport 101 (pathDir file) 0

/-- The first two statements of `updateImport`: the extension `path.Ext` and
then a trailing `/index` are cut off the candidate. -/
def stripTarget (newImport : Str) : Str :=
  trimSuffix (trimSuffix newImport (pathExt newImport)) ['/', 'i', 'n', 'd', 'e', 'x']

/-- `updateImport`; `none` when `rel` aborts the run. -/
def updateImport (file newImport line original : Str) : Option Str :=
  match rel file (stripTarget newImport) with
  | none => none
  | some value => some (replaceFirst line original ([dquote] ++ value ++ [dquote]))

/-- What a call of `checkImport` does: it returns `nil` (`unchanged`), returns a
new line (`rewritten`), ends the process through `log.Fatalln` (`fatal`), or
panics on `matches[1]` because the line does not match `importRegex`
(`crash`; `processFile` never calls it on such a line). -/
inductive Outcome where
  | unchanged : Outcome
  | rewritten : Str → Outcome
  | fatal : Outcome
  | crash : Outcome
  deriving DecidableEq

/-- The key-shortening loop of `checkImport`:
`for len(perms) == 0 && strings.Contains(base, "/")`.  Every iteration removes
one separator from `base`, so `fuel` = the number of separators is enough. -/
def shortenLoop (ctx : FileContext) : Nat → Str → List Str → Str × List Str
  | 0, base, perms => (base, perms)
  | fuel + 1, base, perms =>
    if perms.length = 0 ∧ contains base ['/'] then
      let parts := splitSlash base
      let base2 := joinSlash parts.tail
      shortenLoop ctx fuel base2 (ctx.partialMatchesFor ('/' :: base2))
    else (base, perms)

/-- The lookup key `base` with which `checkImport` starts the candidate search
(lines 142 and 143). -/
def baseKey (name : Str) : Str := removeDotDotSlash (trimLeft name ['.', '/'])

/-- The values of `base` and `perms` after the key-shortening loop (lines 144
to 150). -/
def search (ctx : FileContext) (name : Str) : Str × List Str :=
  shortenLoop ctx (countSlash (baseKey name)) (baseKey name)
    (ctx.partialMatchesFor ('/' :: baseKey name))

/-- The candidate set `perms` that `checkImport` ends up with for the
specifier `name`. -/
def candidates (ctx : FileContext) (name : Str) : List Str := (search ctx name).2

/-- The lookup key `base` that `checkImport` ends up with. -/
def finalKey (ctx : FileContext) (name : Str) : Str := (search ctx name).1

/-- The distance of a candidate as `checkImport` computes it: the number of
separators in `rel(file, perm)`; `none` when `rel` aborts the run. -/
def distance (file perm : Str) : Option Nat := (rel file perm).map countSlash

/-- The value of `minK` after the loop over `perms`, started at `minK`, when
`rel` returns for every candidate. -/
def minDistance (file : Str) : List Str → Nat → Nat
  | [], minK => minK
  | perm :: perms, minK =>
    match distance file perm with
    | none => minDistance file perms minK
    | some k => minDistance file perms (if k < minK then k else minK)

/-- A real path element for `path.Clean`: not empty, without a separator, and
neither `.` nor `..`. -/
def NormalElem (e : Str) : Prop := e ≠ [] ∧ '/' ∉ e ∧ e ≠ ['.'] ∧ e ≠ ['.', '.']

instance (e : Str) : Decidable (NormalElem e) := by
  unfold NormalElem
  infer_instance

/-- The path element `..`. -/
def dotdotElem : Str := ['.', '.']

/-- The start of the buffer of `path.Clean`: `/` for a rooted path. -/
def rootOf (rooted : Bool) : Str := if rooted then ['/'] else []

/-- The buffers that `path.Clean` builds: after the root, `k` elements `..`
(none when rooted) and then real path elements, joined by single separators;
`dotdot` is the length of the part up to the last leading `..`. -/
def CleanState (rooted : Bool) (out : Str) (dotdot : Nat) : Prop :=
  ∃ (k : Nat) (ns : List Str), (rooted = true → k = 0) ∧ (∀ n ∈ ns, NormalElem n) ∧
    out = rootOf rooted ++ joinSlash (List.replicate k dotdotElem ++ ns) ∧
    dotdot = (rootOf rooted ++ joinSlash (List.replicate k dotdotElem)).length

/-- The text `from ` that opens the import clause. -/
def fromKw : Str := ['f', 'r', 'o', 'm', ' ']

/-- A corpus path is normalized when `path.Clean` leaves it as it is. -/
def Normalized (ctx : FileContext) : Prop := ∀ c ∈ ctx.AllFiles, clean c = c

/-- The loop `for _, perm := range perms` of `checkImport`: the map
`permsByDistance` and `minK`; `none` when `rel` aborts the run. -/
def distanceLoop (file : Str) : List Str → (Nat → List Str) → Nat →
    Option ((Nat → List Str) × Nat)
  | [], permsByDistance, minK => some (permsByDistance, minK)
  | perm :: perms, permsByDistance, minK =>
    match rel file perm with
    | none => none
    | some p0 =>
      let k := countSlash p0
      distanceLoop file perms
        (fun j => if j = k then permsByDistance j ++ [perm] else permsByDistance j)
        (if k < minK then k else minK)

/-- The specifier `name` of a matched line (line 130):
`strings.Trim(matches[1], "\"'")`. -/
def specifier (m1 : Str) : Str := trim m1 [dquote, squote]

/-- Turns the result of `updateImport` into the outcome of `checkImport`. -/
def rewriteWith (updated : Option Str) : Outcome :=
  match updated with
  | none => Outcome.fatal
  | some l => Outcome.rewritten l

/-- `checkImport(ctx, file, line)`. -/
def checkImport (ctx : FileContext) (file line : Str) : Outcome :=
  match importRegexSubmatch line with
  | none => Outcome.crash
  | some m1 =>
    let name := specifier m1
    if !hasPrefix name ['.'] then Outcome.unchanged
    else
      let expected := resolve name file
      if ctx.fileExistsForImport expected then Outcome.unchanged
      else
        let perms := candidates ctx name
        match perms with
        | [perm] => rewriteWith (updateImport file perm line m1)
        | _ =>
          match distanceLoop file perms (fun _ => []) 1000000 with
          | none => Outcome.fatal
          | some (permsByDistance, minK) =>
            match permsByDistance minK with
            | [perm] => rewriteWith (updateImport file perm line m1)
            | _ => if perms.length = 0 then Outcome.unchanged else Outcome.fatal

/-- Go `bytes.Split(data, "\n")`: the lines of the content (always at least
one). -/
def splitLines : Str → List Str
  | [] => [[]]
  | c :: rest =>
    if c = '\n' then [] :: splitLines rest
    else
      match splitLines rest with
      | [] => [[c]]
      | l :: ls => (c :: l) :: ls

/-- Go `bytes.Join(lines, "\n")`. -/
def joinLines : List Str → Str
  | [] => []
  | [l] => l
  | l :: m :: ls => l ++ '\n' :: joinLines (m :: ls)

/-- The loop `for i, line := range lines` of `processFile`: the line buffer
after the loop and the flag `changed`; `none` when `checkImport` ends the run. -/
def processLines (ctx : FileContext) (file : Str) : List Str → Option (List Str × Bool)
  | [] => some ([], false)
  | line :: rest =>
    if (importRegexSubmatch line).isSome then
      match checkImport ctx file line with
      | Outcome.unchanged =>
        match processLines ctx file rest with
        | none => none
        | some (lines, changed) => some (line :: lines, changed)
      | Outcome.rewritten result =>
        match processLines ctx file rest with
        | none => none
        | some (lines, _) => some (result :: lines, true)
      | _ => none
    else
      match processLines ctx file rest with
      | none => none
      | some (lines, changed) => some (line :: lines, changed)

/-- What a call of `processFile` on a readable file does: the run is ended by
`log.Fatalln` (`aborted`), the function returns without writing
(`notWritten`), or it calls `ioutil.WriteFile` with the given content
(`written`). -/
inductive FileResult where
  | aborted : FileResult
  | notWritten : FileResult
  | written : Str → FileResult
  deriving DecidableEq

/-- `processFile(ctx, file)` as a function of the content `data` read from the
file and of the flag `apply` (`var apply bool`, set by `-write`). -/
def processFile (ctx : FileContext) (file data : Str) (apply : Bool) : FileResult :=
  match processLines ctx file (splitLines data) with
  | none => FileResult.aborted
  | some (lines, changed) =>
    if changed && apply then FileResult.written (joinLines lines)
    else FileResult.notWritten

/-- A line is rewritten when it matches `importRegex` and `checkImport` returns
a new line for it. -/
def Rewritten (ctx : FileContext) (file line : Str) : Prop :=
  (importRegexSubmatch line).isSome = true ∧ ∃ r, checkImport ctx file line = Outcome.rewritten r

/-- The line that stands in the written content for `line`: the line returned
by `checkImport` when the line is rewritten, else `line` itself. -/
def newLine (ctx : FileContext) (file line : Str) : Str :=
  if (importRegexSubmatch line).isSome then
    match checkImport ctx file line with
    | Outcome.rewritten r => r
    | _ => line
  else line

/-- `checkImport` ends the run on `line`. -/
def Aborts (ctx : FileContext) (file line : Str) : Prop :=
  (importRegexSubmatch line).isSome = true ∧ checkImport ctx file line = Outcome.fatal

/-- The directory that the loop of `rel` looks at after `i` upward hops from
`dir`: `path.Dir` applied `i` times. -/
def hopDir (dir : Str) : Nat → Str
  | 0 => dir
  | i + 1 => hopDir (pathDir dir) i

/-- The specifier that `rel` returns when `dir`, reached after `ct` hops, is a
prefix of `newImport` (the body of the `if strings.HasPrefix(newImport, dir)`). -/
def relResult (newImport dir : Str) (ct : Nat) : Str :=
  if !hasPrefix
      (pathJoin (if ct > 0 then strRepeat ['.', '.', '/'] ct else ['.', '/'])
        (trimPrefix newImport dir)) ['.', '/'] &&
    !hasPrefix
      (pathJoin (if ct > 0 then strRepeat ['.', '.', '/'] ct else ['.', '/'])
        (trimPrefix newImport dir)) ['.', '.', '/'] then
    ['.', '/'] ++
      pathJoin (if ct > 0 then strRepeat ['.', '.', '/'] ct else ['.', '/'])
        (trimPrefix newImport dir)
  else
    pathJoin (if ct > 0 then strRepeat ['.', '.', '/'] ct else ['.', '/'])
      (trimPrefix newImport dir)

/-- The base key as the specification words it: every leading `./` segment is
stripped (this function), then every `../` is removed. -/
def stripDotSlash : Str → Str
  | c :: d :: rest => if c = '.' ∧ d = '/' then stripDotSlash rest else c :: d :: rest
  | s => s

/-- The base lookup key after the words of the specification: the specifier
with all leading `./` segments stripped and every `../` removed, no other
character altered.  To be compared with `baseKey`. -/
def specBaseKey (name : Str) : Str := removeDotDotSlash (stripDotSlash name)

/-- The keys that the words of the specification list for the segments
`s1, ..., sn` of a base key: `s1/.../sn`, `s2/.../sn`, ..., `sn`. -/
def keysOf : List Str → List Str
  | [] => []
  | seg :: segs => joinSlash (seg :: segs) :: keysOf segs

/-- The key sequence of a base key, by its segments between separators. -/
def keySequence (base : Str) : List Str := keysOf (splitSlash base)

/-- The match set of the first key of a sequence that has a non-empty match
set; empty when no key of the sequence has a match. -/
def firstMatch (ctx : FileContext) : List Str → List Str
  | [] => []
  | k :: ks =>
    if (ctx.partialMatchesFor ('/' :: k)).length = 0 then firstMatch ctx ks
    else ctx.partialMatchesFor ('/' :: k)

/-- The number of passes of the key-shortening loop of `checkImport` (the loop
of `shortenLoop`, counting instead of computing the result). -/
def shortenCount (ctx : FileContext) : Nat → Str → List Str → Nat
  | 0, _, _ => 0
  | fuel + 1, base, perms =>
    if perms.length = 0 ∧ contains base ['/'] then
      shortenCount ctx fuel (joinSlash (splitSlash base).tail)
        (ctx.partialMatchesFor ('/' :: joinSlash (splitSlash base).tail)) + 1
    else 0


/-! ## Strings: helper lemmas -/

theorem contains_cons_false {c : Char} {rest sub : Str}
    (h : contains (c :: rest) sub = false) :
    sub.isPrefixOf (c :: rest) = false ∧ contains rest sub = false := by
  simpa [contains] using h

theorem contains_slash_iff (s : Str) : contains s ['/'] = true ↔ '/' ∈ s := by
  induction s with
  | nil => simp [contains]
  | cons c rest ih =>
    simp only [contains, Bool.or_eq_true, ih, List.mem_cons]
    constructor
    · rintro (h | h)
      · left
        simp [List.isPrefixOf] at h
        exact h
      · right; exact h
    · rintro (h | h)
      · left
        simp only [List.isPrefixOf, Bool.and_true, beq_iff_eq]
        exact h
      · right; exact h

theorem isPrefixOf_shorten {old a b : Str} (h : old.isPrefixOf (a ++ b) = true)
    (hlen : old.length ≤ a.length) : old.isPrefixOf a = true := by
  rw [List.isPrefixOf_iff_prefix] at h ⊢
  exact List.prefix_of_prefix_length_le h (List.prefix_append a b) hlen

/-- When `old` does not occur before the end of `pre ++ old`, `bytes.Replace`
with count 1 rewrites exactly that occurrence. -/
theorem replaceFirst_at (pre old new post : Str) (hne : old ≠ [])
    (h : contains (pre ++ old.dropLast) old = false) :
    replaceFirst (pre ++ old ++ post) old new = pre ++ new ++ post := by
  induction pre with
  | nil =>
    obtain ⟨c, rest, rfl⟩ := List.exists_cons_of_ne_nil hne
    have hp : (c :: rest).isPrefixOf (c :: rest ++ post) = true := by
      rw [List.isPrefixOf_iff_prefix]; exact List.prefix_append _ _
    have hp2 : (c :: rest).isPrefixOf (c :: (rest ++ post)) = true := by simp
    simp only [List.nil_append, List.cons_append, replaceFirst, hp2, if_true]
    simp
  | cons a pre ih =>
    obtain ⟨h1, h2⟩ := contains_cons_false (by simpa using h)
    have hnp : old.isPrefixOf (a :: (pre ++ old ++ post)) = false := by
      by_contra hc
      rw [Bool.not_eq_false] at hc
      have hlen : old.length ≤ (a :: (pre ++ old.dropLast)).length := by
        have := List.length_dropLast old
        have hpos : 0 < old.length := List.length_pos.mpr hne
        simp only [List.length_cons, List.length_append, List.length_dropLast]
        omega
      have hsplit : a :: (pre ++ old ++ post) =
          (a :: (pre ++ old.dropLast)) ++ ([old.getLast hne] ++ post) := by
        conv_lhs => rw [← List.dropLast_append_getLast hne]
        simp
      rw [hsplit] at hc
      have := isPrefixOf_shorten hc hlen
      rw [this] at h1
      exact Bool.noConfusion h1
    have hnp2 : old.isPrefixOf (a :: (pre ++ (old ++ post))) = false := by
      simpa using hnp
    simp only [List.append_assoc] at ih
    have hstep : replaceFirst (a :: (pre ++ (old ++ post))) old new =
        a :: replaceFirst (pre ++ (old ++ post)) old new := by
      rw [replaceFirst, if_neg (by simp [hnp2])]
    simp only [List.cons_append, List.append_assoc, hstep, ih h2]


/-! ## The scanner and the key-shortening loop: helper lemmas -/

theorem matchQuoted_shape {s g : Str} (h : matchQuoted s = some g) :
    s = g ++ [';'] ∧ g ≠ [] := by
  unfold matchQuoted at h
  split at h
  · rename_i semi q2 midrev hrev
    split at h
    · rename_i q1 mid hmid
      split at h
      · rename_i hcond
        obtain ⟨hsemi, -⟩ := hcond
        have hs : s = (q2 :: midrev).reverse ++ [semi] := by
          have := congrArg List.reverse hrev
          simpa using this
        have hg : g = s.dropLast := by
          simpa using h.symm
        subst hsemi
        rw [hg, hs]
        simp
      · exact absurd h (by simp)
    · exact absurd h (by simp)
  · exact absurd h (by simp)

theorem importRegexSubmatch_shape {line m1 : Str} (h : importRegexSubmatch line = some m1) :
    ∃ p, line = p ++ fromKw ++ m1 ++ [';'] ∧ m1 ≠ [] := by
  induction line with
  | nil => simp [importRegexSubmatch] at h
  | cons c rest ih =>
    rw [importRegexSubmatch] at h
    split at h
    · rename_i hpre
      split at h
      · rename_i g hg
        obtain ⟨hs, hne⟩ := matchQuoted_shape hg
        have hm : g = m1 := by simpa using h
        subst hm
        refine ⟨[], ?_, hne⟩
        have hpre2 : fromKw <+: (c :: rest) := by
          simpa [hasPrefix, fromKw] using hpre
        obtain ⟨t, ht⟩ := hpre2
        have hdrop : List.drop 5 (c :: rest) = t := by
          rw [← ht]; simp [fromKw]
        rw [hdrop] at hs
        rw [← ht, hs]
        simp
      · obtain ⟨p, hp, hne⟩ := ih h
        exact ⟨c :: p, by simp [hp], hne⟩
    · obtain ⟨p, hp, hne⟩ := ih h
      exact ⟨c :: p, by simp [hp], hne⟩

theorem joinSlash_cons_ne (p : Str) {ps : List Str} (h : ps ≠ []) :
    joinSlash (p :: ps) = p ++ '/' :: joinSlash ps := by
  cases ps with
  | nil => exact absurd rfl h
  | cons q qs => rfl

theorem splitSlash_ne_nil (s : Str) : splitSlash s ≠ [] := by
  cases s with
  | nil => simp [splitSlash]
  | cons c rest =>
    rw [splitSlash]
    split
    · simp
    · split <;> simp

theorem joinSlash_splitSlash (s : Str) : joinSlash (splitSlash s) = s := by
  induction s with
  | nil => rfl
  | cons c rest ih =>
    rw [splitSlash]
    split
    · rename_i hc
      rw [joinSlash_cons_ne _ (splitSlash_ne_nil rest), ih, hc]
      rfl
    · split
      · rename_i hnil
        exact absurd hnil (splitSlash_ne_nil rest)
      · rename_i p ps hps
        rw [hps] at ih
        cases ps with
        | nil =>
          simp only [joinSlash] at ih ⊢
          rw [ih]
        | cons q qs =>
          simp only [joinSlash] at ih ⊢
          rw [← ih]
          rfl

/-- One pass of the key-shortening loop removes exactly one separator of the key. -/
theorem countSlash_shorten {base : Str} (h : '/' ∈ base) :
    countSlash (joinSlash (splitSlash base).tail) + 1 = countSlash base := by
  induction base with
  | nil => simp at h
  | cons c rest ih =>
    rw [splitSlash]
    split
    · rename_i hc
      subst hc
      simp [joinSlash_splitSlash, countSlash]
    · rename_i hc
      have hmem : '/' ∈ rest := by
        rcases List.mem_cons.mp h with h1 | h1
        · exact absurd h1.symm hc
        · exact h1
      have hcount : countSlash (c :: rest) = countSlash rest := by
        simp [countSlash, List.count_cons, hc]
      split
      · rename_i hnil
        exact absurd hnil (splitSlash_ne_nil rest)
      · rename_i p ps hps
        rw [hps] at ih
        rw [hcount]
        exact ih hmem

theorem countSlash_pos_of_mem {s : Str} (h : '/' ∈ s) : 0 < countSlash s :=
  List.count_pos_iff.mpr h

/-- With at least as much fuel as the key has separators, the key-shortening
loop stops only when it found candidates or the key has no separator left. -/
theorem shortenLoop_done (ctx : FileContext) (fuel : Nat) (base : Str) (perms : List Str)
    (hfuel : countSlash base ≤ fuel)
    (hempty : (shortenLoop ctx fuel base perms).2 = []) :
    contains (shortenLoop ctx fuel base perms).1 ['/'] = false := by
  induction fuel generalizing base perms with
  | zero =>
    simp only [shortenLoop]
    by_contra hc
    rw [Bool.not_eq_false, contains_slash_iff] at hc
    have := countSlash_pos_of_mem hc
    omega
  | succ fuel ih =>
    rw [shortenLoop] at hempty ⊢
    split
    · rename_i hcond
      rw [if_pos hcond] at hempty
      have hmem := (contains_slash_iff base).mp hcond.2
      have := countSlash_shorten hmem
      exact ih _ _ (by omega) hempty
    · rename_i hcond
      rw [if_neg hcond] at hempty
      simp only at hempty ⊢
      by_contra hc
      rw [Bool.not_eq_false] at hc
      exact hcond ⟨by simp [hempty], hc⟩


/-! ## The distance loop: helper lemmas -/

theorem distanceLoop_none (file : Str) (perms : List Str) (m0 : Nat → List Str) (k0 : Nat)
    (h : ∃ c ∈ perms, distance file c = none) :
    distanceLoop file perms m0 k0 = none := by
  induction perms generalizing m0 k0 with
  | nil => simp at h
  | cons a perms ih =>
    rw [distanceLoop]
    cases hr : rel file a with
    | none => rfl
    | some p0 =>
      simp only
      apply ih
      obtain ⟨c, hc, hd⟩ := h
      rcases List.mem_cons.mp hc with rfl | hmem
      · simp [distance, hr] at hd
      · exact ⟨c, hmem, hd⟩

theorem distanceLoop_some (file : Str) (perms : List Str) (m0 : Nat → List Str) (k0 : Nat)
    (h : ∀ c ∈ perms, ∃ k, distance file c = some k) :
    ∃ m, distanceLoop file perms m0 k0 = some (m, minDistance file perms k0) ∧
      ∀ j, m j = m0 j ++ perms.filter (fun c => decide (distance file c = some j)) := by
  induction perms generalizing m0 k0 with
  | nil => exact ⟨m0, rfl, by simp⟩
  | cons a perms ih =>
    obtain ⟨k, hk⟩ := h a (List.mem_cons_self _ _)
    have hr : ∃ p0, rel file a = some p0 ∧ countSlash p0 = k := by
      cases hr : rel file a with
      | none => simp [distance, hr] at hk
      | some p0 => exact ⟨p0, rfl, by simpa [distance, hr] using hk⟩
    obtain ⟨p0, hp0, hcount⟩ := hr
    obtain ⟨m, hm, hmj⟩ := ih
      (fun j => if j = k then m0 j ++ [a] else m0 j) (if k < k0 then k else k0)
      (fun c hc => h c (List.mem_cons_of_mem _ hc))
    refine ⟨m, ?_, ?_⟩
    · rw [distanceLoop, hp0]
      simp only [hcount]
      rw [hm, minDistance, hk]
    · intro j
      rw [hmj j]
      by_cases hj : j = k
      · subst hj
        simp [List.filter_cons, hk]
      · have : ¬ (distance file a = some j) := by
          rw [hk]; intro hc; exact hj (Option.some.inj hc).symm
        simp [List.filter_cons, hj, this]

theorem minDistance_eq (file : Str) (perms : List Str) (k0 k : Nat) (c : Str)
    (hc : c ∈ perms) (hk : distance file c = some k) (hlt : k < k0)
    (hmin : ∀ c2 ∈ perms, ∀ k2, distance file c2 = some k2 → k ≤ k2) :
    minDistance file perms k0 = k := by
  induction perms generalizing k0 with
  | nil => simp at hc
  | cons a perms ih =>
    have hmin2 : ∀ c2 ∈ perms, ∀ k2, distance file c2 = some k2 → k ≤ k2 :=
      fun c2 h2 => hmin c2 (List.mem_cons_of_mem _ h2)
    have hstable : ∀ l : List Str, (∀ c2 ∈ l, ∀ k2, distance file c2 = some k2 → k ≤ k2) →
        minDistance file l k = k := by
      intro l
      induction l with
      | nil => intro _; rfl
      | cons b l ihl =>
        intro hl
        rw [minDistance]
        split
        · exact ihl (fun c2 h2 => hl c2 (List.mem_cons_of_mem _ h2))
        · rename_i kb hkb
          have := hl b (List.mem_cons_self _ _) kb hkb
          rw [if_neg (by omega)]
          exact ihl (fun c2 h2 => hl c2 (List.mem_cons_of_mem _ h2))
    rw [minDistance]
    rcases List.mem_cons.mp hc with rfl | hmem
    · rw [hk]
      simp only [hlt, if_true]
      exact hstable perms hmin2
    · split
      · exact ih k0 hmem hlt hmin2
      · rename_i ka hka
        have hle := hmin a (List.mem_cons_self _ _) ka hka
        split
        · rename_i hlt2
          rcases Nat.lt_or_ge k ka with h1 | h1
          · exact ih ka hmem h1 hmin2
          · have : ka = k := by omega
            subst this
            exact hstable perms hmin2
        · exact ih k0 hmem hlt hmin2


/-! ## checkImport: helper lemmas -/

/-- The shape of `checkImport` on a matched line with a broken relative
specifier: everything is decided by the candidate set. -/
theorem checkImport_broken (ctx : FileContext) (file line m1 : Str)
    (hm : importRegexSubmatch line = some m1)
    (hrel : hasPrefix (specifier m1) ['.'] = true)
    (hbroken : ctx.fileExistsForImport (resolve (specifier m1) file) = false) :
    checkImport ctx file line =
      match candidates ctx (specifier m1) with
      | [perm] => rewriteWith (updateImport file perm line m1)
      | perms =>
        match distanceLoop file perms (fun _ => []) 1000000 with
        | none => Outcome.fatal
        | some (permsByDistance, minK) =>
          match permsByDistance minK with
          | [perm] => rewriteWith (updateImport file perm line m1)
          | _ => if perms.length = 0 then Outcome.unchanged else Outcome.fatal := by
  simp only [checkImport, hm, hrel, hbroken]
  simp only [Bool.not_true, Bool.false_eq_true, if_false]
  split <;> simp_all

/-- The line `updateImport` returns when `rel` returns `v` and the captured
text has no occurrence in the line before the import clause. -/
theorem updateImport_line (file c p m1 v : Str) (hne : m1 ≠ [])
    (hv : rel file (stripTarget c) = some v)
    (hfirst : contains (p ++ fromKw ++ m1.dropLast) m1 = false) :
    updateImport file c (p ++ fromKw ++ m1 ++ [';']) m1 =
      some (p ++ fromKw ++ [dquote] ++ v ++ [dquote] ++ [';']) := by
  simp only [updateImport, hv]
  have := replaceFirst_at (p ++ fromKw) m1 ([dquote] ++ v ++ [dquote]) [';'] hne hfirst
  simp only [List.append_assoc] at this ⊢
  rw [this]


/-! ## `path.Clean`: the loop -/

theorem length_dropWhile_le (q : Char → Bool) (l : Str) : (l.dropWhile q).length ≤ l.length := by
  induction l with
  | nil => simp
  | cons a l ih =>
    rw [List.dropWhile_cons]
    split
    · exact Nat.le_succ_of_le ih
    · exact Nat.le_refl _

/-- The loop of `path.Clean` does not depend on the fuel once the fuel covers
the unread input. -/
theorem cleanLoop_fuel (rooted : Bool) (f1 f2 : Nat) (p out : Str) (dd : Nat)
    (h1 : p.length ≤ f1) (h2 : p.length ≤ f2) :
    cleanLoop rooted f1 p out dd = cleanLoop rooted f2 p out dd := by
  induction f1 generalizing f2 p out dd with
  | zero =>
    have hp : p = [] := List.length_eq_zero.mp (Nat.le_zero.mp h1)
    subst hp
    cases f2 <;> rfl
  | succ f1 ih =>
    cases p with
    | nil => cases f2 <;> rfl
    | cons c rest =>
      cases f2 with
      | zero => simp at h2
      | succ f2 =>
        have hr1 : rest.length ≤ f1 := by simpa using h1
        have hr2 : rest.length ≤ f2 := by simpa using h2
        have ht : rest.tail.length ≤ rest.length := by simp
        have hd := length_dropWhile_le (fun x => x != '/') rest
        simp only [cleanLoop]
        split
        · exact ih _ _ _ _ hr1 hr2
        · split
          · exact ih _ _ _ _ hr1 hr2
          · split
            · split
              · exact ih _ _ _ _ (by omega) (by omega)
              · split
                · exact ih _ _ _ _ (by omega) (by omega)
                · exact ih _ _ _ _ (by omega) (by omega)
            · exact ih _ _ _ _ (by omega) (by omega)

theorem cleanLoop_cons (rooted : Bool) (fuel : Nat) (c : Char) (rest out : Str) (dd : Nat) :
    cleanLoop rooted (fuel + 1) (c :: rest) out dd =
      if c = '/' then cleanLoop rooted fuel rest out dd
      else if c = '.' ∧ (rest = [] ∨ rest.head? = some '/') then
        cleanLoop rooted fuel rest out dd
      else if c = '.' ∧ rest.head? = some '.' ∧
          (rest.tail = [] ∨ rest.tail.head? = some '/') then
        if out.length > dd then
          cleanLoop rooted fuel rest.tail (popElem dd out) dd
        else if !rooted then
          cleanLoop rooted fuel rest.tail
            ((if out.length > 0 then out ++ ['/'] else out) ++ ['.', '.'])
            ((if out.length > 0 then out ++ ['/'] else out) ++ ['.', '.']).length
        else
          cleanLoop rooted fuel rest.tail out dd
      else
        cleanLoop rooted fuel (rest.dropWhile (fun x => x != '/'))
          (addSlash rooted out ++ c :: rest.takeWhile (fun x => x != '/')) dd := by
  rw [cleanLoop]

theorem dropWhile_append_slash (l q : Str) :
    (l ++ '/' :: q).dropWhile (fun x => x != '/') =
      l.dropWhile (fun x => x != '/') ++ '/' :: q := by
  induction l with
  | nil => simp [List.dropWhile_cons]
  | cons a l ih =>
    simp only [List.cons_append, List.dropWhile_cons]
    split
    · exact ih
    · rfl

theorem takeWhile_append_slash (l q : Str) :
    (l ++ '/' :: q).takeWhile (fun x => x != '/') = l.takeWhile (fun x => x != '/') := by
  induction l with
  | nil => simp [List.takeWhile_cons]
  | cons a l ih =>
    simp only [List.cons_append, List.takeWhile_cons]
    split
    · rw [ih]
    · rfl

/-- Reading `p` and then a separator and more input: the loop of `path.Clean`
first reaches the state it ends in on `p` alone. -/
theorem cleanLoop_append (rooted : Bool) (fuel : Nat) (p q out : Str) (dd : Nat)
    (hf : p.length ≤ fuel) :
    cleanLoop rooted (fuel + (q.length + 1)) (p ++ '/' :: q) out dd =
      cleanLoop rooted (q.length + 1) ('/' :: q)
        (cleanLoop rooted fuel p out dd).1 (cleanLoop rooted fuel p out dd).2 := by
  induction fuel generalizing p out dd with
  | zero =>
    have hp : p = [] := List.length_eq_zero.mp (Nat.le_zero.mp hf)
    subst hp
    simp [cleanLoop]
  | succ fuel ih =>
    cases p with
    | nil =>
      simp only [List.nil_append, cleanLoop]
      exact cleanLoop_fuel _ _ _ _ _ _ (by simp) (by simp)
    | cons c rest =>
      have hr : rest.length ≤ fuel := by simpa using hf
      have ht : rest.tail.length ≤ rest.length := by simp
      have hd := length_dropWhile_le (fun x => x != '/') rest
      have hfuel : fuel + 1 + (q.length + 1) = (fuel + (q.length + 1)) + 1 := by omega
      have hc1 : (rest ++ '/' :: q = [] ∨ (rest ++ '/' :: q).head? = some '/') ↔
          (rest = [] ∨ rest.head? = some '/') := by
        cases rest <;> simp
      have hc2 : ((rest ++ '/' :: q).head? = some '.' ∧
          ((rest ++ '/' :: q).tail = [] ∨ (rest ++ '/' :: q).tail.head? = some '/')) ↔
          (rest.head? = some '.' ∧ (rest.tail = [] ∨ rest.tail.head? = some '/')) := by
        cases rest with
        | nil => simp
        | cons a rest2 => cases rest2 <;> simp
      have htail : rest.head? = some '.' → (rest ++ '/' :: q).tail = rest.tail ++ '/' :: q := by
        cases rest <;> simp
      rw [hfuel, List.cons_append,
        cleanLoop_cons rooted (fuel + (q.length + 1)) c (rest ++ '/' :: q) out dd,
        cleanLoop_cons rooted fuel c rest out dd]
      simp only [hc1, hc2, dropWhile_append_slash, takeWhile_append_slash]
      split_ifs with g1 g2 g3 g4 g5 <;> first
        | exact ih _ _ _ hr
        | exact ih _ _ _ (by omega)
        | (rw [htail g3.2.1]; exact ih _ _ _ (by omega))


/-! ## `path.Clean`: single steps of the loop -/

theorem cleanLoop_nil (rooted : Bool) (fuel : Nat) (out : Str) (dd : Nat) :
    cleanLoop rooted fuel [] out dd = (out, dd) := by
  cases fuel <;> rfl

theorem takeWhile_elem {e rest : Str} (he : '/' ∉ e)
    (hrest : rest = [] ∨ rest.head? = some '/') :
    (e ++ rest).takeWhile (fun x => x != '/') = e ∧
      (e ++ rest).dropWhile (fun x => x != '/') = rest := by
  induction e with
  | nil =>
    rcases hrest with rfl | h
    · simp
    · cases rest with
      | nil => simp
      | cons a r =>
        have ha : a = '/' := by simpa using h
        subst ha
        simp [List.takeWhile_cons, List.dropWhile_cons]
  | cons a e ih =>
    have ha : a ≠ '/' := fun h => he (by simp [h])
    have he2 : '/' ∉ e := fun h => he (List.mem_cons_of_mem _ h)
    obtain ⟨h1, h2⟩ := ih he2
    simp [List.takeWhile_cons, List.dropWhile_cons, ha, h1, h2]

/-- One iteration of the loop of `path.Clean` on a real path element: the
element is copied to the buffer, after a slash where one is needed. -/
theorem cleanLoop_elem (rooted : Bool) (fuel : Nat) (e rest out : Str) (dd : Nat)
    (he : NormalElem e) (hrest : rest = [] ∨ rest.head? = some '/') :
    cleanLoop rooted (fuel + 1) (e ++ rest) out dd =
      cleanLoop rooted fuel rest (addSlash rooted out ++ e) dd := by
  obtain ⟨hne, hns, hd1, hd2⟩ := he
  obtain ⟨c, e1, rfl⟩ := List.exists_cons_of_ne_nil hne
  have hc : c ≠ '/' := fun h => hns (by simp [h])
  have he1 : '/' ∉ e1 := fun h => hns (List.mem_cons_of_mem _ h)
  obtain ⟨htw, hdw⟩ := takeWhile_elem he1 hrest
  have g2 : ¬ (c = '.' ∧ (e1 ++ rest = [] ∨ (e1 ++ rest).head? = some '/')) := by
    rintro ⟨rfl, h⟩
    cases e1 with
    | nil => exact hd1 rfl
    | cons a e2 =>
      have ha : a ≠ '/' := fun h2 => he1 (by simp [h2])
      rcases h with h | h
      · simp at h
      · exact ha (by simpa using h)
  have g3 : ¬ (c = '.' ∧ (e1 ++ rest).head? = some '.' ∧
      ((e1 ++ rest).tail = [] ∨ (e1 ++ rest).tail.head? = some '/')) := by
    rintro ⟨rfl, h1, h2⟩
    cases e1 with
    | nil =>
      rcases hrest with rfl | h
      · simp at h1
      · simp only [List.nil_append] at h1
        rw [h] at h1
        exact absurd h1 (by decide)
    | cons a e2 =>
      have ha : a = '.' := by simpa using h1
      subst ha
      cases e2 with
      | nil => exact hd2 rfl
      | cons b e3 =>
        have hb : b ≠ '/' := fun h3 => he1 (by simp [h3])
        rcases h2 with h | h
        · simp at h
        · exact hb (by simpa using h)
  rw [List.cons_append, cleanLoop_cons, if_neg hc, if_neg g2, if_neg g3, htw, hdw]

/-- One iteration of the loop of `path.Clean` on `..` when nothing can be
removed and the path is not rooted: `..` is appended and `dotdot` moves. -/
theorem cleanLoop_dotdot_push (fuel : Nat) (rest out : Str) (dd : Nat)
    (hrest : rest = [] ∨ rest.head? = some '/') (hlen : ¬ out.length > dd) :
    cleanLoop false (fuel + 1) (dotdotElem ++ rest) out dd =
      cleanLoop false fuel rest
        ((if out.length > 0 then out ++ ['/'] else out) ++ ['.', '.'])
        ((if out.length > 0 then out ++ ['/'] else out) ++ ['.', '.']).length := by
  have g2 : ¬ ('.' = '.' ∧ ('.' :: rest = [] ∨ ('.' :: rest).head? = some '/')) := by
    simp
  have g3 : ('.' = '.' ∧ ('.' :: rest).head? = some '.' ∧
      (('.' :: rest).tail = [] ∨ ('.' :: rest).tail.head? = some '/')) := by
    simpa using hrest
  have g1 : ¬ ('.' = '/') := by decide
  show cleanLoop false (fuel + 1) ('.' :: ('.' :: rest)) out dd = _
  rw [cleanLoop_cons, if_neg g1, if_neg g2, if_pos g3, if_neg hlen]
  simp

theorem cleanLoop_slash (rooted : Bool) (fuel : Nat) (rest out : Str) (dd : Nat) :
    cleanLoop rooted (fuel + 1) ('/' :: rest) out dd = cleanLoop rooted fuel rest out dd := by
  rw [cleanLoop_cons, if_pos rfl]

/-! ## `path.Clean`: joined elements -/

theorem joinSlash_snoc {l : List Str} (e : Str) (h : l ≠ []) :
    joinSlash (l ++ [e]) = joinSlash l ++ '/' :: e := by
  induction l with
  | nil => exact absurd rfl h
  | cons a l ih =>
    cases l with
    | nil => simp [joinSlash]
    | cons b l2 =>
      have h2 := ih (by simp)
      have h3 : joinSlash (a :: b :: (l2 ++ [e])) = a ++ '/' :: joinSlash (b :: (l2 ++ [e])) :=
        rfl
      simp only [List.cons_append] at h2 ⊢
      rw [h3, h2]
      simp [joinSlash]

theorem joinSlash_ne_nil {l : List Str} (h : l ≠ []) (hne : ∀ e ∈ l, e ≠ []) :
    joinSlash l ≠ [] := by
  cases l with
  | nil => exact absurd rfl h
  | cons a l =>
    have ha := hne a (List.mem_cons_self _ _)
    cases l with
    | nil => simpa [joinSlash] using ha
    | cons b l2 => simp [joinSlash, ha]


/-! ## `path.Clean` on a clean path -/

theorem addSlash_root (rooted : Bool) : addSlash rooted (rootOf rooted) = rootOf rooted := by
  cases rooted <;> rfl

theorem addSlash_of_ne_nil (rooted : Bool) {b : Str} (hb : b ≠ []) :
    addSlash rooted (rootOf rooted ++ b) = rootOf rooted ++ b ++ ['/'] := by
  have hpos : 0 < b.length := List.length_pos.mpr hb
  cases rooted
  · have h0 : ¬ b.length = 0 := by omega
    simp [addSlash, rootOf, hb]
  · have h1 : ¬ (b.length + 1 = 1) := by omega
    simp [addSlash, rootOf, hb]

/-- The loop of `path.Clean` on one real path element, read to its end. -/
theorem cleanLoop_last_elem (rooted : Bool) (e out : Str) (dd : Nat) (he : NormalElem e) :
    cleanLoop rooted e.length e out dd = (addSlash rooted out ++ e, dd) := by
  obtain ⟨n, hn⟩ : ∃ n, e.length = n + 1 :=
    ⟨e.length - 1, by have := List.length_pos.mpr he.1; omega⟩
  have h := cleanLoop_elem rooted n e [] out dd he (Or.inl rfl)
  rw [List.append_nil] at h
  rw [hn, h, cleanLoop_nil]

/-- Reading one more element after a non-empty joined list of elements. -/
theorem cleanLoop_snoc (rooted : Bool) (l : List Str) (e out : Str) (dd : Nat) (hl : l ≠ []) :
    cleanLoop rooted (joinSlash (l ++ [e])).length (joinSlash (l ++ [e])) out dd =
      cleanLoop rooted e.length e
        (cleanLoop rooted (joinSlash l).length (joinSlash l) out dd).1
        (cleanLoop rooted (joinSlash l).length (joinSlash l) out dd).2 := by
  rw [joinSlash_snoc e hl]
  have hlen : (joinSlash l ++ '/' :: e).length = (joinSlash l).length + (e.length + 1) := by
    simp
  rw [hlen, cleanLoop_append rooted _ _ _ _ _ (Nat.le_refl _), cleanLoop_slash]

theorem joinSlash_replicate_succ (k : Nat) :
    joinSlash (List.replicate (k + 1) dotdotElem) =
      (if (joinSlash (List.replicate k dotdotElem)).length > 0
        then joinSlash (List.replicate k dotdotElem) ++ ['/']
        else joinSlash (List.replicate k dotdotElem)) ++ ['.', '.'] := by
  cases k with
  | zero => rfl
  | succ k =>
    have hne : List.replicate (k + 1) dotdotElem ≠ [] := by simp
    have hj : joinSlash (List.replicate (k + 1) dotdotElem) ≠ [] :=
      joinSlash_ne_nil hne (fun e he => by
        rw [List.eq_of_mem_replicate he]; simp [dotdotElem])
    have hpos : (joinSlash (List.replicate (k + 1) dotdotElem)).length > 0 :=
      List.length_pos.mpr hj
    rw [if_pos hpos, List.replicate_succ', joinSlash_snoc _ hne]
    simp [dotdotElem]

/-- The loop of `path.Clean`, not rooted, on `k` elements `..`. -/
theorem cleanLoop_dots (k : Nat) :
    cleanLoop false (joinSlash (List.replicate k dotdotElem)).length
        (joinSlash (List.replicate k dotdotElem)) [] 0 =
      (joinSlash (List.replicate k dotdotElem),
        (joinSlash (List.replicate k dotdotElem)).length) := by
  induction k with
  | zero => rfl
  | succ k ih =>
    have hstep : ∀ (out : Str),
        cleanLoop false dotdotElem.length dotdotElem out out.length =
          ((if out.length > 0 then out ++ ['/'] else out) ++ ['.', '.'],
            ((if out.length > 0 then out ++ ['/'] else out) ++ ['.', '.']).length) := by
      intro out
      have h := cleanLoop_dotdot_push 1 [] out out.length (Or.inl rfl) (Nat.lt_irrefl _)
      rw [List.append_nil] at h
      show cleanLoop false 2 dotdotElem out out.length = _
      rw [h, cleanLoop_nil]
    cases k with
    | zero => exact hstep []
    | succ k =>
      rw [List.replicate_succ', cleanLoop_snoc false _ _ _ _ (by simp), ih]
      simp only
      rw [hstep, ← List.replicate_succ', joinSlash_replicate_succ (k + 1)]


theorem elems_ne_nil (k : Nat) {ns : List Str} (hns : ∀ n ∈ ns, NormalElem n) :
    ∀ e ∈ List.replicate k dotdotElem ++ ns, e ≠ [] := by
  intro e he
  rcases List.mem_append.mp he with h | h
  · rw [List.eq_of_mem_replicate h]; simp [dotdotElem]
  · exact (hns e h).1

/-- The loop of `path.Clean` on a clean path (after the root, `k` elements
`..` and then real elements): the buffer ends as the path itself. -/
theorem cleanLoop_cleanForm (rooted : Bool) (k : Nat) (ns : List Str)
    (hk : rooted = true → k = 0) (hns : ∀ n ∈ ns, NormalElem n) :
    cleanLoop rooted (joinSlash (List.replicate k dotdotElem ++ ns)).length
        (joinSlash (List.replicate k dotdotElem ++ ns)) (rootOf rooted) (rootOf rooted).length =
      (rootOf rooted ++ joinSlash (List.replicate k dotdotElem ++ ns),
        (rootOf rooted ++ joinSlash (List.replicate k dotdotElem)).length) := by
  induction ns using List.reverseRecOn with
  | nil =>
    rw [List.append_nil]
    cases rooted with
    | true =>
      rw [hk rfl]
      rfl
    | false =>
      have := cleanLoop_dots k
      simpa [rootOf] using this
  | append_singleton ns e ih =>
    have hns2 : ∀ n ∈ ns, NormalElem n := fun n hn => hns n (List.mem_append_left _ hn)
    have he : NormalElem e := hns e (List.mem_append_right _ (List.mem_singleton_self e))
    rw [← List.append_assoc]
    by_cases hl : List.replicate k dotdotElem ++ ns = []
    · have hk0 : k = 0 := by
        cases k with
        | zero => rfl
        | succ k => simp [List.replicate_succ] at hl
      rw [hl]
      subst hk0
      show cleanLoop rooted e.length e (rootOf rooted) (rootOf rooted).length = _
      rw [cleanLoop_last_elem rooted e _ _ he, addSlash_root]
      simp [joinSlash]
    · rw [cleanLoop_snoc rooted _ e _ _ hl, ih hns2]
      simp only
      rw [cleanLoop_last_elem rooted e _ _ he,
        addSlash_of_ne_nil rooted (joinSlash_ne_nil hl (elems_ne_nil k hns2)),
        joinSlash_snoc e hl]
      simp

theorem head_joinSlash (a : Str) (l : List Str) (ha : a ≠ []) :
    (joinSlash (a :: l)).head? = a.head? := by
  obtain ⟨c, r, rfl⟩ := List.exists_cons_of_ne_nil ha
  cases l <;> simp [joinSlash]

theorem head_cleanForm (k : Nat) (ns : List Str) (hns : ∀ n ∈ ns, NormalElem n) :
    (joinSlash (List.replicate k dotdotElem ++ ns)).head? ≠ some '/' := by
  cases k with
  | succ k =>
    rw [List.replicate_succ, List.cons_append, head_joinSlash _ _ (by simp [dotdotElem])]
    simp [dotdotElem]
  | zero =>
    cases ns with
    | nil => simp [joinSlash]
    | cons a l =>
      have ha := hns a (List.mem_cons_self _ _)
      rw [List.replicate_zero, List.nil_append, head_joinSlash _ _ ha.1]
      obtain ⟨c, r, rfl⟩ := List.exists_cons_of_ne_nil ha.1
      intro h
      have hc : c = '/' := by simpa using h
      exact ha.2.1 (by simp [hc])

/-- The buffer of `path.Clean` on a clean path is the path itself. -/
theorem cleanOut_cleanForm (rooted : Bool) (k : Nat) (ns : List Str)
    (hk : rooted = true → k = 0) (hns : ∀ n ∈ ns, NormalElem n) :
    cleanOut (rootOf rooted ++ joinSlash (List.replicate k dotdotElem ++ ns)) =
      rootOf rooted ++ joinSlash (List.replicate k dotdotElem ++ ns) := by
  have h := cleanLoop_cleanForm rooted k ns hk hns
  cases rooted with
  | true =>
    have hfuel := cleanLoop_fuel true
      (['/'] ++ joinSlash (List.replicate k dotdotElem ++ ns)).length
      (joinSlash (List.replicate k dotdotElem ++ ns)).length
      (joinSlash (List.replicate k dotdotElem ++ ns)) ['/'] 1 (by simp) (Nat.le_refl _)
    have hroot : rootOf true = ['/'] := rfl
    rw [hroot] at h ⊢
    have hh : (['/'] ++ joinSlash (List.replicate k dotdotElem ++ ns)).head? = some '/' := rfl
    rw [cleanOut, if_pos hh]
    show (cleanLoop true _ (joinSlash (List.replicate k dotdotElem ++ ns)) ['/'] 1).1 = _
    rw [hfuel]
    have h1 : (['/'] : Str).length = 1 := rfl
    rw [h1] at h
    rw [h]
  | false =>
    have hroot : rootOf false = [] := rfl
    rw [hroot] at h ⊢
    simp only [List.nil_append, List.length_nil] at h ⊢
    rw [cleanOut, if_neg (head_cleanForm k ns hns), h]


/-! ## `path.Clean`: removing the last element -/

theorem backtrack_elem (dd : Nat) (er xr : Str) (last : Char)
    (her : '/' ∉ er) (hlast : last ≠ '/') (hdd : dd ≤ xr.length) :
    ∃ l2, l2 ≠ '/' ∧ backtrack dd (er ++ xr) last = backtrack dd xr l2 := by
  induction er generalizing last with
  | nil => exact ⟨last, hlast, rfl⟩
  | cons c er ih =>
    have hc : c ≠ '/' := fun h => her (by simp [h])
    have her2 : '/' ∉ er := fun h => her (List.mem_cons_of_mem _ h)
    obtain ⟨l2, hl2, h⟩ := ih c her2 hc
    refine ⟨l2, hl2, ?_⟩
    have hcond : (c :: (er ++ xr)).length > dd ∧ last ≠ '/' := by
      refine ⟨?_, hlast⟩
      simp only [List.length_cons, List.length_append]
      omega
    rw [List.cons_append, backtrack, if_pos hcond, h]

theorem backtrack_stop_length (dd : Nat) (xr : Str) (last : Char) (h : xr.length = dd) :
    backtrack dd xr last = xr := by
  cases xr with
  | nil => rfl
  | cons c r =>
    rw [backtrack, if_neg]
    rintro ⟨h1, -⟩
    omega

theorem backtrack_stop_slash (dd : Nat) (xr : Str) : backtrack dd xr '/' = xr := by
  cases xr with
  | nil => rfl
  | cons c r =>
    rw [backtrack, if_neg]
    rintro ⟨-, h2⟩
    exact h2 rfl

theorem popElem_first (dd : Nat) (x e : Str) (hne : e ≠ []) (he : '/' ∉ e)
    (hx : x.length = dd) : popElem dd (x ++ e) = x := by
  rcases List.eq_nil_or_concat e with h | ⟨e0, a, h⟩
  · exact absurd h hne
  · rw [List.concat_eq_append] at h
    subst h
    have ha : a ≠ '/' := fun h => he (by simp [h])
    have he0 : '/' ∉ e0.reverse := fun h => he (by
      rw [List.mem_reverse] at h
      exact List.mem_append_left _ h)
    have hrev : (x ++ (e0 ++ [a])).reverse = a :: (e0.reverse ++ x.reverse) := by simp
    obtain ⟨l2, -, h⟩ := backtrack_elem dd e0.reverse x.reverse a he0 ha (by simp [hx])
    rw [popElem, hrev]
    simp only
    rw [h, backtrack_stop_length dd _ _ (by simp [hx])]
    simp

theorem popElem_later (dd : Nat) (x e : Str) (hne : e ≠ []) (he : '/' ∉ e)
    (hx : dd ≤ x.length) : popElem dd (x ++ '/' :: e) = x := by
  rcases List.eq_nil_or_concat e with h | ⟨e0, a, h⟩
  · exact absurd h hne
  · rw [List.concat_eq_append] at h
    subst h
    have ha : a ≠ '/' := fun h => he (by simp [h])
    have he0 : '/' ∉ e0.reverse := fun h => he (by
      rw [List.mem_reverse] at h
      exact List.mem_append_left _ h)
    have hrev : (x ++ '/' :: (e0 ++ [a])).reverse = a :: (e0.reverse ++ '/' :: x.reverse) := by
      simp
    obtain ⟨l2, hl2, h⟩ :=
      backtrack_elem dd e0.reverse ('/' :: x.reverse) a he0 ha (by simp; omega)
    have hcond : ('/' :: x.reverse).length > dd ∧ l2 ≠ '/' := by
      refine ⟨?_, hl2⟩
      simp only [List.length_cons, List.length_reverse]
      omega
    rw [popElem, hrev]
    simp only
    rw [h, backtrack, if_pos hcond, backtrack_stop_slash]
    simp

/-! ## `path.Clean`: the buffer stays clean -/

theorem joinSlash_append {a b : List Str} (ha : a ≠ []) (hb : b ≠ []) :
    joinSlash (a ++ b) = joinSlash a ++ '/' :: joinSlash b := by
  induction a with
  | nil => exact absurd rfl ha
  | cons x a ih =>
    cases a with
    | nil =>
      obtain ⟨y, b2, rfl⟩ := List.exists_cons_of_ne_nil hb
      rfl
    | cons x2 a2 =>
      have h2 := ih (by simp)
      have h3 : joinSlash (x :: x2 :: (a2 ++ b)) = x ++ '/' :: joinSlash (x2 :: (a2 ++ b)) := rfl
      simp only [List.cons_append] at h2 ⊢
      rw [h3, h2]
      simp [joinSlash]

theorem length_joinSlash_dots_le (k : Nat) (ns : List Str) :
    (joinSlash (List.replicate k dotdotElem)).length ≤
      (joinSlash (List.replicate k dotdotElem ++ ns)).length := by
  by_cases hns : ns = []
  · rw [hns, List.append_nil]
  · by_cases hd : List.replicate k dotdotElem = []
    · rw [hd]; simp [joinSlash]
    · rw [joinSlash_append hd hns]
      simp

theorem length_joinSlash_dots_lt (k : Nat) {ns : List Str} (hne : ns ≠ [])
    (hns : ∀ n ∈ ns, NormalElem n) :
    (joinSlash (List.replicate k dotdotElem)).length <
      (joinSlash (List.replicate k dotdotElem ++ ns)).length := by
  by_cases hd : List.replicate k dotdotElem = []
  · rw [hd]
    have := joinSlash_ne_nil hne (fun e he => (hns e he).1)
    simpa [joinSlash] using List.length_pos.mpr this
  · rw [joinSlash_append hd hne]
    simp


theorem cleanState_init (rooted : Bool) :
    CleanState rooted (rootOf rooted) (rootOf rooted).length :=
  ⟨0, [], fun _ => rfl, by simp, by simp [joinSlash], by simp [joinSlash]⟩

/-- The `..` case of `path.Clean` with something to remove keeps the buffer
clean: the last real element goes, with the slash before it. -/
theorem cleanState_pop (rooted : Bool) (out : Str) (dd : Nat)
    (h : CleanState rooted out dd) (hlen : out.length > dd) :
    CleanState rooted (popElem dd out) dd := by
  obtain ⟨k, ns, hk, hns, hout, hdd⟩ := h
  rcases List.eq_nil_or_concat ns with hnil | ⟨ns2, e, hcat⟩
  · subst hnil
    rw [List.append_nil] at hout
    rw [hout, hdd] at hlen
    exact absurd hlen (Nat.lt_irrefl _)
  · rw [List.concat_eq_append] at hcat
    subst hcat
    have hns2 : ∀ n ∈ ns2, NormalElem n := fun n hn => hns n (List.mem_append_left _ hn)
    have he : NormalElem e := hns e (List.mem_append_right _ (List.mem_singleton_self e))
    refine ⟨k, ns2, hk, hns2, ?_, hdd⟩
    rw [← List.append_assoc] at hout
    by_cases hl : List.replicate k dotdotElem ++ ns2 = []
    · have hk0 : k = 0 := by
        cases k with
        | zero => rfl
        | succ k => simp [List.replicate_succ] at hl
      rw [hl] at hout ⊢
      subst hk0
      have hout2 : out = rootOf rooted ++ e := by simpa [joinSlash] using hout
      rw [hout2, popElem_first dd _ e he.1 he.2.1 (by rw [hdd]; simp [joinSlash])]
      simp [joinSlash]
    · rw [joinSlash_snoc e hl, ← List.append_assoc] at hout
      rw [hout, popElem_later dd _ e he.1 he.2.1]
      rw [hdd]
      have := length_joinSlash_dots_le k ns2
      simp only [List.length_append]
      omega

/-- The `..` case of `path.Clean` with nothing to remove, not rooted, keeps
the buffer clean: one more leading `..`. -/
theorem cleanState_push (out : Str) (dd : Nat)
    (h : CleanState false out dd) (hlen : ¬ out.length > dd) :
    CleanState false ((if out.length > 0 then out ++ ['/'] else out) ++ ['.', '.'])
      ((if out.length > 0 then out ++ ['/'] else out) ++ ['.', '.']).length := by
  obtain ⟨k, ns, hk, hns, hout, hdd⟩ := h
  have hroot : rootOf false = [] := rfl
  rw [hroot, List.nil_append] at hout hdd
  have hnil : ns = [] := by
    by_contra hne
    have := length_joinSlash_dots_lt k hne hns
    rw [hout, hdd] at hlen
    exact hlen this
  subst hnil
  rw [List.append_nil] at hout
  refine ⟨k + 1, [], fun h => absurd h (by decide), by simp, ?_, ?_⟩
  · rw [hroot, List.nil_append, List.append_nil, joinSlash_replicate_succ, hout]
  · rw [hroot, List.nil_append, joinSlash_replicate_succ, hout]

theorem takeWhile_eq_nil_cases (rest : Str)
    (h : rest.takeWhile (fun x => x != '/') = []) :
    rest = [] ∨ rest.head? = some '/' := by
  cases rest with
  | nil => exact Or.inl rfl
  | cons a r =>
    right
    rw [List.takeWhile_cons] at h
    split at h
    · simp at h
    · rename_i ha
      have : a = '/' := by simpa using ha
      simp [this]

/-- The text that the default case of `path.Clean` copies is a real element. -/
theorem normalElem_copied (c : Char) (rest : Str) (g1 : ¬ c = '/')
    (g2 : ¬ (c = '.' ∧ (rest = [] ∨ rest.head? = some '/')))
    (g3 : ¬ (c = '.' ∧ rest.head? = some '.' ∧
      (rest.tail = [] ∨ rest.tail.head? = some '/'))) :
    NormalElem (c :: rest.takeWhile (fun x => x != '/')) := by
  refine ⟨by simp, ?_, ?_, ?_⟩
  · intro h
    rcases List.mem_cons.mp h with h1 | h1
    · exact g1 h1.symm
    · have := List.mem_takeWhile_imp h1
      simp at this
  · intro h
    have hc : c = '.' := by simpa using (List.cons.inj h).1
    have ht : rest.takeWhile (fun x => x != '/') = [] := (List.cons.inj h).2
    exact g2 ⟨hc, takeWhile_eq_nil_cases rest ht⟩
  · intro h
    have hc : c = '.' := by simpa using (List.cons.inj h).1
    have ht : rest.takeWhile (fun x => x != '/') = ['.'] := (List.cons.inj h).2
    cases rest with
    | nil => simp at ht
    | cons a r =>
      rw [List.takeWhile_cons] at ht
      split at ht
      · have ha : a = '.' := (List.cons.inj ht).1
        have hr : r.takeWhile (fun x => x != '/') = [] := (List.cons.inj ht).2
        exact g3 ⟨hc, by simp [ha], by simpa using takeWhile_eq_nil_cases r hr⟩
      · simp at ht

/-- The default case of `path.Clean` keeps the buffer clean: one more real
element at the end. -/
theorem cleanState_elem (rooted : Bool) (out e : Str) (dd : Nat)
    (h : CleanState rooted out dd) (he : NormalElem e) :
    CleanState rooted (addSlash rooted out ++ e) dd := by
  obtain ⟨k, ns, hk, hns, hout, hdd⟩ := h
  refine ⟨k, ns ++ [e], hk, ?_, ?_, hdd⟩
  · intro n hn
    rcases List.mem_append.mp hn with h1 | h1
    · exact hns n h1
    · rw [List.mem_singleton.mp h1]; exact he
  · rw [← List.append_assoc]
    by_cases hl : List.replicate k dotdotElem ++ ns = []
    · rw [hl] at hout ⊢
      have hout2 : out = rootOf rooted := by simpa [joinSlash] using hout
      rw [hout2, addSlash_root]
      simp [joinSlash]
    · rw [hout, addSlash_of_ne_nil rooted (joinSlash_ne_nil hl (elems_ne_nil k hns)),
        joinSlash_snoc e hl]
      simp

/-- The buffer of `path.Clean` is clean at the end of the loop. -/
theorem cleanLoop_state (rooted : Bool) (fuel : Nat) (p out : Str) (dd : Nat)
    (h : CleanState rooted out dd) :
    CleanState rooted (cleanLoop rooted fuel p out dd).1 (cleanLoop rooted fuel p out dd).2 := by
  induction fuel generalizing p out dd with
  | zero => exact h
  | succ fuel ih =>
    cases p with
    | nil => exact h
    | cons c rest =>
      rw [cleanLoop_cons]
      by_cases g1 : c = '/'
      · rw [if_pos g1]
        exact ih _ _ _ h
      · rw [if_neg g1]
        by_cases g2 : c = '.' ∧ (rest = [] ∨ rest.head? = some '/')
        · rw [if_pos g2]
          exact ih _ _ _ h
        · rw [if_neg g2]
          by_cases g3 : c = '.' ∧ rest.head? = some '.' ∧
              (rest.tail = [] ∨ rest.tail.head? = some '/')
          · rw [if_pos g3]
            by_cases g4 : out.length > dd
            · rw [if_pos g4]
              exact ih _ _ _ (cleanState_pop rooted out dd h g4)
            · rw [if_neg g4]
              cases rooted with
              | true =>
                rw [if_neg (by decide)]
                exact ih _ _ _ h
              | false =>
                rw [if_pos (by decide)]
                exact ih _ _ _ (cleanState_push out dd h g4)
          · rw [if_neg g3]
            exact ih _ _ _
              (cleanState_elem rooted out _ dd h (normalElem_copied c rest g1 g2 g3))


/-! ## The validity check -/

theorem clean_ne_nil (p : Str) : clean p ≠ [] := by
  unfold clean
  split
  · simp
  · split
    · simp
    · rename_i h
      intro hc
      exact h (by rw [hc]; rfl)

theorem hasPrefix_append (t s : Str) : hasPrefix (t ++ s) t = true := by
  rw [hasPrefix, List.isPrefixOf_iff_prefix]
  exact List.prefix_append t s

theorem pathJoin_of_ne_nil {a : Str} (b : Str) (ha : a ≠ []) :
    pathJoin a b = clean (a ++ '/' :: b) := by
  have hlen : a.length + b.length ≠ 0 := by
    have := List.length_pos.mpr ha
    omega
  simp [pathJoin, hlen, ha]

/-- The validity check succeeds as soon as one corpus file has the target as a
prefix and is one of the permutations. -/
theorem fileExistsForImport_of_mem (ctx : FileContext) (t f : Str)
    (hf : f ∈ ctx.AllFiles) (hpre : hasPrefix f t = true)
    (hperm : f ∈ ctx.getSuffixPermutations t) :
    ctx.fileExistsForImport t = true := by
  rw [FileContext.fileExistsForImport, List.any_eq_true]
  refine ⟨f, hf, ?_⟩
  rw [Bool.and_eq_true, List.any_eq_true]
  exact ⟨hpre, f, hperm, by simp⟩


/-! ## `path.Clean`: results -/

/-- The buffer of `path.Clean` is a clean path: the root of a rooted input,
then `k` elements `..` (none when rooted), then real elements. -/
theorem cleanOut_form (p : Str) :
    ∃ (rooted : Bool) (k : Nat) (ns : List Str), (rooted = true → k = 0) ∧
      (∀ n ∈ ns, NormalElem n) ∧
      cleanOut p = rootOf rooted ++ joinSlash (List.replicate k dotdotElem ++ ns) := by
  by_cases hp : p.head? = some '/'
  · obtain ⟨k, ns, hk, hns, hout, -⟩ :=
      cleanLoop_state true p.length p.tail ['/'] 1 (cleanState_init true)
    exact ⟨true, k, ns, hk, hns, by rw [cleanOut, if_pos hp]; exact hout⟩
  · obtain ⟨k, ns, hk, hns, hout, -⟩ :=
      cleanLoop_state false p.length p [] 0 (cleanState_init false)
    exact ⟨false, k, ns, hk, hns, by rw [cleanOut, if_neg hp]; exact hout⟩

theorem clean_of_cleanOut_ne_nil {s : Str} (h : cleanOut s = s) (hs : s ≠ []) : clean s = s := by
  have hlen : ¬ (cleanOut s).length = 0 := by
    rw [h]
    exact fun h0 => hs (List.length_eq_zero.mp h0)
  rw [clean, if_neg hs, if_neg hlen, h]

/-- `path.Clean` is idempotent. -/
theorem clean_idem (p : Str) : clean (clean p) = clean p := by
  by_cases hp : p = []
  · subst hp
    rfl
  · by_cases hlen : (cleanOut p).length = 0
    · have : clean p = ['.'] := by rw [clean, if_neg hp, if_pos hlen]
      rw [this]
      rfl
    · have hc : clean p = cleanOut p := by rw [clean, if_neg hp, if_neg hlen]
      obtain ⟨rooted, k, ns, hk, hns, hout⟩ := cleanOut_form p
      rw [hc, hout]
      apply clean_of_cleanOut_ne_nil (cleanOut_cleanForm rooted k ns hk hns)
      rw [← hout]
      exact fun h0 => hlen (by rw [h0]; rfl)

/-- A real element appended to a cleaned path other than `/` and `.` gives a
clean path: `path.Clean` leaves it as it is. -/
theorem clean_append_elem (p e : Str) (he : NormalElem e)
    (hroot : clean p ≠ ['/']) (hdot : clean p ≠ ['.']) :
    clean (clean p ++ '/' :: e) = clean p ++ '/' :: e := by
  have hp : p ≠ [] := by
    intro h
    subst h
    exact hdot rfl
  have hlen : ¬ (cleanOut p).length = 0 := by
    intro h
    apply hdot
    rw [clean, if_neg hp, if_pos h]
  have hc : clean p = cleanOut p := by rw [clean, if_neg hp, if_neg hlen]
  obtain ⟨rooted, k, ns, hk, hns, hout⟩ := cleanOut_form p
  have hl : List.replicate k dotdotElem ++ ns ≠ [] := by
    intro h
    rw [h] at hout
    cases rooted with
    | true => exact hroot (by rw [hc, hout]; rfl)
    | false => exact hlen (by rw [hout]; rfl)
  have hns2 : ∀ n ∈ ns ++ [e], NormalElem n := by
    intro n hn
    rcases List.mem_append.mp hn with h1 | h1
    · exact hns n h1
    · rw [List.mem_singleton.mp h1]; exact he
  have hform : clean p ++ '/' :: e =
      rootOf rooted ++ joinSlash (List.replicate k dotdotElem ++ (ns ++ [e])) := by
    rw [hc, hout, ← List.append_assoc, joinSlash_snoc e hl]
    simp
  rw [hform]
  apply clean_of_cleanOut_ne_nil (cleanOut_cleanForm rooted k (ns ++ [e]) hk hns2)
  rw [← hform]
  simp

theorem normalElem_index {s : Str} (hs : s ∈ validSuffixes) :
    NormalElem (['i', 'n', 'd', 'e', 'x'] ++ s) := by
  simp only [validSuffixes, List.mem_cons, List.mem_singleton, List.not_mem_nil, or_false] at hs
  rcases hs with rfl | rfl | rfl | rfl <;> (unfold NormalElem; decide)

/-- The permutations of the target `.`: `path.Join` turns `.` and `index.tsx`
into `index.tsx`, which does not start with `.`. -/
theorem pathJoin_dot_index {s : Str} (hs : s ∈ validSuffixes) :
    pathJoin ['.'] (['i', 'n', 'd', 'e', 'x'] ++ s) = ['i', 'n', 'd', 'e', 'x'] ++ s ∧
      clean (['.'] ++ ['/', 'i', 'n', 'd', 'e', 'x'] ++ s) = ['i', 'n', 'd', 'e', 'x'] ++ s := by
  simp only [validSuffixes, List.mem_cons, List.mem_singleton, List.not_mem_nil, or_false] at hs
  rcases hs with rfl | rfl | rfl | rfl <;> decide!

/-- The validity check at the target `.` in a corpus of normalized paths. -/
theorem fileExistsForImport_dot (ctx : FileContext) (hnorm : Normalized ctx) :
    ctx.fileExistsForImport ['.'] = true ↔
      ∃ s ∈ validSuffixes, ['.'] ++ s ∈ ctx.AllFiles ∨
        ['.'] ++ ['/', 'i', 'n', 'd', 'e', 'x'] ++ s ∈ ctx.AllFiles := by
  constructor
  · intro h
    rw [FileContext.fileExistsForImport, List.any_eq_true] at h
    obtain ⟨f, hf, hcond⟩ := h
    rw [Bool.and_eq_true, List.any_eq_true] at hcond
    obtain ⟨hpre, m, hm, hmf⟩ := hcond
    have hmf2 : m = f := by simpa using hmf
    subst hmf2
    rw [FileContext.getSuffixPermutations] at hm
    rcases List.mem_append.mp hm with h1 | h1
    · obtain ⟨s, hs, rfl⟩ := List.mem_map.mp h1
      exact ⟨s, hs, Or.inl hf⟩
    · obtain ⟨s, hs, rfl⟩ := List.mem_map.mp h1
      rw [(pathJoin_dot_index hs).1] at hpre
      exact absurd hpre (by simp [hasPrefix])
  · rintro ⟨s, hs, h | h⟩
    · refine fileExistsForImport_of_mem ctx _ _ h (hasPrefix_append _ _) ?_
      rw [FileContext.getSuffixPermutations]
      exact List.mem_append_left _ (List.mem_map.mpr ⟨s, hs, rfl⟩)
    · have h1 := hnorm _ h
      rw [(pathJoin_dot_index hs).2] at h1
      exact absurd h1 (by simp)

/-- C7, as the code has it: for every target `t` produced by `resolve` other
than `/` (and other than `.` unless the corpus holds normalized paths),
`fileExistsForImport t` is true exactly when the corpus contains an entry equal
to `t ++ s` or to `t ++ "/index" ++ s` for a recognized suffix `s`; no other
corpus entry makes the target valid. -/
theorem fileExistsForImport_iff (ctx : FileContext) (name file : Str)
    (hroot : resolve name file ≠ ['/'])
    (hdot : resolve name file ≠ ['.'] ∨ Normalized ctx) :
    ctx.fileExistsForImport (resolve name file) = true ↔
      ∃ s ∈ validSuffixes, resolve name file ++ s ∈ ctx.AllFiles ∨
        resolve name file ++ ['/', 'i', 'n', 'd', 'e', 'x'] ++ s ∈ ctx.AllFiles := by
  by_cases ht : resolve name file = ['.']
  · rw [ht]
    rcases hdot with h | h
    · exact absurd ht h
    · exact fileExistsForImport_dot ctx h
  have hne : resolve name file ≠ [] := clean_ne_nil _
  have hjoin : ∀ s ∈ validSuffixes,
      pathJoin (resolve name file) (['i', 'n', 'd', 'e', 'x'] ++ s) =
        resolve name file ++ ['/', 'i', 'n', 'd', 'e', 'x'] ++ s := by
    intro s hs
    rw [pathJoin_of_ne_nil _ hne]
    have := clean_append_elem (pathJoin (pathDir file) name) _ (normalElem_index hs) hroot ht
    simpa [resolve] using this
  constructor
  · intro h
    rw [FileContext.fileExistsForImport, List.any_eq_true] at h
    obtain ⟨f, hf, hcond⟩ := h
    rw [Bool.and_eq_true, List.any_eq_true] at hcond
    obtain ⟨-, m, hm, hmf⟩ := hcond
    have hmf2 : m = f := by simpa using hmf
    subst hmf2
    rw [FileContext.getSuffixPermutations] at hm
    rcases List.mem_append.mp hm with h1 | h1
    · obtain ⟨s, hs, rfl⟩ := List.mem_map.mp h1
      exact ⟨s, hs, Or.inl hf⟩
    · obtain ⟨s, hs, rfl⟩ := List.mem_map.mp h1
      rw [hjoin s hs] at hf
      exact ⟨s, hs, Or.inr hf⟩
  · rintro ⟨s, hs, h | h⟩
    · refine fileExistsForImport_of_mem ctx _ _ h (hasPrefix_append _ _) ?_
      rw [FileContext.getSuffixPermutations]
      exact List.mem_append_left _ (List.mem_map.mpr ⟨s, hs, rfl⟩)
    · refine fileExistsForImport_of_mem ctx _ _ h ?_ ?_
      · rw [List.append_assoc]
        exact hasPrefix_append _ _
      · rw [FileContext.getSuffixPermutations]
        exact List.mem_append_right _ (List.mem_map.mpr ⟨s, hs, hjoin s hs⟩)

theorem fileExistsForImport_iff_witness :
    resolve "./Icon".toList "/src/ui/Button.tsx".toList = "/src/ui/Icon".toList ∧
    ((⟨["/src/ui/Icon/index.tsx".toList, "/src/ui/Button.tsx".toList]⟩ :
        FileContext).fileExistsForImport
        (resolve "./Icon".toList "/src/ui/Button.tsx".toList) = true ↔
      ∃ s ∈ validSuffixes,
        resolve "./Icon".toList "/src/ui/Button.tsx".toList ++ s ∈
          ["/src/ui/Icon/index.tsx".toList, "/src/ui/Button.tsx".toList] ∨
        resolve "./Icon".toList "/src/ui/Button.tsx".toList ++
          ['/', 'i', 'n', 'd', 'e', 'x'] ++ s ∈
          ["/src/ui/Icon/index.tsx".toList, "/src/ui/Button.tsx".toList]) :=
  ⟨by decide!,
    fileExistsForImport_iff ⟨["/src/ui/Icon/index.tsx".toList, "/src/ui/Button.tsx".toList]⟩
      "./Icon".toList "/src/ui/Button.tsx".toList (by decide!) (Or.inl (by decide!))⟩

/-- C7 fails as stated at the target `/` (the specifier `..` resolved from
`/src/a.ts`): with `/index.tsx` in the corpus `fileExistsForImport` is true,
although no corpus entry is `/` followed by a suffix or by `/index` and a
suffix; the permutation built by `path.Join` is `/index.tsx`. -/
theorem fileExistsForImport_root :
    resolve "..".toList "/src/a.ts".toList = ['/'] ∧
    (⟨["/index.tsx".toList, "/src/a.ts".toList]⟩ : FileContext).fileExistsForImport
      (resolve "..".toList "/src/a.ts".toList) = true ∧
    ¬ ∃ s ∈ validSuffixes,
      resolve "..".toList "/src/a.ts".toList ++ s ∈
        ["/index.tsx".toList, "/src/a.ts".toList] ∨
      resolve "..".toList "/src/a.ts".toList ++ ['/', 'i', 'n', 'd', 'e', 'x'] ++ s ∈
        ["/index.tsx".toList, "/src/a.ts".toList] := by
  decide!


/-- C1, as the code has it: for a corpus of normalized paths, or for any corpus
when the resolved target is neither `/` nor `.`, on a matched import line whose
specifier is already valid (the corpus contains the resolved target with a
recognized suffix appended, or the target followed by `/index` and a
recognized suffix), `checkImport` makes no change: it returns nil. -/
theorem checkImport_valid_unchanged (ctx : FileContext) (file line m1 s : Str)
    (hcorpus : Normalized ctx ∨
      (resolve (specifier m1) file ≠ ['/'] ∧ resolve (specifier m1) file ≠ ['.']))
    (hm : importRegexSubmatch line = some m1)
    (hs : s ∈ validSuffixes)
    (hvalid : resolve (specifier m1) file ++ s ∈ ctx.AllFiles ∨
      resolve (specifier m1) file ++ ['/', 'i', 'n', 'd', 'e', 'x'] ++ s ∈ ctx.AllFiles) :
    checkImport ctx file line = Outcome.unchanged := by
  have hex : ctx.fileExistsForImport (resolve (specifier m1) file) = true := by
    rcases hvalid with h | h
    · refine fileExistsForImport_of_mem ctx _ _ h (hasPrefix_append _ _) ?_
      rw [FileContext.getSuffixPermutations]
      exact List.mem_append_left _ (List.mem_map.mpr ⟨s, hs, rfl⟩)
    · refine fileExistsForImport_of_mem ctx _ _ h ?_ ?_
      · rw [List.append_assoc]
        exact hasPrefix_append _ _
      · rw [FileContext.getSuffixPermutations]
        refine List.mem_append_right _ (List.mem_map.mpr ⟨s, hs, ?_⟩)
        have hne : resolve (specifier m1) file ≠ [] := clean_ne_nil _
        rw [pathJoin_of_ne_nil _ hne]
        rcases hcorpus with hnorm | ⟨hroot, hdot⟩
        · have := hnorm _ h
          simpa using this
        · have := clean_append_elem (pathJoin (pathDir file) (specifier m1)) _
            (normalElem_index hs) hroot hdot
          simpa [resolve] using this
  cases hrel : hasPrefix (specifier m1) ['.'] with
  | false => simp [checkImport, hm, hrel]
  | true => simp [checkImport, hm, hrel, hex]

theorem checkImport_valid_unchanged_witness :
    Normalized ⟨["/src/ui/Icon/index.tsx".toList, "/src/ui/Button.tsx".toList]⟩ ∧
    resolve (specifier "\"./Icon\"".toList) "/src/ui/Button.tsx".toList = "/src/ui/Icon".toList ∧
    checkImport ⟨["/src/ui/Icon/index.tsx".toList, "/src/ui/Button.tsx".toList]⟩
      "/src/ui/Button.tsx".toList "import Icon from \"./Icon\";".toList = Outcome.unchanged :=
  have hn : Normalized ⟨["/src/ui/Icon/index.tsx".toList, "/src/ui/Button.tsx".toList]⟩ := by
    intro c hc
    rcases List.mem_cons.mp hc with rfl | hc2
    · decide!
    · rcases List.mem_cons.mp hc2 with rfl | hc3
      · decide!
      · simp at hc3
  ⟨hn, by decide!,
    checkImport_valid_unchanged _ _ _ "\"./Icon\"".toList ".tsx".toList (Or.inl hn) (by decide!)
      (by decide!) (Or.inr (by decide!))⟩

/-- C1 fails as stated for a corpus whose paths are not normalized.  With the
corpus `./index.tsx` and the specifier `./` the resolved target is `.`, and
the corpus contains the target followed by `/index` and a recognized suffix;
but the index permutation that `path.Join` builds is `index.tsx`, the
specifier is not found valid and the line is rewritten to `./.`.  With the
corpus `//index.tsx` and the target `/` the run is ended. -/
theorem checkImport_valid_rewritten :
    (importRegexSubmatch "import x from \"./\";".toList = some "\"./\"".toList ∧
      resolve (specifier "\"./\"".toList) "./index.tsx".toList = ".".toList ∧
      ".tsx".toList ∈ validSuffixes ∧
      resolve (specifier "\"./\"".toList) "./index.tsx".toList ++
        ['/', 'i', 'n', 'd', 'e', 'x'] ++ ".tsx".toList ∈
        (⟨["./index.tsx".toList]⟩ : FileContext).AllFiles ∧
      checkImport ⟨["./index.tsx".toList]⟩ "./index.tsx".toList
        "import x from \"./\";".toList =
        Outcome.rewritten "import x from \"./.\";".toList) ∧
    (resolve (specifier "\"./\"".toList) "/x.ts".toList = "/".toList ∧
      resolve (specifier "\"./\"".toList) "/x.ts".toList ++
        ['/', 'i', 'n', 'd', 'e', 'x'] ++ ".tsx".toList ∈
        (⟨["//index.tsx".toList]⟩ : FileContext).AllFiles ∧
      checkImport ⟨["//index.tsx".toList]⟩ "/x.ts".toList
        "import x from \"./\";".toList = Outcome.fatal) := by
  decide!


/-! ## `rel`: the fuel of the loop -/

/-- The loop of `rel` does not depend on the fuel once the fuel covers the
hops that the counter `ct` still allows: the model never runs out of fuel
before the code's own bound of 100 hops ends the loop. -/
theorem relLoop_fuel (newImport : Str) (f1 f2 : Nat) (dir : Str) (ct : Nat)
    (hct : ct ≤ 100) (h1 : 101 ≤ f1 + ct) (h2 : 101 ≤ f2 + ct) :
    relLoop newImport f1 dir ct = relLoop newImport f2 dir ct := by
  induction f1 generalizing f2 dir ct with
  | zero => omega
  | succ f1 ih =>
    cases f2 with
    | zero => omega
    | succ f2 =>
      simp only [relLoop]
      split
      · rfl
      · split
        · rfl
        · split
          · rfl
          · rename_i hlt
            exact ih f2 _ _ (by omega) (by omega) (by omega)


/-! ## Claims about `checkImport` -/

/-- C10: a matched import line whose extracted specifier does not begin with
`.` (a package import) is never rewritten: `checkImport` returns nil, whatever
the corpus contains. -/
theorem checkImport_bare_unchanged (ctx : FileContext) (file line m1 : Str)
    (hm : importRegexSubmatch line = some m1)
    (hbare : hasPrefix (specifier m1) ['.'] = false) :
    checkImport ctx file line = Outcome.unchanged := by
  simp [checkImport, hm, hbare]

theorem checkImport_bare_unchanged_witness :
    importRegexSubmatch "import React from \"react\";".toList = some "\"react\"".toList ∧
    checkImport ⟨["/src/react.ts".toList]⟩ "/src/a/x.ts".toList
      "import React from \"react\";".toList = Outcome.unchanged :=
  ⟨by decide!, checkImport_bare_unchanged _ _ _ "\"react\"".toList (by decide!) (by decide!)⟩

/-- C9: when the candidate set of a matched line is still empty after the
key-shortening loop, the loop has shortened the key down to its last segment
(the final key has no separator left) and `checkImport` returns nil: it neither
rewrites the line nor ends the run. -/
theorem checkImport_no_candidates (ctx : FileContext) (file line m1 : Str)
    (hm : importRegexSubmatch line = some m1)
    (hempty : candidates ctx (specifier m1) = []) :
    checkImport ctx file line = Outcome.unchanged ∧
      contains (finalKey ctx (specifier m1)) ['/'] = false := by
  constructor
  · cases hrel : hasPrefix (specifier m1) ['.'] with
    | false => simp [checkImport, hm, hrel]
    | true =>
      cases hbroken : ctx.fileExistsForImport (resolve (specifier m1) file) with
      | true => simp [checkImport, hm, hrel, hbroken]
      | false =>
        rw [checkImport_broken ctx file line m1 hm hrel hbroken, hempty]
        simp [distanceLoop]
  · exact shortenLoop_done ctx _ _ _ (Nat.le_refl _) hempty

theorem checkImport_no_candidates_witness :
    importRegexSubmatch "import z from \"../lib/zzz\";".toList = some "\"../lib/zzz\"".toList ∧
    candidates ⟨["/src/h.ts".toList, "/src/a/x.ts".toList]⟩
      (specifier "\"../lib/zzz\"".toList) = [] ∧
    checkImport ⟨["/src/h.ts".toList, "/src/a/x.ts".toList]⟩ "/src/a/x.ts".toList
      "import z from \"../lib/zzz\";".toList = Outcome.unchanged ∧
    contains (finalKey ⟨["/src/h.ts".toList, "/src/a/x.ts".toList]⟩
      (specifier "\"../lib/zzz\"".toList)) ['/'] = false :=
  ⟨by decide!, by decide!,
    checkImport_no_candidates _ _ _ "\"../lib/zzz\"".toList (by decide!) (by decide!)⟩


/-- C4, as the code has it: on a matched line with a broken relative specifier
whose candidate set has more than one candidate at the minimum distance
`minK`, `checkImport` does not rewrite the line and does not return nil either:
it ends the run through `log.Fatalln`. -/
theorem checkImport_ambiguous_aborts (ctx : FileContext) (file line m1 : Str)
    (hm : importRegexSubmatch line = some m1)
    (hrel : hasPrefix (specifier m1) ['.'] = true)
    (hbroken : ctx.fileExistsForImport (resolve (specifier m1) file) = false)
    (hamb : 1 < ((candidates ctx (specifier m1)).filter (fun c =>
      decide (distance file c =
        some (minDistance file (candidates ctx (specifier m1)) 1000000)))).length) :
    checkImport ctx file line = Outcome.fatal := by
  rw [checkImport_broken ctx file line m1 hm hrel hbroken]
  generalize candidates ctx (specifier m1) = perms at hamb
  have hlen : 1 < perms.length :=
    Nat.lt_of_lt_of_le hamb (List.length_filter_le _ _)
  match perms, hlen with
  | a :: b :: rest, _ =>
    simp only
    by_cases hall : ∀ c ∈ a :: b :: rest, ∃ k, distance file c = some k
    · obtain ⟨m, hdl, hmj⟩ := distanceLoop_some file (a :: b :: rest) (fun _ => []) 1000000 hall
      rw [hdl]
      simp only
      have hm2 := hmj (minDistance file (a :: b :: rest) 1000000)
      simp only [List.nil_append] at hm2
      rw [← hm2] at hamb
      split
      · rename_i perm heq
        rw [heq] at hamb
        simp at hamb
      · simp
    · have hex : ∃ c ∈ a :: b :: rest, distance file c = none := by
        by_contra hc
        apply hall
        intro c hcmem
        cases hd : distance file c with
        | none => exact absurd ⟨c, hcmem, hd⟩ hc
        | some k => exact ⟨k, rfl⟩
      rw [distanceLoop_none file _ _ _ hex]

theorem checkImport_ambiguous_aborts_witness :
    importRegexSubmatch "import w from \"./widget\";".toList = some "\"./widget\"".toList ∧
    candidates ⟨["src/a/widget.ts".toList, "src/b/widget.ts".toList]⟩
      (specifier "\"./widget\"".toList) = ["src/a/widget.ts".toList, "src/b/widget.ts".toList] ∧
    distance "src/main.ts".toList "src/a/widget.ts".toList = some 2 ∧
    distance "src/main.ts".toList "src/b/widget.ts".toList = some 2 ∧
    checkImport ⟨["src/a/widget.ts".toList, "src/b/widget.ts".toList]⟩ "src/main.ts".toList
      "import w from \"./widget\";".toList = Outcome.fatal :=
  ⟨by decide!, by decide!, by decide!, by decide!,
    checkImport_ambiguous_aborts _ _ _ "\"./widget\"".toList (by decide!) (by decide!)
      (by decide!) (by decide!)⟩

/-- C4 fails as stated: with the candidates `src/a/widget.ts` and
`src/b/widget.ts` for the key `widget`, both at distance 2 from `src/main.ts`,
`checkImport` does not return nil; the run is ended by `log.Fatalln`. -/
theorem checkImport_ambiguous_not_unchanged :
    candidates ⟨["src/a/widget.ts".toList, "src/b/widget.ts".toList]⟩
      (specifier "\"./widget\"".toList) = ["src/a/widget.ts".toList, "src/b/widget.ts".toList] ∧
    distance "src/main.ts".toList "src/a/widget.ts".toList =
      distance "src/main.ts".toList "src/b/widget.ts".toList ∧
    checkImport ⟨["src/a/widget.ts".toList, "src/b/widget.ts".toList]⟩ "src/main.ts".toList
      "import w from \"./widget\";".toList ≠ Outcome.unchanged ∧
    checkImport ⟨["src/a/widget.ts".toList, "src/b/widget.ts".toList]⟩ "src/main.ts".toList
      "import w from \"./widget\";".toList = Outcome.fatal := by
  decide!

/-- The result of `updateImport` when `rel` ends the run. -/
theorem updateImport_fatal (file c line m1 : Str) (hv : rel file (stripTarget c) = none) :
    rewriteWith (updateImport file c line m1) = Outcome.fatal := by
  simp [updateImport, hv, rewriteWith]

/-- C5, as the code has it: on a matched line with a broken relative specifier
whose candidate set is exactly `[c]`, when `rel` returns a specifier `v` for the
stripped candidate, `checkImport` returns the line with the quoted specifier of
the import clause replaced by `v` in double quotes (for a line in which the
captured text does not occur before the import clause); when `rel` ends the run
on the stripped candidate, `checkImport` returns nothing: the run is ended by
`log.Fatalln`. -/
theorem checkImport_single_candidate (ctx : FileContext) (file p m1 c : Str)
    (hm : importRegexSubmatch (p ++ fromKw ++ m1 ++ [';']) = some m1)
    (hrel : hasPrefix (specifier m1) ['.'] = true)
    (hbroken : ctx.fileExistsForImport (resolve (specifier m1) file) = false)
    (hone : candidates ctx (specifier m1) = [c]) :
    (∀ v, rel file (stripTarget c) = some v →
      contains (p ++ fromKw ++ m1.dropLast) m1 = false →
      checkImport ctx file (p ++ fromKw ++ m1 ++ [';']) =
        Outcome.rewritten (p ++ fromKw ++ [dquote] ++ v ++ [dquote] ++ [';'])) ∧
    (rel file (stripTarget c) = none →
      checkImport ctx file (p ++ fromKw ++ m1 ++ [';']) = Outcome.fatal) := by
  obtain ⟨_, _, hne⟩ := importRegexSubmatch_shape hm
  have hupd : checkImport ctx file (p ++ fromKw ++ m1 ++ [';']) =
      rewriteWith (updateImport file c (p ++ fromKw ++ m1 ++ [';']) m1) := by
    rw [checkImport_broken ctx file _ m1 hm hrel hbroken, hone]
  constructor
  · intro v hv hfirst
    rw [hupd, updateImport_line file c p m1 v hne hv hfirst]
    rfl
  · intro hv
    rw [hupd]
    exact updateImport_fatal file c _ m1 hv

theorem checkImport_single_candidate_witness :
    candidates ⟨["src/shared/utils/helpers.ts".toList, "src/pages/Home.tsx".toList]⟩
      (specifier "\"../utils/helpers\"".toList) = ["src/shared/utils/helpers.ts".toList] ∧
    rel "src/pages/Home.tsx".toList (stripTarget "src/shared/utils/helpers.ts".toList) =
      some "../shared/utils/helpers".toList ∧
    checkImport ⟨["src/shared/utils/helpers.ts".toList, "src/pages/Home.tsx".toList]⟩
      "src/pages/Home.tsx".toList
      ("import { help } ".toList ++ fromKw ++ "\"../utils/helpers\"".toList ++ [';']) =
      Outcome.rewritten ("import { help } ".toList ++ fromKw ++ [dquote] ++
        "../shared/utils/helpers".toList ++ [dquote] ++ [';']) ∧
    rel "/a/x.ts".toList (stripTarget "/b/helpers.ts".toList) = none ∧
    checkImport ⟨["/a/x.ts".toList, "/b/helpers.ts".toList]⟩ "/a/x.ts".toList
      ("import h ".toList ++ fromKw ++ "\"./helpers\"".toList ++ [';']) = Outcome.fatal :=
  ⟨by decide!, by decide!,
    (checkImport_single_candidate
      ⟨["src/shared/utils/helpers.ts".toList, "src/pages/Home.tsx".toList]⟩
      "src/pages/Home.tsx".toList "import { help } ".toList "\"../utils/helpers\"".toList
      "src/shared/utils/helpers.ts".toList
      (by decide!) (by decide!) (by decide!) (by decide!)).1
      "../shared/utils/helpers".toList (by decide!) (by decide!),
    by decide!,
    (checkImport_single_candidate ⟨["/a/x.ts".toList, "/b/helpers.ts".toList]⟩
      "/a/x.ts".toList "import h ".toList "\"./helpers\"".toList "/b/helpers.ts".toList
      (by decide!) (by decide!) (by decide!) (by decide!)).2 (by decide!)⟩

/-- C5 fails as stated: with exactly one candidate and no directory of the
importing file that is a prefix of it, `rel` ends the run and no line is
returned; both for a corpus of absolute paths scanned from `/` and for one
scanned from `.`. -/
theorem checkImport_single_candidate_fatal :
    (candidates ⟨["/a/x.ts".toList, "/b/helpers.ts".toList]⟩
        (specifier "\"./helpers\"".toList) = ["/b/helpers.ts".toList] ∧
      (⟨["/a/x.ts".toList, "/b/helpers.ts".toList]⟩ : FileContext).fileExistsForImport
        (resolve (specifier "\"./helpers\"".toList) "/a/x.ts".toList) = false ∧
      checkImport ⟨["/a/x.ts".toList, "/b/helpers.ts".toList]⟩ "/a/x.ts".toList
        "import h from \"./helpers\";".toList = Outcome.fatal) ∧
    (candidates ⟨["a/x.ts".toList, "b/helpers.ts".toList]⟩
        (specifier "\"./helpers\"".toList) = ["b/helpers.ts".toList] ∧
      checkImport ⟨["a/x.ts".toList, "b/helpers.ts".toList]⟩ "a/x.ts".toList
        "import h from \"./helpers\";".toList = Outcome.fatal) := by
  decide!


/-- The candidate that `checkImport` passes to `updateImport` when `rel`
returns for every candidate and exactly one candidate `c` has the minimum
distance `k`, below the start value of `minK`. -/
theorem checkImport_closest_updateImport (ctx : FileContext) (file line m1 c : Str) (k : Nat)
    (hm : importRegexSubmatch line = some m1)
    (hrel : hasPrefix (specifier m1) ['.'] = true)
    (hbroken : ctx.fileExistsForImport (resolve (specifier m1) file) = false)
    (hall : ∀ c2 ∈ candidates ctx (specifier m1), ∃ k2, distance file c2 = some k2)
    (huniq : (candidates ctx (specifier m1)).filter
      (fun c2 => decide (distance file c2 = some k)) = [c])
    (hmin : ∀ c2 ∈ candidates ctx (specifier m1), ∀ k2, distance file c2 = some k2 → k ≤ k2)
    (hsent : k < 1000000) :
    checkImport ctx file line = rewriteWith (updateImport file c line m1) := by
  rw [checkImport_broken ctx file _ m1 hm hrel hbroken]
  generalize candidates ctx (specifier m1) = perms at hall huniq hmin
  have hcmem : c ∈ perms.filter (fun c2 => decide (distance file c2 = some k)) := by
    rw [huniq]; exact List.mem_singleton_self c
  obtain ⟨hcp, hck⟩ := List.mem_filter.mp hcmem
  have hck2 : distance file c = some k := by simpa using hck
  match perms, hall, huniq, hmin, hcp with
  | [], _, _, _, hcp => simp at hcp
  | [a], _, huniq, _, hcp =>
    have hac : c = a := by simpa using hcp
    subst hac
    rfl
  | a :: b :: rest, hall, huniq, hmin, hcp =>
    simp only
    obtain ⟨m, hdl, hmj⟩ := distanceLoop_some file (a :: b :: rest) (fun _ => []) 1000000 hall
    have hk := minDistance_eq file (a :: b :: rest) 1000000 k c hcp hck2 hsent hmin
    rw [hdl, hk]
    simp only
    have hmk := hmj k
    simp only [List.nil_append] at hmk
    rw [hmk, huniq]

/-- With more than one candidate, `checkImport` ends the run when `rel` ends it
on one of them. -/
theorem checkImport_distance_fatal (ctx : FileContext) (file line m1 : Str)
    (hm : importRegexSubmatch line = some m1)
    (hrel : hasPrefix (specifier m1) ['.'] = true)
    (hbroken : ctx.fileExistsForImport (resolve (specifier m1) file) = false)
    (hmany : 1 < (candidates ctx (specifier m1)).length)
    (hnone : ∃ c2 ∈ candidates ctx (specifier m1), distance file c2 = none) :
    checkImport ctx file line = Outcome.fatal := by
  rw [checkImport_broken ctx file _ m1 hm hrel hbroken]
  generalize candidates ctx (specifier m1) = perms at hmany hnone
  match perms, hmany, hnone with
  | a :: b :: rest, _, hnone =>
    simp only
    rw [distanceLoop_none file _ _ _ hnone]

/-- C6, as the code has it: on a matched line with a broken relative specifier,
when `rel` returns for every candidate and exactly one candidate `c` has the
minimum distance `k` (below the start value 1000000 of `minK`), `checkImport`
passes `c` and no other candidate to `updateImport`: when `rel` returns a
specifier `v` for the stripped `c`, it returns the line with the quoted
specifier of the import clause replaced by `v` in double quotes (for a line in
which the captured text does not occur before the import clause), and when
`rel` ends the run on the stripped `c`, the run is ended.  With more than one
candidate the run is also ended when `rel` ends it on one of the candidates. -/
theorem checkImport_closest_candidate (ctx : FileContext) (file p m1 : Str)
    (hm : importRegexSubmatch (p ++ fromKw ++ m1 ++ [';']) = some m1)
    (hrel : hasPrefix (specifier m1) ['.'] = true)
    (hbroken : ctx.fileExistsForImport (resolve (specifier m1) file) = false) :
    (∀ (c : Str) (k : Nat),
      (∀ c2 ∈ candidates ctx (specifier m1), ∃ k2, distance file c2 = some k2) →
      (candidates ctx (specifier m1)).filter
        (fun c2 => decide (distance file c2 = some k)) = [c] →
      (∀ c2 ∈ candidates ctx (specifier m1), ∀ k2, distance file c2 = some k2 → k ≤ k2) →
      k < 1000000 →
      (∀ v, rel file (stripTarget c) = some v →
        contains (p ++ fromKw ++ m1.dropLast) m1 = false →
        checkImport ctx file (p ++ fromKw ++ m1 ++ [';']) =
          Outcome.rewritten (p ++ fromKw ++ [dquote] ++ v ++ [dquote] ++ [';'])) ∧
      (rel file (stripTarget c) = none →
        checkImport ctx file (p ++ fromKw ++ m1 ++ [';']) = Outcome.fatal)) ∧
    (1 < (candidates ctx (specifier m1)).length →
      (∃ c2 ∈ candidates ctx (specifier m1), distance file c2 = none) →
      checkImport ctx file (p ++ fromKw ++ m1 ++ [';']) = Outcome.fatal) := by
  obtain ⟨_, _, hne⟩ := importRegexSubmatch_shape hm
  constructor
  · intro c k hall huniq hmin hsent
    have hupd := checkImport_closest_updateImport ctx file _ m1 c k hm hrel hbroken
      hall huniq hmin hsent
    constructor
    · intro v hv hfirst
      rw [hupd, updateImport_line file c p m1 v hne hv hfirst]
      rfl
    · intro hv
      rw [hupd]
      exact updateImport_fatal file c _ m1 hv
  · exact checkImport_distance_fatal ctx file _ m1 hm hrel hbroken

theorem checkImport_closest_candidate_witness :
    candidates ⟨["/src/shared/w.ts".toList, "/src/pages/sub/deep/w.ts".toList]⟩
      (specifier "\"./w\"".toList) =
      ["/src/shared/w.ts".toList, "/src/pages/sub/deep/w.ts".toList] ∧
    distance "/src/pages/Home.tsx".toList "/src/shared/w.ts".toList = some 2 ∧
    distance "/src/pages/Home.tsx".toList "/src/pages/sub/deep/w.ts".toList = some 3 ∧
    checkImport ⟨["/src/shared/w.ts".toList, "/src/pages/sub/deep/w.ts".toList]⟩
      "/src/pages/Home.tsx".toList
      ("import w ".toList ++ fromKw ++ "\"./w\"".toList ++ [';']) =
      Outcome.rewritten ("import w ".toList ++ fromKw ++ [dquote] ++
        "../shared/w".toList ++ [dquote] ++ [';']) ∧
    distance "/a/x.ts".toList "/b/w.ts".toList = none ∧
    checkImport ⟨["/a/u/w.ts".toList, "/b/w.ts".toList, "/a/x.ts".toList]⟩ "/a/x.ts".toList
      ("import w ".toList ++ fromKw ++ "\"./w\"".toList ++ [';']) = Outcome.fatal :=
  have hc : candidates ⟨["/src/shared/w.ts".toList, "/src/pages/sub/deep/w.ts".toList]⟩
      (specifier "\"./w\"".toList) =
      ["/src/shared/w.ts".toList, "/src/pages/sub/deep/w.ts".toList] := by decide!
  have h1 : distance "/src/pages/Home.tsx".toList "/src/shared/w.ts".toList = some 2 := by
    decide!
  have h2 : distance "/src/pages/Home.tsx".toList "/src/pages/sub/deep/w.ts".toList =
      some 3 := by decide!
  have h3 : distance "/a/x.ts".toList "/b/w.ts".toList = none := by decide!
  have hc2 : candidates ⟨["/a/u/w.ts".toList, "/b/w.ts".toList, "/a/x.ts".toList]⟩
      (specifier "\"./w\"".toList) = ["/a/u/w.ts".toList, "/b/w.ts".toList] := by decide!
  ⟨hc, h1, h2,
    ((checkImport_closest_candidate
      ⟨["/src/shared/w.ts".toList, "/src/pages/sub/deep/w.ts".toList]⟩
      "/src/pages/Home.tsx".toList "import w ".toList "\"./w\"".toList
      (by decide!) (by decide!) (by decide!)).1 "/src/shared/w.ts".toList 2
      (by
        rw [hc]
        intro c2 hc2
        rcases List.mem_cons.mp hc2 with rfl | hc3
        · exact ⟨2, h1⟩
        · rcases List.mem_cons.mp hc3 with rfl | hc4
          · exact ⟨3, h2⟩
          · simp at hc4)
      (by decide!)
      (by
        rw [hc]
        intro c2 hc2 k2 hk2
        rcases List.mem_cons.mp hc2 with rfl | hc3
        · rw [h1] at hk2
          exact Nat.le_of_eq (Option.some.inj hk2)
        · rcases List.mem_cons.mp hc3 with rfl | hc4
          · rw [h2] at hk2
            have := Option.some.inj hk2
            omega
          · simp at hc4)
      (by decide)).1 "../shared/w".toList (by decide!) (by decide!),
    h3,
    (checkImport_closest_candidate
      ⟨["/a/u/w.ts".toList, "/b/w.ts".toList, "/a/x.ts".toList]⟩
      "/a/x.ts".toList "import w ".toList "\"./w\"".toList
      (by decide!) (by decide!) (by decide!)).2
      (by rw [hc2]; decide)
      ⟨"/b/w.ts".toList, by rw [hc2]; simp, h3⟩⟩

/-- C6 fails as stated.  First input: both candidates have a distance (1 and
2), exactly one has the minimum, but `rel` finds no directory for the stripped
candidate `/a` and ends the run.  Second input: `rel` ends the run while the
distance of the candidate `/b/w.ts` is computed, although `/a/u/w.ts` is the
only candidate with a distance. -/
theorem checkImport_closest_candidate_fatal :
    (candidates ⟨["/a.ts".toList, "/a./q/a.ts".toList]⟩ (specifier "\"./a\"".toList) =
        ["/a.ts".toList, "/a./q/a.ts".toList] ∧
      distance "/a./x.ts".toList "/a.ts".toList = some 1 ∧
      distance "/a./x.ts".toList "/a./q/a.ts".toList = some 2 ∧
      (⟨["/a.ts".toList, "/a./q/a.ts".toList]⟩ : FileContext).fileExistsForImport
        (resolve (specifier "\"./a\"".toList) "/a./x.ts".toList) = false ∧
      checkImport ⟨["/a.ts".toList, "/a./q/a.ts".toList]⟩ "/a./x.ts".toList
        "import a from \"./a\";".toList = Outcome.fatal) ∧
    (candidates ⟨["/a/u/w.ts".toList, "/b/w.ts".toList, "/a/x.ts".toList]⟩
        (specifier "\"./w\"".toList) = ["/a/u/w.ts".toList, "/b/w.ts".toList] ∧
      distance "/a/x.ts".toList "/a/u/w.ts".toList = some 2 ∧
      distance "/a/x.ts".toList "/b/w.ts".toList = none ∧
      checkImport ⟨["/a/u/w.ts".toList, "/b/w.ts".toList, "/a/x.ts".toList]⟩ "/a/x.ts".toList
        "import w from \"./w\";".toList = Outcome.fatal) := by
  decide!


/-! ## Round trip, idempotence and the rewritten line at concrete inputs -/

/-- C2 at a concrete input: `/src/util/x.ts` imports `./y` and the only
candidate is `/src/utils/y.ts`.  `rel` takes the directory `/src/util` for a
prefix of `/src/utils/y`, so `checkImport` writes `./s/y`; resolved from the
importing file this is `/src/util/s/y`, not the candidate `/src/utils/y`, and
the validity check on the output fails. -/
theorem roundtrip_fails_on_name_prefix :
    candidates ⟨["/src/utils/y.ts".toList, "/src/util/x.ts".toList]⟩
      (specifier "\"./y\"".toList) = ["/src/utils/y.ts".toList] ∧
    checkImport ⟨["/src/utils/y.ts".toList, "/src/util/x.ts".toList]⟩ "/src/util/x.ts".toList
      "import y from \"./y\";".toList = Outcome.rewritten "import y from \"./s/y\";".toList ∧
    stripTarget "/src/utils/y.ts".toList = "/src/utils/y".toList ∧
    resolve "./s/y".toList "/src/util/x.ts".toList = "/src/util/s/y".toList ∧
    (⟨["/src/utils/y.ts".toList, "/src/util/x.ts".toList]⟩ : FileContext).fileExistsForImport
      (resolve "./s/y".toList "/src/util/x.ts".toList) = false := by
  decide!

/-- C3 at a concrete input: the first pass of `checkImport` rewrites `./y` to
`./s/y` (the closest of two candidates, through the prefix test of `rel`), and
a second pass over the rewritten line does not return nil: it rewrites the
line again, to `../lib/s/y`. -/
theorem second_pass_rewrites_again :
    checkImport
      ⟨["/src/utils/y.ts".toList, "/src/lib/s/y.ts".toList, "/src/util/x.ts".toList]⟩
      "/src/util/x.ts".toList "import y from \"./y\";".toList =
      Outcome.rewritten "import y from \"./s/y\";".toList ∧
    checkImport
      ⟨["/src/utils/y.ts".toList, "/src/lib/s/y.ts".toList, "/src/util/x.ts".toList]⟩
      "/src/util/x.ts".toList "import y from \"./s/y\";".toList =
      Outcome.rewritten "import y from \"../lib/s/y\";".toList := by
  decide!

/-- C8 at a concrete input: the captured specifier `"./h"` also occurs earlier
in the line, and `updateImport` replaces that earlier occurrence; the import
clause `from "./h";` itself is returned unchanged. -/
theorem updateImport_replaces_earlier_occurrence :
    importRegexSubmatch "import \"./h\"; export * from \"./h\";".toList = some "\"./h\"".toList ∧
    updateImport "/src/a/x.ts".toList "/src/h.ts".toList
      "import \"./h\"; export * from \"./h\";".toList "\"./h\"".toList =
      some "import \"../h\"; export * from \"./h\";".toList ∧
    updateImport "/src/a/x.ts".toList "/src/h.ts".toList
      "import \"./h\"; export * from \"./h\";".toList "\"./h\"".toList ≠
      some "import \"./h\"; export * from \"../h\";".toList := by
  decide!


/-! ## The scanner: which lines match and what is captured -/

theorem dropLast_quoted (q1 q2 c : Char) (mid : Str) :
    (q1 :: (mid ++ [q2, c])).dropLast = q1 :: (mid ++ [q2]) := by
  have h : q1 :: (mid ++ [q2, c]) = (q1 :: (mid ++ [q2])) ++ [c] := by simp
  rw [h, List.dropLast_concat]

theorem matchQuoted_form {s g : Str} (h : matchQuoted s = some g) :
    ∃ q1 mid q2, isQuote q1 = true ∧ isQuote q2 = true ∧ '\n' ∉ mid ∧
      g = q1 :: mid ++ [q2] ∧ s = g ++ [';'] := by
  unfold matchQuoted at h
  split at h
  · rename_i semi q2 midrev hrev
    split at h
    · rename_i q1 mid hmid
      split at h
      · rename_i hcond
        obtain ⟨hsemi, hq2, hq1, hnl⟩ := hcond
        have hs : s = (q1 :: mid) ++ [q2, semi] := by
          have h1 := congrArg List.reverse hrev
          have h2 := congrArg List.reverse hmid
          simp only [List.reverse_reverse, List.reverse_cons] at h1 h2
          rw [h1, h2]
          simp
        have hg : g = s.dropLast := by simpa using h.symm
        subst hsemi
        refine ⟨q1, mid, q2, hq1, hq2, by simpa using hnl, ?_, ?_⟩
        · rw [hg, hs]
          exact dropLast_quoted q1 q2 ';' mid
        · rw [hg, hs, List.cons_append, dropLast_quoted]
          simp
      · exact absurd h (by simp)
    · exact absurd h (by simp)
  · exact absurd h (by simp)

theorem matchQuoted_of_form (q1 q2 : Char) (mid : Str) (h1 : isQuote q1 = true)
    (h2 : isQuote q2 = true) (hnl : '\n' ∉ mid) :
    matchQuoted (q1 :: mid ++ [q2, ';']) = some (q1 :: mid ++ [q2]) := by
  have hrev : (q1 :: (mid ++ [q2, ';'])).reverse = ';' :: q2 :: (q1 :: mid).reverse := by
    simp
  have hnl2 : ¬ (mid.contains '\n' = true) := by simpa using hnl
  rw [List.cons_append]
  unfold matchQuoted
  rw [hrev]
  simp only [List.reverse_reverse]
  rw [if_pos ⟨trivial, h2, h1, hnl2⟩, dropLast_quoted]
  rfl

theorem importRegexSubmatch_append (p l : Str)
    (h : (importRegexSubmatch l).isSome = true) :
    (importRegexSubmatch (p ++ l)).isSome = true := by
  induction p with
  | nil => exact h
  | cons c p ih =>
    rw [List.cons_append, importRegexSubmatch]
    split
    · split
      · rfl
      · exact ih
    · exact ih

theorem importRegexSubmatch_here (l g : Str) (h : matchQuoted l = some g) :
    importRegexSubmatch (fromKw ++ l) = some g := by
  show importRegexSubmatch ('f' :: ('r' :: 'o' :: 'm' :: ' ' :: l)) = some g
  rw [importRegexSubmatch, if_pos (by simp [hasPrefix])]
  have hd : List.drop 5 ('f' :: 'r' :: 'o' :: 'm' :: ' ' :: l) = l := rfl
  rw [hd, h]

theorem matchQuoted_head {s g : Str} (h : matchQuoted s = some g) :
    ∃ q rest, isQuote q = true ∧ s = q :: rest := by
  obtain ⟨q1, mid, q2, h1, -, -, hg, hs⟩ := matchQuoted_form h
  exact ⟨q1, mid ++ [q2] ++ [';'], h1, by rw [hs, hg]; simp⟩

theorem isQuote_cases {q : Char} (h : isQuote q = true) : q = dquote ∨ q = squote := by
  simpa [isQuote] using h

/-- The leftmost match: when `from ` followed by a quote does not occur before
the final import clause, the scanner captures the quoted text of that clause. -/
theorem importRegexSubmatch_leftmost (p : Str) (q1 q2 : Char) (mid : Str)
    (h1 : isQuote q1 = true) (h2 : isQuote q2 = true) (hnl : '\n' ∉ mid)
    (hd : contains (p ++ fromKw) (fromKw ++ [dquote]) = false)
    (hsq : contains (p ++ fromKw) (fromKw ++ [squote]) = false) :
    importRegexSubmatch (p ++ fromKw ++ q1 :: mid ++ [q2, ';']) = some (q1 :: mid ++ [q2]) := by
  induction p with
  | nil =>
    have := importRegexSubmatch_here _ _ (matchQuoted_of_form q1 q2 mid h1 h2 hnl)
    simpa using this
  | cons c p ih =>
    obtain ⟨hd1, hd2⟩ := contains_cons_false (by simpa using hd)
    obtain ⟨hs1, hs2⟩ := contains_cons_false (by simpa using hsq)
    have hrec := ih hd2 hs2
    have hline : c :: p ++ fromKw ++ q1 :: mid ++ [q2, ';'] =
        c :: (p ++ fromKw ++ q1 :: mid ++ [q2, ';']) := by simp
    rw [hline, importRegexSubmatch]
    split
    · rename_i hpre
      split
      · rename_i g hg
        exfalso
        obtain ⟨q, rest, hq, hdrop⟩ := matchQuoted_head hg
        have hpre2 : fromKw <+: c :: (p ++ fromKw ++ q1 :: mid ++ [q2, ';']) := by
          simpa [hasPrefix, fromKw] using hpre
        obtain ⟨t, ht⟩ := hpre2
        have hdrop2 : List.drop 5 (c :: (p ++ fromKw ++ q1 :: mid ++ [q2, ';'])) = t := by
          rw [← ht]; simp [fromKw]
        rw [hdrop2] at hdrop
        have hfull : c :: (p ++ fromKw ++ q1 :: mid ++ [q2, ';']) =
            (fromKw ++ [q]) ++ rest := by
          rw [← ht, hdrop]; simp
        have hlen : (fromKw ++ [q]).length ≤ (c :: (p ++ fromKw)).length := by
          simp [fromKw]
        have hsplit : c :: (p ++ fromKw ++ q1 :: mid ++ [q2, ';']) =
            (c :: (p ++ fromKw)) ++ (q1 :: mid ++ [q2, ';']) := by simp
        have hpref : (fromKw ++ [q]).isPrefixOf
            ((c :: (p ++ fromKw)) ++ (q1 :: mid ++ [q2, ';'])) = true := by
          rw [← hsplit, hfull, List.isPrefixOf_iff_prefix]
          exact List.prefix_append _ _
        have hshort := isPrefixOf_shorten hpref hlen
        rcases isQuote_cases hq with rfl | rfl
        · rw [hshort] at hd1
          exact Bool.noConfusion hd1
        · rw [hshort] at hs1
          exact Bool.noConfusion hs1
      · exact hrec
    · exact hrec

theorem contains_quote (a : Char) : ([dquote, squote].contains a) = isQuote a := by
  simp only [List.contains_cons, List.contains_nil, Bool.or_false, isQuote]
  rfl

theorem dropWhile_quote_mid (mid rest : Str)
    (h : ∀ c, mid.head? = some c → isQuote c = false) (hne : mid ≠ []) :
    (mid ++ rest).dropWhile (fun c => [dquote, squote].contains c) = mid ++ rest := by
  obtain ⟨a, m, rfl⟩ := List.exists_cons_of_ne_nil hne
  have ha := h a rfl
  have ha2 : ([dquote, squote].contains a) = false := by
    rw [contains_quote]; exact ha
  rw [List.cons_append, List.dropWhile_cons, ha2]
  rfl

/-- `strings.Trim` on the captured text gives the text between the two quotes
when that text neither starts nor ends with a quote character. -/
theorem specifier_quoted (q1 q2 : Char) (mid : Str)
    (h1 : isQuote q1 = true) (h2 : isQuote q2 = true)
    (hh : ∀ c, mid.head? = some c → isQuote c = false)
    (hl : ∀ c, mid.getLast? = some c → isQuote c = false) :
    specifier (q1 :: mid ++ [q2]) = mid := by
  have hq1 : ([dquote, squote].contains q1) = true := by
    rw [contains_quote]; exact h1
  have hq2 : ([dquote, squote].contains q2) = true := by
    rw [contains_quote]; exact h2
  by_cases hne : mid = []
  · subst hne
    rw [specifier, trim, trimLeft]
    simp only [List.nil_append, List.cons_append, List.dropWhile_cons, hq1, hq2, if_true,
      List.dropWhile_nil]
    rfl
  · have hleft : trimLeft (q1 :: mid ++ [q2]) [dquote, squote] = mid ++ [q2] := by
      rw [trimLeft, List.cons_append, List.dropWhile_cons, hq1]
      exact dropWhile_quote_mid mid [q2] hh hne
    have hrevne : mid.reverse ≠ [] := by simpa using hne
    have hright : trimRight (mid ++ [q2]) [dquote, squote] = mid := by
      rw [trimRight]
      have hr : (mid ++ [q2]).reverse = q2 :: (mid.reverse ++ []) := by simp
      rw [hr, List.dropWhile_cons, hq2]
      simp only [if_true]
      rw [dropWhile_quote_mid mid.reverse [] (by
        intro c hc
        apply hl c
        rw [← hc, List.head?_reverse]) hrevne]
      simp
    rw [specifier, trim, hleft, hright]


/-- C11, as the code has it: a line matches `importRegex` exactly when it ends
with `from `, a quote character, any text without a newline, a quote character
of either kind and `;`.  When `from ` followed by a quote occurs only in that
final clause and the text between the quotes neither starts nor ends with a
quote character, the specifier handed to resolution is exactly that text. -/
theorem importRegex_matches (line : Str) :
    ((importRegexSubmatch line).isSome = true ↔
      ∃ p q1 mid q2, isQuote q1 = true ∧ isQuote q2 = true ∧ '\n' ∉ mid ∧
        line = p ++ fromKw ++ q1 :: mid ++ [q2, ';']) ∧
    (∀ p q1 mid q2, isQuote q1 = true → isQuote q2 = true → '\n' ∉ mid →
      line = p ++ fromKw ++ q1 :: mid ++ [q2, ';'] →
      contains (p ++ fromKw) (fromKw ++ [dquote]) = false →
      contains (p ++ fromKw) (fromKw ++ [squote]) = false →
      (∀ c, mid.head? = some c → isQuote c = false) →
      (∀ c, mid.getLast? = some c → isQuote c = false) →
      ∃ m1, importRegexSubmatch line = some m1 ∧ specifier m1 = mid) := by
  refine ⟨⟨?_, ?_⟩, ?_⟩
  · intro h
    obtain ⟨m1, hm⟩ := Option.isSome_iff_exists.mp h
    clear h
    induction line with
    | nil => simp [importRegexSubmatch] at hm
    | cons c rest ih =>
      rw [importRegexSubmatch] at hm
      have hrec : importRegexSubmatch rest = some m1 →
          ∃ p q1 mid q2, isQuote q1 = true ∧ isQuote q2 = true ∧ '\n' ∉ mid ∧
            c :: rest = p ++ fromKw ++ q1 :: mid ++ [q2, ';'] := by
        intro h
        obtain ⟨p, q1, mid, q2, h1, h2, h3, h4⟩ := ih h
        exact ⟨c :: p, q1, mid, q2, h1, h2, h3, by rw [h4]; simp⟩
      split at hm
      · rename_i hpre
        split at hm
        · rename_i g hg
          obtain ⟨q1, mid, q2, h1, h2, h3, hgeq, hs⟩ := matchQuoted_form hg
          have hpre2 : fromKw <+: (c :: rest) := by
            simpa [hasPrefix, fromKw] using hpre
          obtain ⟨t, ht⟩ := hpre2
          have hdrop : List.drop 5 (c :: rest) = t := by
            rw [← ht]; simp [fromKw]
          rw [hdrop] at hs
          refine ⟨[], q1, mid, q2, h1, h2, h3, ?_⟩
          rw [← ht, hs, hgeq]
          simp
        · exact hrec hm
      · exact hrec hm
  · rintro ⟨p, q1, mid, q2, h1, h2, h3, rfl⟩
    have hhere := importRegexSubmatch_here _ _ (matchQuoted_of_form q1 q2 mid h1 h2 h3)
    have := importRegexSubmatch_append p (fromKw ++ (q1 :: mid ++ [q2, ';']))
      (by rw [hhere]; rfl)
    simpa using this
  · intro p q1 mid q2 h1 h2 h3 hline hd hsq hh hl
    refine ⟨q1 :: mid ++ [q2], ?_, specifier_quoted q1 q2 mid h1 h2 hh hl⟩
    rw [hline]
    exact importRegexSubmatch_leftmost p q1 q2 mid h1 h2 h3 hd hsq

theorem importRegex_matches_witness :
    (importRegexSubmatch "import { a } from './lib/a';".toList).isSome = true ∧
    ∃ m1, importRegexSubmatch "import { a } from './lib/a';".toList = some m1 ∧
      specifier m1 = "./lib/a".toList :=
  ⟨by decide!,
    (importRegex_matches "import { a } from './lib/a';".toList).2
      "import { a } ".toList squote "./lib/a".toList squote (by decide!) (by decide!)
      (by decide!) (by decide!) (by decide!) (by decide!)
      (by intro c hc; have : c = '.' := by simpa using hc.symm
          subst this; decide!)
      (by intro c hc; have : c = 'a' := by simpa using hc.symm
          subst this; decide!)⟩

/-- C11 fails as stated.  A line that ends with mismatched quotes, `from "./a';`,
is matched.  And on a line with two import clauses the match starts at the
first `from `: the specifier handed to resolution is not the text between the
last pair of quotes, `./b`, but everything from the first quote on. -/
theorem importRegex_not_last_quotes :
    importRegexSubmatch "import a from \"./a';".toList = some "\"./a'".toList ∧
    (importRegexSubmatch "import a from \"./a\"; export b from \"./b\";".toList).map specifier =
      some "./a\"; export b from \"./b".toList ∧
    (importRegexSubmatch "import a from \"./a\"; export b from \"./b\";".toList).map specifier ≠
      some "./b".toList := by
  decide!


/-! ## `processFile` -/

theorem joinLines_cons_ne (l : Str) {ls : List Str} (h : ls ≠ []) :
    joinLines (l :: ls) = l ++ '\n' :: joinLines ls := by
  cases ls with
  | nil => exact absurd rfl h
  | cons m ms => rfl

theorem splitLines_ne_nil (s : Str) : splitLines s ≠ [] := by
  cases s with
  | nil => simp [splitLines]
  | cons c rest =>
    rw [splitLines]
    split
    · simp
    · split <;> simp

/-- Joining the lines of a content with newlines gives the content back. -/
theorem joinLines_splitLines (s : Str) : joinLines (splitLines s) = s := by
  induction s with
  | nil => rfl
  | cons c rest ih =>
    rw [splitLines]
    split
    · rename_i hc
      rw [joinLines_cons_ne _ (splitLines_ne_nil rest), ih, hc]
      rfl
    · split
      · rename_i hnil
        exact absurd hnil (splitLines_ne_nil rest)
      · rename_i l ls hls
        rw [hls] at ih
        cases ls with
        | nil =>
          simp only [joinLines] at ih ⊢
          rw [ih]
        | cons m ms =>
          simp only [joinLines] at ih ⊢
          rw [← ih]
          rfl

theorem checkImport_ne_crash (ctx : FileContext) (file line : Str)
    (h : (importRegexSubmatch line).isSome = true) :
    checkImport ctx file line ≠ Outcome.crash := by
  obtain ⟨m1, hm⟩ := Option.isSome_iff_exists.mp h
  by_cases hrel : hasPrefix (specifier m1) ['.'] = true
  · by_cases hex : ctx.fileExistsForImport (resolve (specifier m1) file) = true
    · simp [checkImport, hm, hrel, hex]
    · have hex2 : ctx.fileExistsForImport (resolve (specifier m1) file) = false := by
        simpa using hex
      rw [checkImport_broken ctx file line m1 hm hrel hex2]
      have hrw : ∀ u, rewriteWith u ≠ Outcome.crash := by
        intro u; cases u <;> simp [rewriteWith]
      split
      · exact hrw _
      · split
        · simp
        · split
          · exact hrw _
          · split <;> simp
  · have hrel2 : hasPrefix (specifier m1) ['.'] = false := by simpa using hrel
    simp [checkImport, hm, hrel2]

/-- The loop of `processFile` when `checkImport` ends the run on some line. -/
theorem processLines_aborts (ctx : FileContext) (file : Str) (lines : List Str)
    (h : ∃ line ∈ lines, Aborts ctx file line) :
    processLines ctx file lines = none := by
  induction lines with
  | nil => simp at h
  | cons line rest ih =>
    rw [processLines]
    by_cases ha : Aborts ctx file line
    · rw [if_pos ha.1, ha.2]
    · have hrest : ∃ l ∈ rest, Aborts ctx file l := by
        obtain ⟨l, hl, hab⟩ := h
        rcases List.mem_cons.mp hl with rfl | hmem
        · exact absurd hab ha
        · exact ⟨l, hmem, hab⟩
      rw [ih hrest]
      split
      · split <;> rfl
      · rfl

/-- The loop of `processFile` when `checkImport` returns on every line: the
buffer holds the new lines, and `changed` says that some line was rewritten. -/
theorem processLines_returns (ctx : FileContext) (file : Str) (lines : List Str)
    (h : ∀ line ∈ lines, ¬ Aborts ctx file line) :
    ∃ changed, processLines ctx file lines = some (lines.map (newLine ctx file), changed) ∧
      (changed = true ↔ ∃ line ∈ lines, Rewritten ctx file line) := by
  induction lines with
  | nil => exact ⟨false, rfl, by simp⟩
  | cons line rest ih =>
    obtain ⟨ch, hrest, hch⟩ := ih (fun l hl => h l (List.mem_cons_of_mem _ hl))
    have hna := h line (List.mem_cons_self _ _)
    rw [processLines, hrest]
    by_cases hmatch : (importRegexSubmatch line).isSome = true
    · rw [if_pos hmatch]
      cases hout : checkImport ctx file line with
      | unchanged =>
        have hnl : newLine ctx file line = line := by simp [newLine, hmatch, hout]
        have hnr : ¬ Rewritten ctx file line := by
          rintro ⟨-, r, hr⟩
          rw [hout] at hr
          exact Outcome.noConfusion hr
        refine ⟨ch, by simp [hnl], ?_⟩
        rw [hch]
        constructor
        · rintro ⟨l, hl, hr⟩
          exact ⟨l, List.mem_cons_of_mem _ hl, hr⟩
        · rintro ⟨l, hl, hr⟩
          rcases List.mem_cons.mp hl with rfl | hmem
          · exact absurd hr hnr
          · exact ⟨l, hmem, hr⟩
      | rewritten r =>
        have hnl : newLine ctx file line = r := by simp [newLine, hmatch, hout]
        refine ⟨true, by simp [hnl], ?_⟩
        simp only [true_iff]
        exact ⟨line, List.mem_cons_self _ _, hmatch, r, hout⟩
      | fatal => exact absurd ⟨hmatch, hout⟩ hna
      | crash => exact absurd hout (checkImport_ne_crash ctx file line hmatch)
    · rw [if_neg hmatch]
      have hnl : newLine ctx file line = line := by simp [newLine, hmatch]
      have hnr : ¬ Rewritten ctx file line := fun hr => hmatch hr.1
      refine ⟨ch, by simp [hnl], ?_⟩
      rw [hch]
      constructor
      · rintro ⟨l, hl, hr⟩
        exact ⟨l, List.mem_cons_of_mem _ hl, hr⟩
      · rintro ⟨l, hl, hr⟩
        rcases List.mem_cons.mp hl with rfl | hmem
        · exact absurd hr hnr
        · exact ⟨l, hmem, hr⟩

theorem newLine_of_not_rewritten (ctx : FileContext) (file line : Str)
    (h : ¬ Rewritten ctx file line) : newLine ctx file line = line := by
  unfold newLine
  split
  · rename_i hmatch
    split
    · rename_i r hr
      exact absurd ⟨hmatch, r, hr⟩ h
    · rfl
  · rfl


/-! ## `rel`: when it returns -/

/-- The loop of `rel` at a directory that is a prefix of the candidate. -/
theorem relLoop_hit (newImport : Str) (fuel : Nat) (dir : Str) (ct : Nat)
    (hd : dir ≠ ['/']) (hp : hasPrefix newImport dir = true) :
    relLoop newImport (fuel + 1) dir ct = some (relResult newImport dir ct) := by
  rw [relLoop, if_neg hd, if_pos hp, relResult]
  simp only
  split_ifs <;> rfl

theorem relLoop_prefix_some (newImport : Str) (fuel : Nat) (dir : Str) (ct : Nat)
    (hd : dir ≠ ['/']) (hp : hasPrefix newImport dir = true) :
    relLoop newImport (fuel + 1) dir ct ≠ none := by
  rw [relLoop_hit newImport fuel dir ct hd hp]
  simp

/-- The loop of `rel` ends in `log.Fatalln` exactly when none of the
directories it looks at, up to the first one that is `/` and for at most 100
hops, is a prefix of the candidate. -/
theorem relLoop_none_iff (newImport : Str) (fuel : Nat) (dir : Str) (ct : Nat)
    (hct : ct ≤ 100) (hf : 101 ≤ fuel + ct) :
    relLoop newImport fuel dir ct = none ↔
      ∀ i, ct + i ≤ 100 → (∀ j ≤ i, hopDir dir j ≠ ['/']) →
        hasPrefix newImport (hopDir dir i) = false := by
  induction fuel generalizing dir ct with
  | zero => omega
  | succ fuel ih =>
    by_cases hd : dir = ['/']
    · rw [relLoop, if_pos hd]
      simp only [true_iff]
      intro i _ hall
      exact absurd hd (hall 0 (Nat.zero_le _))
    · by_cases hp : hasPrefix newImport dir = true
      · constructor
        · intro h
          exact absurd h (relLoop_prefix_some newImport fuel dir ct hd hp)
        · intro h
          have h0 := h 0 (by omega) (fun j hj => by
            have : j = 0 := by omega
            subst this
            exact hd)
          rw [hopDir, hp] at h0
          exact Bool.noConfusion h0
      · have hp2 : hasPrefix newImport dir = false := by simpa using hp
        rw [relLoop, if_neg hd, if_neg hp]
        by_cases hlast : ct + 1 > 100
        · rw [if_pos hlast]
          simp only [true_iff]
          intro i hi _
          have : i = 0 := by omega
          subst this
          exact hp2
        · rw [if_neg hlast, ih (pathDir dir) (ct + 1) (by omega) (by omega)]
          constructor
          · intro h i hi hall
            cases i with
            | zero => exact hp2
            | succ i =>
              exact h i (by omega) (fun j hj => hall (j + 1) (by omega))
          · intro h i hi hall
            refine h (i + 1) (by omega) (fun j hj => ?_)
            cases j with
            | zero => exact hd
            | succ j => exact hall j (by omega)

/-- C13, as the code has it: `rel(file, candidate)` ends after at most 101
passes of its loop, whatever the input, and it fails (fatal) exactly when none
of the directories it looks at is a prefix of the candidate: the importing
file's directory and its successive parent directories, for at most 100 upward
hops and only as long as the directory is not `/`; the root `/` itself is never
taken as the common ancestor.  In every other case it returns a specifier. -/
theorem rel_fatal_iff (file newImport : Str) :
    (rel file newImport = none ↔
      ∀ i ≤ 100, (∀ j ≤ i, hopDir (pathDir file) j ≠ ['/']) →
        hasPrefix newImport (hopDir (pathDir file) i) = false) ∧
    (rel file newImport ≠ none ↔ ∃ v, rel file newImport = some v) ∧
    (∀ fuel, 101 ≤ fuel → relLoop newImport fuel (pathDir file) 0 = rel file newImport) := by
  refine ⟨?_, ?_, ?_⟩
  · rw [rel, relLoop_none_iff newImport 101 (pathDir file) 0 (by omega) (by omega)]
    constructor
    · intro h i hi hall
      exact h i (by omega) hall
    · intro h i hi hall
      exact h i (by omega) hall
  · cases rel file newImport <;> simp
  · intro fuel hf
    exact relLoop_fuel newImport fuel 101 (pathDir file) 0 (by omega) (by omega) (by omega)

/-- C13 fails as stated: from `/a/x.ts` the first parent directory of `/a` is
`/`, which is a prefix of the candidate `/b/y` and one hop away, but `rel` does
not look at `/` and ends the run.  The same holds for a file in `/` itself. -/
theorem rel_fatal_below_root :
    hopDir (pathDir "/a/x.ts".toList) 1 = ['/'] ∧
    hasPrefix "/b/y".toList (hopDir (pathDir "/a/x.ts".toList) 1) = true ∧
    rel "/a/x.ts".toList "/b/y".toList = none ∧
    hasPrefix "/y".toList (pathDir "/x.ts".toList) = true ∧
    rel "/x.ts".toList "/y".toList = none := by
  decide!

theorem rel_fatal_iff_witness :
    rel "/a/b/x.ts".toList "/c/y".toList = none ∧
    (∀ i ≤ 100, (∀ j ≤ i, hopDir (pathDir "/a/b/x.ts".toList) j ≠ ['/']) →
      hasPrefix "/c/y".toList (hopDir (pathDir "/a/b/x.ts".toList) i) = false) ∧
    (∃ v, rel "/a/b/x.ts".toList "/a/c/y".toList = some v) :=
  ⟨by decide!, (rel_fatal_iff "/a/b/x.ts".toList "/c/y".toList).1.mp (by decide!),
    (rel_fatal_iff "/a/b/x.ts".toList "/a/c/y".toList).2.1.mp (by decide!)⟩


/-! ## `rel`: the specifier it returns -/

theorem addSlash_false_of_ne_nil {out : Str} (h : out ≠ []) :
    addSlash false out = out ++ ['/'] := by
  have hpos : 0 < out.length := List.length_pos.mpr h
  have h0 : ¬ out.length = 0 := by omega
  simp [addSlash, h]

/-- The loop of `path.Clean`, not rooted, on real elements read after a
non-empty buffer: every element is appended after a slash. -/
theorem cleanLoop_elems_after (ns : List Str) (out : Str) (dd : Nat)
    (hns : ∀ n ∈ ns, NormalElem n) (hne : ns ≠ []) (hout : out ≠ []) :
    cleanLoop false (joinSlash ns).length (joinSlash ns) out dd =
      (out ++ '/' :: joinSlash ns, dd) := by
  induction ns using List.reverseRecOn with
  | nil => exact absurd rfl hne
  | append_singleton l e ih =>
    have hl : ∀ n ∈ l, NormalElem n := fun n hn => hns n (List.mem_append_left _ hn)
    have he : NormalElem e := hns e (List.mem_append_right _ (List.mem_singleton_self e))
    by_cases hnil : l = []
    · subst hnil
      show cleanLoop false e.length e out dd = _
      rw [cleanLoop_last_elem false e out dd he, addSlash_false_of_ne_nil hout]
      simp [joinSlash]
    · rw [cleanLoop_snoc false l e out dd hnil, ih hl hnil]
      simp only
      rw [cleanLoop_last_elem false e _ dd he, addSlash_false_of_ne_nil (by simp),
        joinSlash_snoc e hnil]
      simp

theorem strRepeat_dots (n : Nat) :
    strRepeat ['.', '.', '/'] (n + 1) =
      joinSlash (List.replicate (n + 1) dotdotElem) ++ ['/'] := by
  induction n with
  | zero => rfl
  | succ n ih =>
    have h : strRepeat ['.', '.', '/'] (n + 2) =
        ['.', '.', '/'] ++ strRepeat ['.', '.', '/'] (n + 1) := rfl
    have h2 : List.replicate (n + 2) dotdotElem =
        dotdotElem :: List.replicate (n + 1) dotdotElem := rfl
    rw [h, ih, h2, joinSlash_cons_ne _ (by simp)]
    simp [dotdotElem]

theorem dots_ne_nil (n : Nat) : joinSlash (List.replicate (n + 1) dotdotElem) ≠ [] :=
  joinSlash_ne_nil (by simp) (fun e he => by
    rw [List.eq_of_mem_replicate he]; simp [dotdotElem])

theorem head_dots (n : Nat) :
    (joinSlash (List.replicate (n + 1) dotdotElem)).head? = some '.' := by
  rw [List.replicate_succ, head_joinSlash _ _ (by simp [dotdotElem])]
  rfl

/-- `path.Clean` on `n + 1` elements `..`, two more slashes and real elements,
as `path.Join` hands it over in `rel` after `n + 1` hops. -/
theorem clean_dots_elems (n : Nat) (ns : List Str) (hns : ∀ e ∈ ns, NormalElem e)
    (hne : ns ≠ []) :
    clean (strRepeat ['.', '.', '/'] (n + 1) ++ '/' :: '/' :: joinSlash ns) =
      strRepeat ['.', '.', '/'] (n + 1) ++ joinSlash ns := by
  have hform : strRepeat ['.', '.', '/'] (n + 1) ++ '/' :: '/' :: joinSlash ns =
      joinSlash (List.replicate (n + 1) dotdotElem) ++
        '/' :: ('/' :: '/' :: joinSlash ns) := by
    rw [strRepeat_dots]; simp
  have hhead : (joinSlash (List.replicate (n + 1) dotdotElem) ++
      '/' :: ('/' :: '/' :: joinSlash ns)).head? ≠ some '/' := by
    rw [List.head?_append_of_ne_nil _ (dots_ne_nil n), head_dots]
    decide
  have hlen : (joinSlash (List.replicate (n + 1) dotdotElem) ++
      '/' :: ('/' :: '/' :: joinSlash ns)).length =
      (joinSlash (List.replicate (n + 1) dotdotElem)).length +
        (('/' :: '/' :: joinSlash ns).length + 1) := by
    simp
  have hout : cleanOut (joinSlash (List.replicate (n + 1) dotdotElem) ++
      '/' :: ('/' :: '/' :: joinSlash ns)) =
      joinSlash (List.replicate (n + 1) dotdotElem) ++ '/' :: joinSlash ns := by
    rw [cleanOut, if_neg hhead, hlen, cleanLoop_append false _ _ _ _ _ (Nat.le_refl _),
      cleanLoop_dots]
    simp only
    have hf : ('/' :: '/' :: joinSlash ns).length + 1 = ((joinSlash ns).length + 2) + 1 := by
      simp
    rw [hf, cleanLoop_slash, cleanLoop_slash, cleanLoop_slash,
      cleanLoop_elems_after ns _ _ hns hne (dots_ne_nil n)]
  rw [hform, clean, if_neg (by simp), hout, if_neg (by simp), strRepeat_dots]
  simp

/-- `path.Clean` on `n + 1` elements `..` and two more slashes, as `path.Join`
hands it over in `rel` when the candidate is the directory itself. -/
theorem clean_dots_only (n : Nat) :
    clean (strRepeat ['.', '.', '/'] (n + 1) ++ ['/']) =
      joinSlash (List.replicate (n + 1) dotdotElem) := by
  have hform : strRepeat ['.', '.', '/'] (n + 1) ++ ['/'] =
      joinSlash (List.replicate (n + 1) dotdotElem) ++ '/' :: ['/'] := by
    rw [strRepeat_dots]; simp
  have hhead : (joinSlash (List.replicate (n + 1) dotdotElem) ++ '/' :: ['/']).head? ≠
      some '/' := by
    rw [List.head?_append_of_ne_nil _ (dots_ne_nil n), head_dots]
    decide
  have hlen : (joinSlash (List.replicate (n + 1) dotdotElem) ++ '/' :: ['/']).length =
      (joinSlash (List.replicate (n + 1) dotdotElem)).length + (['/'].length + 1) := by
    simp
  have hout : cleanOut (joinSlash (List.replicate (n + 1) dotdotElem) ++ '/' :: ['/']) =
      joinSlash (List.replicate (n + 1) dotdotElem) := by
    rw [cleanOut, if_neg hhead, hlen, cleanLoop_append false _ _ _ _ _ (Nat.le_refl _),
      cleanLoop_dots]
    simp only
    show (cleanLoop false 2 ('/' :: ['/']) _ _).1 = _
    rw [cleanLoop_slash, cleanLoop_slash, cleanLoop_nil]
  have hne := dots_ne_nil n
  rw [hform, clean, if_neg (by simp), hout,
    if_neg (fun h => hne (List.length_eq_zero.mp h))]

/-- `path.Clean` on `./`, two more slashes and real elements, as `path.Join`
hands it over in `rel` without a hop. -/
theorem clean_dot_elems (ns : List Str) (hns : ∀ e ∈ ns, NormalElem e) (hne : ns ≠ []) :
    clean (['.', '/'] ++ '/' :: '/' :: joinSlash ns) = joinSlash ns := by
  have hj : joinSlash ns ≠ [] := joinSlash_ne_nil hne (fun e he => (hns e he).1)
  have hcf := cleanLoop_cleanForm false 0 ns (fun h => absurd h (by decide)) hns
  simp only [List.replicate_zero, List.nil_append, rootOf, Bool.false_eq_true, if_false,
    List.length_nil] at hcf
  have hout : cleanOut (['.', '/'] ++ '/' :: '/' :: joinSlash ns) = joinSlash ns := by
    have hhead : (['.', '/'] ++ '/' :: '/' :: joinSlash ns).head? ≠ some '/' := by
      simp
    have hlen : (['.', '/'] ++ '/' :: '/' :: joinSlash ns).length =
        (joinSlash ns).length + 3 + 1 := by simp
    have hdot : ('.' = '.' ∧ (('/' :: '/' :: '/' :: joinSlash ns) = [] ∨
        ('/' :: '/' :: '/' :: joinSlash ns).head? = some '/')) := by simp
    rw [cleanOut, if_neg hhead, hlen]
    show (cleanLoop false _ ('.' :: '/' :: '/' :: '/' :: joinSlash ns) [] 0).1 = _
    rw [cleanLoop_cons, if_neg (by decide), if_pos hdot, cleanLoop_slash, cleanLoop_slash,
      cleanLoop_slash, hcf]
  rw [clean, if_neg (by simp), hout, if_neg (fun h => hj (List.length_eq_zero.mp h))]

theorem hasPrefix_elems (ns : List Str) (hns : ∀ e ∈ ns, NormalElem e) (hne : ns ≠ []) :
    hasPrefix (joinSlash ns) ['.', '/'] = false ∧
      hasPrefix (joinSlash ns) ['.', '.', '/'] = false := by
  obtain ⟨e, l, rfl⟩ := List.exists_cons_of_ne_nil hne
  obtain ⟨h1, h2, h3, h4⟩ := hns e (List.mem_cons_self _ _)
  have hform : ∃ t, joinSlash (e :: l) = e ++ t ∧ (t = [] ∨ t.head? = some '/') := by
    cases l with
    | nil => exact ⟨[], by simp [joinSlash], Or.inl rfl⟩
    | cons m ms => exact ⟨'/' :: joinSlash (m :: ms), rfl, Or.inr rfl⟩
  obtain ⟨t, ht, htl⟩ := hform
  rw [ht]
  constructor
  · by_contra hc
    rw [Bool.not_eq_false, hasPrefix, List.isPrefixOf_iff_prefix] at hc
    obtain ⟨rest, hrest⟩ := hc
    match e, h1, h2, h3 with
    | [a], _, _, h3 =>
      have ha : '.' = a := by
        simp only [List.cons_append, List.nil_append] at hrest
        exact (List.cons.inj hrest).1
      exact h3 (by rw [← ha])
    | a :: b :: r, _, h2, _ =>
      have hb : '/' = b := by
        simp only [List.cons_append, List.nil_append] at hrest
        exact (List.cons.inj (List.cons.inj hrest).2).1
      exact h2 (by simp [← hb])
  · by_contra hc
    rw [Bool.not_eq_false, hasPrefix, List.isPrefixOf_iff_prefix] at hc
    obtain ⟨rest, hrest⟩ := hc
    match e, h1, h2, h4 with
    | [a], _, _, _ =>
      simp only [List.cons_append, List.nil_append] at hrest
      have ht2 : '.' :: '/' :: rest = t := (List.cons.inj hrest).2
      rcases htl with h | h
      · rw [h] at ht2
        exact List.noConfusion ht2
      · rw [← ht2] at h
        simp at h
    | [a, b], _, _, h4 =>
      simp only [List.cons_append, List.nil_append] at hrest
      have ha : '.' = a := (List.cons.inj hrest).1
      have hb : '.' = b := (List.cons.inj (List.cons.inj hrest).2).1
      exact h4 (by rw [← ha, ← hb])
    | a :: b :: c :: r, _, h2, _ =>
      simp only [List.cons_append, List.nil_append] at hrest
      have hcc : '/' = c := (List.cons.inj (List.cons.inj (List.cons.inj hrest).2).2).1
      exact h2 (by simp [← hcc])


theorem trimPrefix_append (d x : Str) : trimPrefix (d ++ x) d = x := by
  rw [trimPrefix, if_pos (hasPrefix_append d x)]
  simp

theorem trimPrefix_self (d : Str) : trimPrefix d d = [] := by
  have := trimPrefix_append d []
  simpa using this

theorem relResult_eq (newImport dir : Str) (ct : Nat) (u : Str)
    (hu : pathJoin (if ct > 0 then strRepeat ['.', '.', '/'] ct else ['.', '/'])
      (trimPrefix newImport dir) = u) :
    relResult newImport dir ct =
      if !hasPrefix u ['.', '/'] && !hasPrefix u ['.', '.', '/'] then ['.', '/'] ++ u
      else u := by
  rw [relResult, hu]

theorem hasPrefix_strRepeat (n : Nat) (x : Str) :
    hasPrefix (strRepeat ['.', '.', '/'] (n + 1) ++ x) ['.', '.', '/'] = true := by
  have h : strRepeat ['.', '.', '/'] (n + 1) ++ x =
      ['.', '.', '/'] ++ (strRepeat ['.', '.', '/'] n ++ x) := by
    show (['.', '.', '/'] ++ strRepeat ['.', '.', '/'] n) ++ x = _
    rw [List.append_assoc]
  rw [h]
  exact hasPrefix_append _ _

/-- The specifier of `rel` without a hop, for a candidate below the directory. -/
theorem relResult_below_zero (d : Str) (ns : List Str) (hns : ∀ e ∈ ns, NormalElem e)
    (hne : ns ≠ []) :
    relResult (d ++ '/' :: joinSlash ns) d 0 = ['.', '/'] ++ joinSlash ns := by
  have hu : pathJoin (if 0 > 0 then strRepeat ['.', '.', '/'] 0 else ['.', '/'])
      (trimPrefix (d ++ '/' :: joinSlash ns) d) = joinSlash ns := by
    rw [if_neg (by decide), trimPrefix_append, pathJoin_of_ne_nil _ (by simp)]
    exact clean_dot_elems ns hns hne
  obtain ⟨h1, h2⟩ := hasPrefix_elems ns hns hne
  rw [relResult_eq _ _ _ _ hu, h1, h2]
  rfl

/-- The specifier of `rel` after `n + 1` hops, for a candidate below the
directory. -/
theorem relResult_below_succ (d : Str) (n : Nat) (ns : List Str)
    (hns : ∀ e ∈ ns, NormalElem e) (hne : ns ≠ []) :
    relResult (d ++ '/' :: joinSlash ns) d (n + 1) =
      strRepeat ['.', '.', '/'] (n + 1) ++ joinSlash ns := by
  have hu : pathJoin (if n + 1 > 0 then strRepeat ['.', '.', '/'] (n + 1) else ['.', '/'])
      (trimPrefix (d ++ '/' :: joinSlash ns) d) =
      strRepeat ['.', '.', '/'] (n + 1) ++ joinSlash ns := by
    have hne2 : strRepeat ['.', '.', '/'] (n + 1) ≠ [] := by
      show ['.', '.', '/'] ++ strRepeat ['.', '.', '/'] n ≠ []
      simp
    rw [if_pos (by omega), trimPrefix_append, pathJoin_of_ne_nil _ hne2]
    exact clean_dots_elems n ns hns hne
  rw [relResult_eq _ _ _ _ hu, hasPrefix_strRepeat]
  simp

/-- The specifier of `rel` for a candidate that is the directory itself. -/
theorem relResult_self (d : Str) (n : Nat) :
    relResult d d n =
      if n = 0 then ['.', '/', '.']
      else if n = 1 then ['.', '/', '.', '.']
      else joinSlash (List.replicate n dotdotElem) := by
  cases n with
  | zero =>
    have hu : pathJoin (if 0 > 0 then strRepeat ['.', '.', '/'] 0 else ['.', '/'])
        (trimPrefix d d) = ['.'] := by
      rw [trimPrefix_self]
      decide!
    rw [relResult_eq _ _ _ _ hu]
    rfl
  | succ n =>
    have hne2 : strRepeat ['.', '.', '/'] (n + 1) ≠ [] := by
      show ['.', '.', '/'] ++ strRepeat ['.', '.', '/'] n ≠ []
      simp
    have hu : pathJoin (if n + 1 > 0 then strRepeat ['.', '.', '/'] (n + 1) else ['.', '/'])
        (trimPrefix d d) = joinSlash (List.replicate (n + 1) dotdotElem) := by
      rw [if_pos (by omega), trimPrefix_self, pathJoin_of_ne_nil _ hne2]
      exact clean_dots_only n
    rw [relResult_eq _ _ _ _ hu]
    cases n with
    | zero => rfl
    | succ n =>
      have h2 : joinSlash (List.replicate (n + 1 + 1) dotdotElem) =
          ['.', '.', '/'] ++ joinSlash (List.replicate (n + 1) dotdotElem) := by
        rw [List.replicate_succ, joinSlash_cons_ne _ (by simp)]
        simp [dotdotElem]
      have h3 : hasPrefix (joinSlash (List.replicate (n + 1 + 1) dotdotElem))
          ['.', '.', '/'] = true := by
        rw [h2]; exact hasPrefix_append _ _
      rw [h3]
      simp

/-- The loop of `rel` walks past every directory that is neither `/` nor a
prefix of the candidate. -/
theorem relLoop_walk (newImport : Str) (n fuel : Nat) (dir : Str) (ct : Nat)
    (hnear : ∀ j < n, hopDir dir j ≠ ['/'] ∧ hasPrefix newImport (hopDir dir j) = false)
    (hct : ct + n ≤ 100) :
    relLoop newImport (fuel + n) dir ct = relLoop newImport fuel (hopDir dir n) (ct + n) := by
  induction n generalizing dir ct with
  | zero => rfl
  | succ n ih =>
    obtain ⟨hd0, hp⟩ := hnear 0 (by omega)
    have hd : dir ≠ ['/'] := hd0
    have hp2 : ¬ hasPrefix newImport dir = true := by
      rw [hopDir] at hp
      rw [hp]; simp
    have hfuel : fuel + (n + 1) = (fuel + n) + 1 := by omega
    rw [hfuel, relLoop, if_neg hd, if_neg hp2, if_neg (by omega),
      ih (pathDir dir) (ct + 1) (fun j hj => hnear (j + 1) (by omega)) (by omega)]
    have hct2 : ct + 1 + n = ct + (n + 1) := by omega
    rw [hct2]
    rfl

/-- The specifier `rel` returns when the first directory that is a prefix of
the candidate is reached after `n` hops. -/
theorem rel_at_hop (file newImport : Str) (n : Nat)
    (hnear : ∀ j < n, hopDir (pathDir file) j ≠ ['/'] ∧
      hasPrefix newImport (hopDir (pathDir file) j) = false)
    (hn : n ≤ 100) (hd : hopDir (pathDir file) n ≠ ['/'])
    (hp : hasPrefix newImport (hopDir (pathDir file) n) = true) :
    rel file newImport = some (relResult newImport (hopDir (pathDir file) n) n) := by
  have hfuel : 101 = (100 - n + 1) + n := by omega
  rw [rel, hfuel, relLoop_walk newImport n _ (pathDir file) 0 hnear (by omega),
    relLoop_hit newImport _ _ _ hd hp]
  simp


/-- C14, as the code has it: let `n` be the number of upward hops from the
importing file's directory to the first directory `d` that `rel` accepts (no
directory before it is `/` or a prefix of the candidate).  When the candidate
is `d` followed by a separator and the real path elements `ns`, `rel` returns
`../` repeated `n` times (`./` when `n = 0`) followed by those elements; when
the candidate is `d` itself, it returns `./.`, `./..` or `n` elements `..`. -/
theorem rel_specifier (file c : Str) (n : Nat)
    (hnear : ∀ j < n, hopDir (pathDir file) j ≠ ['/'] ∧
      hasPrefix c (hopDir (pathDir file) j) = false)
    (hn : n ≤ 100) (hd : hopDir (pathDir file) n ≠ ['/']) :
    (∀ ns : List Str, (∀ e ∈ ns, NormalElem e) → ns ≠ [] →
      c = hopDir (pathDir file) n ++ '/' :: joinSlash ns →
      rel file c =
        some ((if n = 0 then ['.', '/'] else strRepeat ['.', '.', '/'] n) ++ joinSlash ns)) ∧
    (c = hopDir (pathDir file) n →
      rel file c =
        some (if n = 0 then ['.', '/', '.']
          else if n = 1 then ['.', '/', '.', '.']
          else joinSlash (List.replicate n dotdotElem))) := by
  constructor
  · intro ns hns hne hc
    have hp : hasPrefix c (hopDir (pathDir file) n) = true := by
      rw [hc]; exact hasPrefix_append _ _
    rw [rel_at_hop file c n hnear hn hd hp]
    cases n with
    | zero =>
      rw [hc, relResult_below_zero _ ns hns hne]
      rfl
    | succ n =>
      rw [hc, relResult_below_succ _ n ns hns hne, if_neg (by omega)]
  · intro hc
    have hp : hasPrefix c (hopDir (pathDir file) n) = true := by
      have := hasPrefix_append (hopDir (pathDir file) n) []
      rw [hc]
      simpa using this
    rw [rel_at_hop file c n hnear hn hd hp, hc, relResult_self]

theorem rel_specifier_witness :
    hopDir (pathDir "/src/pages/Home.tsx".toList) 1 = "/src".toList ∧
    rel "/src/pages/Home.tsx".toList "/src/shared/utils/helpers".toList =
      some ((if 1 = 0 then ['.', '/'] else strRepeat ['.', '.', '/'] 1) ++
        joinSlash ["shared".toList, "utils".toList, "helpers".toList]) ∧
    strRepeat ['.', '.', '/'] 1 ++
      joinSlash ["shared".toList, "utils".toList, "helpers".toList] =
      "../shared/utils/helpers".toList :=
  ⟨by decide!,
    (rel_specifier "/src/pages/Home.tsx".toList "/src/shared/utils/helpers".toList 1
      (by decide!) (by decide!) (by decide!)).1
      ["shared".toList, "utils".toList, "helpers".toList] (by decide!) (by decide!)
      (by decide!),
    by decide!⟩

/-- C14 fails as stated.  For a candidate that is the importing file's
directory or one of its ancestors, `rel` returns `./.` and `./..`, not `./` or
`../` followed by a relative path.  And the prefix test on raw strings makes
`rel` stop at `/src/util` for the candidate `/src/utils/y`, although the
nearest common ancestor directory is `/src`, one hop up: it returns `./s/y`. -/
theorem rel_specifier_other :
    rel "/src/a/x.ts".toList "/src/a".toList = some "./.".toList ∧
    rel "/src/a/b/x.ts".toList "/src/a".toList = some "./..".toList ∧
    rel "/src/a/b/x.ts".toList "/src/a".toList ≠ some "../".toList ∧
    rel "/src/a/b/x.ts".toList "/src/a".toList ≠ some "../../a".toList ∧
    rel "/src/util/x.ts".toList "/src/utils/y".toList = some "./s/y".toList ∧
    rel "/src/util/x.ts".toList "/src/utils/y".toList ≠ some "../utils/y".toList := by
  decide!


/-! ## `partialMatchesFor`: which corpus paths are candidates -/

theorem mem_appendMatches (file x : Str) (perms acc : List Str) :
    x ∈ appendMatches file perms acc ↔
      x ∈ acc ∨ (x = file ∧ ∃ perm ∈ perms, hasSuffix file perm = true) := by
  induction perms generalizing acc with
  | nil => simp [appendMatches]
  | cons p perms ih =>
    rw [appendMatches]
    split
    · rename_i hp
      rw [ih]
      constructor
      · rintro (h | ⟨rfl, q, hq, hs⟩)
        · rcases List.mem_append.mp h with h1 | h1
          · exact Or.inl h1
          · exact Or.inr ⟨List.mem_singleton.mp h1, p, List.mem_cons_self _ _, hp⟩
        · exact Or.inr ⟨rfl, q, List.mem_cons_of_mem _ hq, hs⟩
      · rintro (h | ⟨rfl, q, hq, hs⟩)
        · exact Or.inl (List.mem_append_left _ h)
        · exact Or.inl (List.mem_append_right _ (List.mem_singleton_self _))
    · rename_i hp
      rw [ih]
      constructor
      · rintro (h | ⟨rfl, q, hq, hs⟩)
        · exact Or.inl h
        · exact Or.inr ⟨rfl, q, List.mem_cons_of_mem _ hq, hs⟩
      · rintro (h | ⟨rfl, q, hq, hs⟩)
        · exact Or.inl h
        · rcases List.mem_cons.mp hq with rfl | hmem
          · exact absurd hs hp
          · exact Or.inr ⟨rfl, q, hmem, hs⟩

theorem mem_partialMatchesLoop (importName x : Str) (perms files acc : List Str) :
    x ∈ partialMatchesLoop importName perms files acc ↔
      x ∈ acc ∨ (x ∈ files ∧ contains x importName = true ∧
        ∃ perm ∈ perms, hasSuffix x perm = true) := by
  induction files generalizing acc with
  | nil => simp [partialMatchesLoop]
  | cons f files ih =>
    rw [partialMatchesLoop]
    split
    · rename_i hc
      have hc2 : contains f importName = false := by simpa using hc
      rw [ih]
      constructor
      · rintro (h | ⟨h1, h2, h3⟩)
        · exact Or.inl h
        · exact Or.inr ⟨List.mem_cons_of_mem _ h1, h2, h3⟩
      · rintro (h | ⟨h1, h2, h3⟩)
        · exact Or.inl h
        · rcases List.mem_cons.mp h1 with rfl | hmem
          · rw [hc2] at h2
            exact Bool.noConfusion h2
          · exact Or.inr ⟨hmem, h2, h3⟩
    · rename_i hc
      have hc2 : contains f importName = true := by simpa using hc
      rw [ih, mem_appendMatches]
      constructor
      · rintro ((h | ⟨rfl, h3⟩) | ⟨h1, h2, h3⟩)
        · exact Or.inl h
        · exact Or.inr ⟨List.mem_cons_self _ _, hc2, h3⟩
        · exact Or.inr ⟨List.mem_cons_of_mem _ h1, h2, h3⟩
      · rintro (h | ⟨h1, h2, h3⟩)
        · exact Or.inl (Or.inl h)
        · rcases List.mem_cons.mp h1 with rfl | hmem
          · exact Or.inl (Or.inr ⟨rfl, h3⟩)
          · exact Or.inr ⟨hmem, h2, h3⟩

/-- The candidates of `partialMatchesFor`: the corpus paths that contain the
key and end with one of the permutations of `getSuffixPermutations`. -/
theorem mem_partialMatchesFor (ctx : FileContext) (importName x : Str) :
    x ∈ ctx.partialMatchesFor importName ↔
      x ∈ ctx.AllFiles ∧ contains x importName = true ∧
        ∃ perm ∈ ctx.getSuffixPermutations importName, hasSuffix x perm = true := by
  rw [FileContext.partialMatchesFor, mem_partialMatchesLoop]
  simp

/-- C15, as the code has it: for every corpus and every base key `k` for which
`"/" + k` is a clean path other than `/`, the candidate set
`partialMatchesFor("/" + k)` consists of exactly the corpus paths that contain
`"/" + k` and end with one of the eight permutations `"/" + k + s` or
`"/" + k + "/index" + s`, `s` a recognized suffix. -/
theorem partialMatchesFor_iff (ctx : FileContext) (k x : Str)
    (hk : k ≠ []) (hclean : clean ('/' :: k) = '/' :: k) :
    x ∈ ctx.partialMatchesFor ('/' :: k) ↔
      x ∈ ctx.AllFiles ∧ contains x ('/' :: k) = true ∧
        ∃ s ∈ validSuffixes, hasSuffix x ('/' :: k ++ s) = true ∨
          hasSuffix x ('/' :: k ++ ['/', 'i', 'n', 'd', 'e', 'x'] ++ s) = true := by
  have hjoin : ∀ s ∈ validSuffixes,
      pathJoin ('/' :: k) (['i', 'n', 'd', 'e', 'x'] ++ s) =
        '/' :: k ++ ['/', 'i', 'n', 'd', 'e', 'x'] ++ s := by
    intro s hs
    rw [pathJoin_of_ne_nil _ (by simp)]
    have h := clean_append_elem ('/' :: k) _ (normalElem_index hs)
      (by rw [hclean]; simpa using hk) (by rw [hclean]; simp)
    rw [hclean] at h
    simpa using h
  rw [mem_partialMatchesFor, FileContext.getSuffixPermutations]
  constructor
  · rintro ⟨h1, h2, perm, hperm, hsuf⟩
    refine ⟨h1, h2, ?_⟩
    rcases List.mem_append.mp hperm with h | h
    · obtain ⟨s, hs, rfl⟩ := List.mem_map.mp h
      exact ⟨s, hs, Or.inl hsuf⟩
    · obtain ⟨s, hs, rfl⟩ := List.mem_map.mp h
      rw [hjoin s hs] at hsuf
      exact ⟨s, hs, Or.inr hsuf⟩
  · rintro ⟨h1, h2, s, hs, h | h⟩
    · exact ⟨h1, h2, _, List.mem_append_left _ (List.mem_map.mpr ⟨s, hs, rfl⟩), h⟩
    · exact ⟨h1, h2, _, List.mem_append_right _ (List.mem_map.mpr ⟨s, hs, hjoin s hs⟩), h⟩

theorem partialMatchesFor_iff_witness :
    clean "/utils/helpers".toList = "/utils/helpers".toList ∧
    ("/src/shared/utils/helpers.ts".toList ∈
        (⟨["/src/shared/utils/helpers.ts".toList, "/src/pages/Home.tsx".toList]⟩ :
          FileContext).partialMatchesFor ('/' :: "utils/helpers".toList) ↔
      "/src/shared/utils/helpers.ts".toList ∈
          ["/src/shared/utils/helpers.ts".toList, "/src/pages/Home.tsx".toList] ∧
        contains "/src/shared/utils/helpers.ts".toList ('/' :: "utils/helpers".toList) = true ∧
        ∃ s ∈ validSuffixes,
          hasSuffix "/src/shared/utils/helpers.ts".toList
            ('/' :: "utils/helpers".toList ++ s) = true ∨
          hasSuffix "/src/shared/utils/helpers.ts".toList
            ('/' :: "utils/helpers".toList ++ ['/', 'i', 'n', 'd', 'e', 'x'] ++ s) = true) :=
  ⟨by decide!,
    partialMatchesFor_iff
      ⟨["/src/shared/utils/helpers.ts".toList, "/src/pages/Home.tsx".toList]⟩
      "utils/helpers".toList "/src/shared/utils/helpers.ts".toList (by decide!) (by decide!)⟩

/-- C15 fails as stated at the empty base key (the specifiers `..`, `.` and
`./`): `path.Join("/", "index.ts")` is `/index.ts`, so `/src/a/index.ts` is a
candidate of `partialMatchesFor("/")` although it ends with none of the
permutations `"/" + s` and `"//index" + s`. -/
theorem partialMatchesFor_empty_key :
    baseKey "..".toList = [] ∧
    (⟨["/src/a/index.ts".toList, "/src/b/x.ts".toList]⟩ : FileContext).partialMatchesFor
      ('/' :: baseKey "..".toList) = ["/src/a/index.ts".toList] ∧
    ¬ ∃ s ∈ validSuffixes,
      hasSuffix "/src/a/index.ts".toList ('/' :: baseKey "..".toList ++ s) = true ∨
      hasSuffix "/src/a/index.ts".toList
        ('/' :: baseKey "..".toList ++ ['/', 'i', 'n', 'd', 'e', 'x'] ++ s) = true := by
  decide!


/-! ## The base key and the key-shortening loop -/

/-- C16 at a concrete input: for the specifier `./.storybook/config` the words
of the claim give the key `.storybook/config`, but `strings.TrimLeft(name, "./")`
also removes the dot of `.storybook`: the key is `storybook/config`.  With it
`checkImport` misses the moved file `/src/tools/.storybook/config.ts` and
rewrites the line to another file.  On the example of the claim,
`../utils/helpers`, both give `utils/helpers`. -/
theorem baseKey_strips_hidden_dot :
    specBaseKey "./.storybook/config".toList = ".storybook/config".toList ∧
    baseKey "./.storybook/config".toList = "storybook/config".toList ∧
    baseKey "../utils/helpers".toList = specBaseKey "../utils/helpers".toList ∧
    (⟨["/src/tools/.storybook/config.ts".toList, "/src/other/storybook/config.ts".toList,
        "/src/a/x.ts".toList]⟩ : FileContext).partialMatchesFor
      ('/' :: specBaseKey "./.storybook/config".toList) =
      ["/src/tools/.storybook/config.ts".toList] ∧
    checkImport
      ⟨["/src/tools/.storybook/config.ts".toList, "/src/other/storybook/config.ts".toList,
        "/src/a/x.ts".toList]⟩
      "/src/a/x.ts".toList "import c from \"./.storybook/config\";".toList =
      Outcome.rewritten "import c from \"../other/storybook/config\";".toList := by
  decide!

theorem splitSlash_single {base : Str} (h : '/' ∉ base) : splitSlash base = [base] := by
  induction base with
  | nil => rfl
  | cons c rest ih =>
    have hc : c ≠ '/' := fun hc => h (by simp [hc])
    have hr : '/' ∉ rest := fun hr => h (List.mem_cons_of_mem _ hr)
    rw [splitSlash, if_neg hc, ih hr]

theorem splitSlash_tail {base : Str} (h : '/' ∈ base) :
    splitSlash (joinSlash (splitSlash base).tail) = (splitSlash base).tail := by
  induction base with
  | nil => simp at h
  | cons c rest ih =>
    rw [splitSlash]
    split
    · simp [joinSlash_splitSlash]
    · rename_i hc
      have hmem : '/' ∈ rest := by
        rcases List.mem_cons.mp h with h1 | h1
        · exact absurd h1.symm hc
        · exact h1
      split
      · rename_i hnil
        exact absurd hnil (splitSlash_ne_nil rest)
      · rename_i p ps hps
        rw [hps] at ih
        exact ih hmem

theorem splitSlash_tail_ne_nil {base : Str} (h : '/' ∈ base) :
    (splitSlash base).tail ≠ [] := by
  induction base with
  | nil => simp at h
  | cons c rest ih =>
    rw [splitSlash]
    split
    · exact splitSlash_ne_nil rest
    · rename_i hc
      have hmem : '/' ∈ rest := by
        rcases List.mem_cons.mp h with h1 | h1
        · exact absurd h1.symm hc
        · exact h1
      split
      · rename_i hnil
        exact absurd hnil (splitSlash_ne_nil rest)
      · rename_i p ps hps
        rw [hps] at ih
        exact ih hmem

theorem keysOf_split (base : Str) :
    keysOf (splitSlash base) = base :: keysOf (splitSlash base).tail := by
  have hj := joinSlash_splitSlash base
  obtain ⟨seg, segs, hs⟩ := List.exists_cons_of_ne_nil (splitSlash_ne_nil base)
  rw [hs] at hj ⊢
  rw [keysOf, hj]
  rfl

/-- The key-shortening loop computes the match set of the first key of the
key sequence that has a non-empty match set. -/
theorem shortenLoop_firstMatch (ctx : FileContext) (fuel : Nat) (base : Str)
    (hfuel : countSlash base ≤ fuel) :
    (shortenLoop ctx fuel base (ctx.partialMatchesFor ('/' :: base))).2 =
      firstMatch ctx (keySequence base) := by
  induction fuel generalizing base with
  | zero =>
    have hno : '/' ∉ base := by
      intro h
      have := countSlash_pos_of_mem h
      omega
    rw [shortenLoop, keySequence, splitSlash_single hno]
    simp only [keysOf, joinSlash, firstMatch]
    split
    · rename_i h0
      exact List.length_eq_zero.mp h0
    · rfl
  | succ fuel ih =>
    rw [shortenLoop, keySequence, keysOf_split, firstMatch]
    by_cases hlen : (ctx.partialMatchesFor ('/' :: base)).length = 0
    · rw [if_pos hlen]
      by_cases hc : contains base ['/'] = true
      · have hmem := (contains_slash_iff base).mp hc
        have hcount := countSlash_shorten hmem
        rw [if_pos ⟨hlen, hc⟩]
        simp only
        rw [ih _ (by omega), keySequence, splitSlash_tail hmem]
      · have hno : '/' ∉ base := fun h => hc ((contains_slash_iff base).mpr h)
        rw [if_neg (fun h => hc h.2), splitSlash_single hno]
        simp only [List.tail_cons, keysOf, firstMatch]
        exact List.length_eq_zero.mp hlen
    · rw [if_neg hlen, if_neg (fun h => hlen h.1)]

theorem firstMatch_eq_nil (ctx : FileContext) (keys : List Str) :
    firstMatch ctx keys = [] ↔ ∀ k ∈ keys, ctx.partialMatchesFor ('/' :: k) = [] := by
  induction keys with
  | nil => simp [firstMatch]
  | cons k ks ih =>
    rw [firstMatch]
    split
    · rename_i h0
      have hk := List.length_eq_zero.mp h0
      rw [ih]
      constructor
      · intro h x hx
        rcases List.mem_cons.mp hx with rfl | hmem
        · exact hk
        · exact h x hmem
      · intro h x hx
        exact h x (List.mem_cons_of_mem _ hx)
    · rename_i h0
      constructor
      · intro h
        rw [h] at h0
        exact absurd rfl h0
      · intro h
        have := h k (List.mem_cons_self _ _)
        rw [this] at h0
        exact absurd rfl h0

/-- C17: the candidate set that `checkImport` finally uses is the match set of
the first key in the sequence `s1/.../sn`, `s2/.../sn`, ..., `sn` (the segments
of the base key) that has a non-empty match set, no shorter key being tried
after it; it is empty exactly when no key of the sequence has a match. -/
theorem candidates_firstMatch (ctx : FileContext) (name : Str) :
    candidates ctx name = firstMatch ctx (keySequence (baseKey name)) ∧
    (candidates ctx name = [] ↔
      ∀ k ∈ keySequence (baseKey name), ctx.partialMatchesFor ('/' :: k) = []) := by
  have h : candidates ctx name = firstMatch ctx (keySequence (baseKey name)) := by
    rw [candidates, search]
    exact shortenLoop_firstMatch ctx _ _ (Nat.le_refl _)
  exact ⟨h, by rw [h]; exact firstMatch_eq_nil ctx _⟩

/-- The key-shortening loop gives the same result with any fuel that covers
the separators of the key. -/
theorem shortenLoop_fuel (ctx : FileContext) (f1 f2 : Nat) (base : Str) (perms : List Str)
    (h1 : countSlash base ≤ f1) (h2 : countSlash base ≤ f2) :
    shortenLoop ctx f1 base perms = shortenLoop ctx f2 base perms := by
  induction f1 generalizing f2 base perms with
  | zero =>
    have hno : ¬ (perms.length = 0 ∧ contains base ['/'] = true) := by
      rintro ⟨-, hc⟩
      have := countSlash_pos_of_mem ((contains_slash_iff base).mp hc)
      omega
    cases f2 with
    | zero => rfl
    | succ f2 => rw [shortenLoop, shortenLoop, if_neg hno]
  | succ f1 ih =>
    by_cases hcond : perms.length = 0 ∧ contains base ['/'] = true
    · have hcount := countSlash_shorten ((contains_slash_iff base).mp hcond.2)
      cases f2 with
      | zero =>
        have := countSlash_pos_of_mem ((contains_slash_iff base).mp hcond.2)
        omega
      | succ f2 =>
        rw [shortenLoop, shortenLoop, if_pos hcond, if_pos hcond]
        exact ih f2 _ _ (by omega) (by omega)
    · cases f2 with
      | zero => rw [shortenLoop, shortenLoop, if_neg hcond]
      | succ f2 => rw [shortenLoop, shortenLoop, if_neg hcond, if_neg hcond]

theorem shortenLoop_exit (ctx : FileContext) (fuel : Nat) (base : Str) (perms : List Str)
    (hfuel : countSlash base ≤ fuel) :
    ¬ ((shortenLoop ctx fuel base perms).2.length = 0 ∧
      contains (shortenLoop ctx fuel base perms).1 ['/'] = true) := by
  rintro ⟨h1, h2⟩
  have := shortenLoop_done ctx fuel base perms hfuel (List.length_eq_zero.mp h1)
  rw [this] at h2
  exact Bool.noConfusion h2

theorem shortenCount_le (ctx : FileContext) (fuel : Nat) (base : Str) (perms : List Str) :
    shortenCount ctx fuel base perms ≤ countSlash base := by
  induction fuel generalizing base perms with
  | zero => exact Nat.zero_le _
  | succ fuel ih =>
    rw [shortenCount]
    split
    · rename_i hcond
      have hcount := countSlash_shorten ((contains_slash_iff base).mp hcond.2)
      have := ih (joinSlash (splitSlash base).tail)
        (ctx.partialMatchesFor ('/' :: joinSlash (splitSlash base).tail))
      omega
    · exact Nat.zero_le _

/-- C18: the key-shortening loop of `checkImport` terminates for every
specifier and corpus.  Each pass takes exactly one separator off the key, so
the loop makes at most as many passes as the base key has separators, however
much fuel it is given; with that many passes allowed it has reached its exit
condition, and more fuel does not change its result. -/
theorem shortenLoop_terminates (ctx : FileContext) (base : Str) (perms : List Str) :
    ('/' ∈ base →
      countSlash (joinSlash (splitSlash base).tail) < countSlash base) ∧
    (∀ fuel, shortenCount ctx fuel base perms ≤ countSlash base) ∧
    ¬ ((shortenLoop ctx (countSlash base) base perms).2.length = 0 ∧
      contains (shortenLoop ctx (countSlash base) base perms).1 ['/'] = true) ∧
    (∀ fuel, countSlash base ≤ fuel →
      shortenLoop ctx fuel base perms = shortenLoop ctx (countSlash base) base perms) := by
  refine ⟨?_, fun fuel => shortenCount_le ctx fuel base perms,
    shortenLoop_exit ctx _ base perms (Nat.le_refl _), ?_⟩
  · intro h
    have := countSlash_shorten h
    omega
  · intro fuel hf
    exact shortenLoop_fuel ctx fuel _ base perms hf (Nat.le_refl _)

/-- C19 at a concrete input: no path occurs twice in the corpus, but for the
key `/index` the file `/src/index/index.ts` ends with two permutations,
`/index.ts` and `/index/index.ts`, and `partialMatchesFor` returns it twice.
The single matching file is then counted as two candidates at the same
distance, and `checkImport` ends the run instead of rewriting the line. -/
theorem partialMatchesFor_duplicate :
    ["/src/index/index.ts".toList, "/src/a/x.ts".toList].Nodup ∧
    (⟨["/src/index/index.ts".toList, "/src/a/x.ts".toList]⟩ : FileContext).partialMatchesFor
      "/index".toList = ["/src/index/index.ts".toList, "/src/index/index.ts".toList] ∧
    checkImport ⟨["/src/index/index.ts".toList, "/src/a/x.ts".toList]⟩ "/src/a/x.ts".toList
      "import i from \"./index\";".toList = Outcome.fatal := by
  decide!

theorem shortenLoop_terminates_witness :
    '/' ∈ "components/ui/Button".toList ∧
    countSlash (joinSlash (splitSlash "components/ui/Button".toList).tail) <
      countSlash "components/ui/Button".toList ∧
    shortenCount ⟨["/src/ui/Button.tsx".toList]⟩ 5 "components/ui/Button".toList [] ≤
      countSlash "components/ui/Button".toList :=
  ⟨by decide,
    (shortenLoop_terminates ⟨["/src/ui/Button.tsx".toList]⟩ "components/ui/Button".toList
      []).1 (by decide),
    (shortenLoop_terminates ⟨["/src/ui/Button.tsx".toList]⟩ "components/ui/Button".toList
      []).2.1 5⟩

theorem candidates_firstMatch_witness :
    candidates ⟨["/src/ui/Button.tsx".toList]⟩ "../components/ui/Button".toList =
      ["/src/ui/Button.tsx".toList] ∧
    firstMatch ⟨["/src/ui/Button.tsx".toList]⟩
      (keySequence (baseKey "../components/ui/Button".toList)) = ["/src/ui/Button.tsx".toList] :=
  ⟨by decide!,
    (candidates_firstMatch ⟨["/src/ui/Button.tsx".toList]⟩
      "../components/ui/Button".toList).1 ▸ (by decide!)⟩


/-! ## `rel` below a common directory -/

theorem splitDir_append (x e : Str) (he : '/' ∉ e) : splitDir (x ++ '/' :: e) = x ++ ['/'] := by
  have hlast : splitDir ('/' :: e) = ['/'] := by
    have hc : (e.contains '/') = false := by simpa using he
    rw [splitDir, hc]
    simp
  induction x with
  | nil => exact hlast
  | cons a x ih =>
    have hc : ((x ++ '/' :: e).contains '/') = true := by simp
    rw [List.cons_append, splitDir, hc, if_pos rfl, ih]
    rfl

theorem normal_all (l : List Str) (e : Str) (hl : ∀ n ∈ l, NormalElem n) (he : NormalElem e) :
    ∀ n ∈ l ++ [e], NormalElem n := by
  intro n hn
  rcases List.mem_append.mp hn with h | h
  · exact hl n h
  · rw [List.mem_singleton.mp h]; exact he

/-- `path.Dir` of a clean absolute path with at least two elements: the last
element goes, with the slash before it. -/
theorem pathDir_snoc (l : List Str) (e : Str) (hl : ∀ n ∈ l, NormalElem n)
    (he : NormalElem e) (hne : l ≠ []) :
    pathDir ('/' :: joinSlash (l ++ [e])) = '/' :: joinSlash l := by
  have hsplit : splitDir ('/' :: joinSlash (l ++ [e])) = ('/' :: joinSlash l) ++ ['/'] := by
    rw [joinSlash_snoc e hne]
    have := splitDir_append ('/' :: joinSlash l) e he.2.1
    simpa using this
  have hcf := cleanLoop_cleanForm true 0 l (fun _ => rfl) hl
  simp only [List.replicate_zero, List.nil_append, rootOf, if_true, joinSlash,
    List.append_nil] at hcf
  have h1 : (['/'] : Str).length = 1 := rfl
  rw [h1] at hcf
  have hout : cleanOut (('/' :: joinSlash l) ++ ['/']) = '/' :: joinSlash l := by
    have hhead : (('/' :: joinSlash l) ++ ['/']).head? = some '/' := rfl
    have hlen : (('/' :: joinSlash l) ++ ['/']).length =
        ((joinSlash l).length + 1) + (([] : Str).length + 1) := by simp
    rw [cleanOut, if_pos hhead, hlen]
    show (cleanLoop true _ (joinSlash l ++ '/' :: []) ['/'] 1).1 = _
    rw [cleanLoop_append true _ _ _ _ _ (Nat.le_succ _),
      cleanLoop_fuel true _ (joinSlash l).length _ _ _ (Nat.le_succ _) (Nat.le_refl _), hcf]
    simp only
    show (cleanLoop true 1 ['/'] _ _).1 = _
    rw [cleanLoop_slash, cleanLoop_nil]
    rfl
  rw [pathDir, hsplit, clean, if_neg (by simp), hout, if_neg (by simp)]

theorem root_join_ne_root {l : List Str} (hl : ∀ n ∈ l, NormalElem n) (hne : l ≠ []) :
    '/' :: joinSlash l ≠ ['/'] := by
  intro h
  have := joinSlash_ne_nil hne (fun e he => (hl e he).1)
  exact this (List.cons.inj h).2

/-- From a directory `es.length` levels below a directory `/ds` that is a
prefix of the candidate, the loop of `rel` returns a specifier. -/
theorem relLoop_returns (newImport : Str) (ds es : List Str) (fuel ct : Nat)
    (hds : ∀ n ∈ ds, NormalElem n) (hes : ∀ n ∈ es, NormalElem n) (hne : ds ≠ [])
    (hp : hasPrefix newImport ('/' :: joinSlash ds) = true)
    (hct : ct + es.length ≤ 100) (hf : 101 ≤ fuel + ct) :
    relLoop newImport fuel ('/' :: joinSlash (ds ++ es)) ct ≠ none := by
  induction es using List.reverseRecOn generalizing fuel ct with
  | nil =>
    obtain ⟨f, rfl⟩ : ∃ f, fuel = f + 1 := ⟨fuel - 1, by omega⟩
    rw [List.append_nil]
    exact relLoop_prefix_some newImport f _ ct (root_join_ne_root hds hne) hp
  | append_singleton es e ih =>
    have hes2 : ∀ n ∈ es, NormalElem n := fun n hn => hes n (List.mem_append_left _ hn)
    have he : NormalElem e := hes e (List.mem_append_right _ (List.mem_singleton_self e))
    have hall : ∀ n ∈ ds ++ es, NormalElem n := by
      intro n hn
      rcases List.mem_append.mp hn with h | h
      · exact hds n h
      · exact hes2 n h
    have hlen : (es ++ [e]).length = es.length + 1 := by simp
    rw [hlen] at hct
    obtain ⟨f, rfl⟩ : ∃ f, fuel = f + 1 := ⟨fuel - 1, by omega⟩
    have hdir : '/' :: joinSlash (ds ++ (es ++ [e])) ≠ ['/'] :=
      root_join_ne_root (by rw [← List.append_assoc]; exact normal_all _ e hall he) (by simp)
    by_cases hhit : hasPrefix newImport ('/' :: joinSlash (ds ++ (es ++ [e]))) = true
    · exact relLoop_prefix_some newImport f _ ct hdir hhit
    · rw [relLoop, if_neg hdir, if_neg hhit, if_neg (by omega), ← List.append_assoc,
        pathDir_snoc (ds ++ es) e hall he (by simp [hne])]
      exact ih f (ct + 1) hes2 (by omega) (by omega)

/-- A joined list of real elements that is cut at a separator is cut between
two elements. -/
theorem joinSlash_split (ns : List Str) (a b : Str) (hns : ∀ n ∈ ns, NormalElem n)
    (h : joinSlash ns = a ++ '/' :: b) :
    ∃ l1 l2, ns = l1 ++ l2 ∧ l1 ≠ [] ∧ l2 ≠ [] ∧ a = joinSlash l1 ∧ b = joinSlash l2 := by
  induction ns generalizing a with
  | nil => simp [joinSlash] at h
  | cons e rest ih =>
    have he := hns e (List.mem_cons_self _ _)
    have hrest : ∀ n ∈ rest, NormalElem n := fun n hn => hns n (List.mem_cons_of_mem _ hn)
    cases rest with
    | nil =>
      exfalso
      apply he.2.1
      have : e = a ++ '/' :: b := by simpa [joinSlash] using h
      rw [this]
      simp
    | cons n2 rest2 =>
      have hj : joinSlash (e :: n2 :: rest2) = e ++ '/' :: joinSlash (n2 :: rest2) := rfl
      rw [hj] at h
      rcases List.append_eq_append_iff.mp h with ⟨a2, ha, hb⟩ | ⟨c2, hc, hb⟩
      · cases a2 with
        | nil =>
          have hb2 : joinSlash (n2 :: rest2) = b := by simpa using hb
          exact ⟨[e], n2 :: rest2, rfl, by simp, by simp, by simpa [joinSlash] using ha,
            hb2.symm⟩
        | cons x a3 =>
          have hx : joinSlash (n2 :: rest2) = a3 ++ '/' :: b := (List.cons.inj hb).2
          obtain ⟨l1, l2, hl, h1, h2, h3, h4⟩ := ih a3 hrest hx
          have hxs : x = '/' := ((List.cons.inj hb).1).symm
          refine ⟨e :: l1, l2, by rw [hl]; rfl, by simp, h2, ?_, h4⟩
          rw [ha, hxs, h3, joinSlash_cons_ne e h1]
      · cases c2 with
        | nil =>
          have hb2 : b = joinSlash (n2 :: rest2) := (List.cons.inj hb).2
          exact ⟨[e], n2 :: rest2, rfl, by simp, by simp, by simpa [joinSlash] using hc.symm,
            hb2⟩
        | cons x c3 =>
          exfalso
          apply he.2.1
          rw [hc]
          have hxs : x = '/' := ((List.cons.inj hb).1).symm
          simp [hxs]

theorem countSlash_joinSlash (l : List Str) (hl : ∀ n ∈ l, NormalElem n) (hne : l ≠ []) :
    countSlash (joinSlash l) + 1 = l.length := by
  induction l with
  | nil => exact absurd rfl hne
  | cons e rest ih =>
    have he := hl e (List.mem_cons_self _ _)
    have he0 : countSlash e = 0 := List.count_eq_zero.mpr he.2.1
    cases rest with
    | nil => simp [joinSlash, he0]
    | cons n2 rest2 =>
      have := ih (fun n hn => hl n (List.mem_cons_of_mem _ hn)) (by simp)
      have hj : joinSlash (e :: n2 :: rest2) = e ++ '/' :: joinSlash (n2 :: rest2) := rfl
      rw [hj]
      simp only [countSlash, List.count_append, List.count_cons_self, List.length_cons]
        at this he0 ⊢
      omega

/-- A clean path that starts with a slash is the root followed by real
elements. -/
theorem clean_absolute_form (f : Str) (hclean : clean f = f) (hhead : f.head? = some '/') :
    ∃ ns : List Str, (∀ n ∈ ns, NormalElem n) ∧ f = '/' :: joinSlash ns := by
  have hne : f ≠ [] := by
    intro h
    rw [h] at hhead
    simp at hhead
  have hout : cleanOut f = f := by
    by_cases hlen : (cleanOut f).length = 0
    · rw [clean, if_neg hne, if_pos hlen] at hclean
      rw [← hclean] at hhead
      simp at hhead
    · rw [clean, if_neg hne, if_neg hlen] at hclean
      exact hclean
  obtain ⟨rooted, k, ns, hk, hns, hform⟩ := cleanOut_form f
  rw [hout] at hform
  cases rooted with
  | false =>
    exfalso
    have := head_cleanForm k ns hns
    rw [hform] at hhead
    exact this (by simpa [rootOf] using hhead)
  | true =>
    rw [hk rfl] at hform
    exact ⟨ns, hns, by simpa [rootOf] using hform⟩


theorem extLoop_no_slash (l acc : Str) (h : '/' ∉ acc) : '/' ∉ extLoop l acc := by
  induction l generalizing acc with
  | nil => simp [extLoop]
  | cons c rest ih =>
    rw [extLoop]
    split
    · simp
    · rename_i hc
      split
      · rename_i hdot
        intro hmem
        rcases List.mem_cons.mp hmem with h1 | h1
        · exact hc h1.symm
        · exact h h1
      · apply ih
        intro hmem
        rcases List.mem_cons.mp hmem with h1 | h1
        · exact hc h1.symm
        · exact h h1

theorem pathExt_no_slash (p : Str) : '/' ∉ pathExt p :=
  extLoop_no_slash _ _ (by simp)

theorem trimSuffix_cases (s suf : Str) :
    trimSuffix s suf = s ∨ ∃ pre, s = pre ++ suf ∧ trimSuffix s suf = pre := by
  by_cases h : hasSuffix s suf = true
  · right
    have hpre : suf.reverse <+: s.reverse := by
      rw [hasSuffix, List.isPrefixOf_iff_prefix] at h
      exact h
    have hsuf : suf <:+ s := List.reverse_prefix.mp hpre
    obtain ⟨pre, hp⟩ := hsuf
    refine ⟨pre, hp.symm, ?_⟩
    rw [trimSuffix, if_pos h, ← hp]
    simp
  · left
    rw [trimSuffix, if_neg h]

/-- Cutting a suffix without a separator off a path below `d` leaves a path
below `d`. -/
theorem trimSuffix_below (d rc suf : Str) (hsuf : '/' ∉ suf) :
    ∃ rc1, trimSuffix (d ++ '/' :: rc) suf = d ++ '/' :: rc1 := by
  rcases trimSuffix_cases (d ++ '/' :: rc) suf with h | ⟨pre, hp, ht⟩
  · exact ⟨rc, h⟩
  · rw [ht]
    rcases List.append_eq_append_iff.mp hp with ⟨a2, ha, hb⟩ | ⟨c2, hc, hb⟩
    · cases a2 with
      | nil =>
        exfalso
        apply hsuf
        have : '/' :: rc = suf := by simpa using hb
        rw [← this]
        simp
      | cons x a3 =>
        have hx : '/' = x := (List.cons.inj hb).1
        exact ⟨a3, by rw [ha, hx]⟩
    · exfalso
      apply hsuf
      rw [hb]
      simp

/-- Cutting `/index` off a path below `d` leaves a path that starts with `d`. -/
theorem trimSuffix_index_prefix (d rc : Str) :
    hasPrefix (trimSuffix (d ++ '/' :: rc) ['/', 'i', 'n', 'd', 'e', 'x']) d = true := by
  rcases trimSuffix_cases (d ++ '/' :: rc) ['/', 'i', 'n', 'd', 'e', 'x'] with
    h | ⟨pre, hp, ht⟩
  · rw [h]
    exact hasPrefix_append _ _
  · rw [ht]
    rcases List.append_eq_append_iff.mp hp with ⟨a2, ha, -⟩ | ⟨c2, hc, hb⟩
    · rw [ha]
      exact hasPrefix_append _ _
    · cases c2 with
      | nil =>
        have : d = pre := by simpa using hc
        rw [← this]
        have := hasPrefix_append d []
        simpa using this
      | cons x c3 =>
        exfalso
        have h2 : ['i', 'n', 'd', 'e', 'x'] = c3 ++ '/' :: rc := (List.cons.inj hb).2
        have hmem : '/' ∈ ['i', 'n', 'd', 'e', 'x'] := by
          rw [h2]
          simp
        exact absurd hmem (by decide)

/-- The stripped candidate of a candidate below `d` still starts with `d`. -/
theorem stripTarget_prefix (d rc : Str) :
    hasPrefix (stripTarget (d ++ '/' :: rc)) d = true := by
  obtain ⟨rc1, h1⟩ := trimSuffix_below d rc (pathExt (d ++ '/' :: rc)) (pathExt_no_slash _)
  rw [stripTarget, h1]
  exact trimSuffix_index_prefix d rc1

/-- From a clean absolute file path below the directory `d`, not the root and
at most 100 levels above the file's directory, `rel` returns for every
candidate that starts with `d`. -/
theorem rel_returns (f c d rf : Str) (hclean : clean f = f) (hdabs : d.head? = some '/')
    (hd : d ≠ ['/']) (hf : f = d ++ '/' :: rf) (hc : hasPrefix c d = true)
    (hdepth : countSlash f ≤ countSlash d + 101) :
    ∃ v, rel f c = some v := by
  have hfhead : f.head? = some '/' := by
    rw [hf]
    cases d with
    | nil => simp at hdabs
    | cons x d2 => simpa using hdabs
  obtain ⟨ns, hns, hform⟩ := clean_absolute_form f hclean hfhead
  obtain ⟨d2, hd2⟩ : ∃ d2, d = '/' :: d2 := by
    cases d with
    | nil => simp at hdabs
    | cons x d3 =>
      have : x = '/' := by simpa using hdabs
      exact ⟨d3, by rw [this]⟩
  have hjoin : joinSlash ns = d2 ++ '/' :: rf := by
    rw [hform, hd2] at hf
    exact (List.cons.inj hf).2
  obtain ⟨ds, l2, hsplit, hds, hl2, hda, -⟩ := joinSlash_split ns d2 rf hns hjoin
  have hdsn : ∀ n ∈ ds, NormalElem n := fun n hn => hns n (by rw [hsplit]; simp [hn])
  have hl2n : ∀ n ∈ l2, NormalElem n := fun n hn => hns n (by rw [hsplit]; simp [hn])
  rcases List.eq_nil_or_concat l2 with hnil | ⟨es, name, hcat⟩
  · exact absurd hnil hl2
  · rw [List.concat_eq_append] at hcat
    have hesn : ∀ n ∈ es, NormalElem n := fun n hn => hl2n n (by rw [hcat]; simp [hn])
    have hname : NormalElem name := hl2n name (by rw [hcat]; simp)
    have hall : ∀ n ∈ ds ++ es, NormalElem n := by
      intro n hn
      rcases List.mem_append.mp hn with h | h
      · exact hdsn n h
      · exact hesn n h
    have hns2 : ns = (ds ++ es) ++ [name] := by rw [hsplit, hcat, List.append_assoc]
    have hdir : pathDir f = '/' :: joinSlash (ds ++ es) := by
      rw [hform, hns2]
      exact pathDir_snoc (ds ++ es) name hall hname (by simp [hds])
    have hcf : countSlash f = ns.length := by
      have := countSlash_joinSlash ns hns (by rw [hns2]; simp)
      rw [hform]
      simp only [countSlash, List.count_cons_self] at this ⊢
      omega
    have hcd : countSlash d = ds.length := by
      have := countSlash_joinSlash ds hdsn hds
      rw [hd2, hda]
      simp only [countSlash, List.count_cons_self] at this ⊢
      omega
    have hlen : ns.length = ds.length + es.length + 1 := by
      rw [hns2]
      simp only [List.length_append, List.length_singleton]
    have hpd : hasPrefix c ('/' :: joinSlash ds) = true := by
      rw [← hda, ← hd2]
      exact hc
    have hsome := relLoop_returns c ds es 101 0 hdsn hesn hds hpd (by omega) (by omega)
    rw [rel, hdir]
    cases hr : relLoop c 101 ('/' :: joinSlash (ds ++ es)) 0 with
    | none => exact absurd hr hsome
    | some v => exact ⟨v, rfl⟩

/-- C20: if the importing file `f` is a normalised absolute path that lies,
like the candidate `c`, under a common directory `d` other than the root
(both start with `d` followed by a separator) and the directory of `f` is at
most 100 levels below `d`, then `rel(f, c)` does not reach its fatal branch;
neither does `rel` on the stripped candidate, so that the distance of `c` and
its re-encoding both succeed. -/
theorem rel_returns_under_common_dir (f c d rf rc : Str) (hclean : clean f = f)
    (hdabs : d.head? = some '/') (hd : d ≠ ['/']) (hf : f = d ++ '/' :: rf)
    (hc : c = d ++ '/' :: rc) (hdepth : countSlash f ≤ countSlash d + 101) :
    (∃ v, rel f c = some v) ∧ (∃ k, distance f c = some k) ∧
      (∃ v, rel f (stripTarget c) = some v) := by
  have h1 : ∃ v, rel f c = some v :=
    rel_returns f c d rf hclean hdabs hd hf (by rw [hc]; exact hasPrefix_append _ _) hdepth
  refine ⟨h1, ?_, ?_⟩
  · obtain ⟨v, hv⟩ := h1
    exact ⟨countSlash v, by rw [distance, hv]; rfl⟩
  · exact rel_returns f (stripTarget c) d rf hclean hdabs hd hf
      (by rw [hc]; exact stripTarget_prefix d rc) hdepth

theorem rel_returns_under_common_dir_witness :
    clean "/home/u/proj/src/pages/Home.tsx".toList = "/home/u/proj/src/pages/Home.tsx".toList ∧
    (∃ v, rel "/home/u/proj/src/pages/Home.tsx".toList
      "/home/u/proj/src/shared/utils/index.ts".toList = some v) ∧
    (∃ k, distance "/home/u/proj/src/pages/Home.tsx".toList
      "/home/u/proj/src/shared/utils/index.ts".toList = some k) ∧
    (∃ v, rel "/home/u/proj/src/pages/Home.tsx".toList
      (stripTarget "/home/u/proj/src/shared/utils/index.ts".toList) = some v) :=
  ⟨by decide!,
    rel_returns_under_common_dir "/home/u/proj/src/pages/Home.tsx".toList
      "/home/u/proj/src/shared/utils/index.ts".toList "/home/u/proj/src".toList
      "pages/Home.tsx".toList "shared/utils/index.ts".toList
      (by decide!) (by decide!) (by decide!) (by decide!) (by decide!) (by decide!)⟩


/-! ## Newlines: what `checkImport` returns has a newline only from the corpus -/

theorem backtrack_subset (dotdot : Nat) (l : Str) (last y : Char)
    (h : y ∈ backtrack dotdot l last) : y ∈ l := by
  induction l generalizing last with
  | nil => simp [backtrack] at h
  | cons c rest ih =>
    rw [backtrack] at h
    split at h
    · exact List.mem_cons_of_mem _ (ih c h)
    · exact h

theorem popElem_subset (dotdot : Nat) (out : Str) (y : Char) (h : y ∈ popElem dotdot out) :
    y ∈ out := by
  unfold popElem at h
  split at h
  · simp at h
  · rename_i last rest hrev
    have h1 : y ∈ rest := backtrack_subset dotdot rest last y (List.mem_reverse.mp h)
    have h2 : y ∈ out.reverse := by rw [hrev]; exact List.mem_cons_of_mem _ h1
    exact List.mem_reverse.mp h2

theorem addSlash_nl (rooted : Bool) (out : Str) (h : '\n' ∉ out) : '\n' ∉ addSlash rooted out := by
  unfold addSlash
  split
  · intro hm
    rcases List.mem_append.mp hm with h1 | h1
    · exact h h1
    · simp at h1
  · exact h

theorem cleanLoop_nl (rooted : Bool) (fuel : Nat) (p out : Str) (dotdot : Nat)
    (hp : '\n' ∉ p) (ho : '\n' ∉ out) : '\n' ∉ (cleanLoop rooted fuel p out dotdot).1 := by
  induction fuel generalizing p out dotdot with
  | zero => simpa [cleanLoop] using ho
  | succ n ih =>
    cases p with
    | nil => simpa [cleanLoop] using ho
    | cons c rest =>
      have hc : '\n' ≠ c := fun h => hp (h ▸ List.mem_cons_self _ _)
      have hrest : '\n' ∉ rest := fun h => hp (List.mem_cons_of_mem _ h)
      have htail : '\n' ∉ rest.tail := fun h => hrest (List.mem_of_mem_tail h)
      rw [cleanLoop]
      by_cases h1 : c = '/'
      · rw [if_pos h1]
        exact ih rest out dotdot hrest ho
      · rw [if_neg h1]
        by_cases h2 : c = '.' ∧ (rest = [] ∨ rest.head? = some '/')
        · rw [if_pos h2]
          exact ih rest out dotdot hrest ho
        · rw [if_neg h2]
          by_cases h3 : c = '.' ∧ rest.head? = some '.' ∧
              (rest.tail = [] ∨ rest.tail.head? = some '/')
          · rw [if_pos h3]
            by_cases h4 : out.length > dotdot
            · rw [if_pos h4]
              exact ih _ _ _ htail (fun h => ho (popElem_subset _ _ _ h))
            · rw [if_neg h4]
              by_cases h5 : (!rooted) = true
              · rw [if_pos h5]
                apply ih _ _ _ htail
                intro hm
                rcases List.mem_append.mp hm with h6 | h6
                · split at h6
                  · rcases List.mem_append.mp h6 with h7 | h7
                    · exact ho h7
                    · simp at h7
                  · exact ho h6
                · simp at h6
              · rw [if_neg h5]
                exact ih _ _ _ htail ho
          · rw [if_neg h3]
            apply ih
            · exact fun h => hrest ((List.dropWhile_sublist _).subset h)
            · intro hm
              rcases List.mem_append.mp hm with h6 | h6
              · exact addSlash_nl rooted out ho h6
              · rcases List.mem_cons.mp h6 with h7 | h7
                · exact hc h7
                · exact hrest ((List.takeWhile_sublist _).subset h7)

theorem clean_nl (p : Str) (hp : '\n' ∉ p) : '\n' ∉ clean p := by
  have hout : '\n' ∉ cleanOut p := by
    unfold cleanOut
    split
    · exact cleanLoop_nl _ _ _ _ _ (fun h => hp (List.mem_of_mem_tail h)) (by simp)
    · exact cleanLoop_nl _ _ _ _ _ hp (by simp)
  unfold clean
  split
  · simp
  · split
    · simp
    · exact hout

theorem pathJoin_nl (a b : Str) (ha : '\n' ∉ a) (hb : '\n' ∉ b) : '\n' ∉ pathJoin a b := by
  unfold pathJoin
  split
  · simp
  · split
    · exact clean_nl b hb
    · apply clean_nl
      intro hm
      rcases List.mem_append.mp hm with h | h
      · exact ha h
      · rcases List.mem_cons.mp h with h1 | h1
        · exact absurd h1 (by decide)
        · exact hb h1

theorem strRepeat_nl (s : Str) (n : Nat) (hs : '\n' ∉ s) : '\n' ∉ strRepeat s n := by
  induction n with
  | zero => simp [strRepeat]
  | succ k ih =>
    rw [strRepeat]
    intro hm
    rcases List.mem_append.mp hm with h | h
    · exact hs h
    · exact ih h

theorem trimPrefix_nl (s pre : Str) (hs : '\n' ∉ s) : '\n' ∉ trimPrefix s pre := by
  unfold trimPrefix
  split
  · exact fun h => hs (List.mem_of_mem_drop h)
  · exact hs

theorem trimSuffix_nl (s suf : Str) (hs : '\n' ∉ s) : '\n' ∉ trimSuffix s suf := by
  unfold trimSuffix
  split
  · exact fun h => hs (List.mem_of_mem_take h)
  · exact hs

theorem stripTarget_nl (c : Str) (hc : '\n' ∉ c) : '\n' ∉ stripTarget c :=
  trimSuffix_nl _ _ (trimSuffix_nl _ _ hc)

theorem relResult_nl (newImport dir : Str) (ct : Nat) (h : '\n' ∉ newImport) :
    '\n' ∉ relResult newImport dir ct := by
  have hpre : '\n' ∉ (if ct > 0 then strRepeat ['.', '.', '/'] ct else ['.', '/']) := by
    split
    · exact strRepeat_nl _ _ (by decide)
    · decide
  have hj := pathJoin_nl _ _ hpre (trimPrefix_nl newImport dir h)
  unfold relResult
  generalize pathJoin (if ct > 0 then strRepeat ['.', '.', '/'] ct else ['.', '/'])
    (trimPrefix newImport dir) = pj at hj ⊢
  split
  · intro hm
    rcases List.mem_append.mp hm with h1 | h1
    · exact absurd h1 (by decide)
    · exact hj h1
  · exact hj

theorem relLoop_nl (newImport : Str) (fuel : Nat) (dir : Str) (ct : Nat) (v : Str)
    (h : '\n' ∉ newImport) (hv : relLoop newImport fuel dir ct = some v) : '\n' ∉ v := by
  induction fuel generalizing dir ct with
  | zero => simp [relLoop] at hv
  | succ n ih =>
    by_cases hd : dir = ['/']
    · rw [relLoop, if_pos hd] at hv
      exact Option.noConfusion hv
    · by_cases hp : hasPrefix newImport dir = true
      · rw [relLoop_hit newImport n dir ct hd hp] at hv
        rw [← Option.some.inj hv]
        exact relResult_nl newImport dir ct h
      · rw [relLoop, if_neg hd, if_neg hp] at hv
        split at hv
        · exact Option.noConfusion hv
        · exact ih _ _ hv

theorem replaceFirst_nl (s old new : Str) (hs : '\n' ∉ s) (hn : '\n' ∉ new) :
    '\n' ∉ replaceFirst s old new := by
  induction s with
  | nil =>
    rw [replaceFirst]
    split
    · exact hn
    · simp
  | cons c rest ih =>
    rw [replaceFirst]
    split
    · intro hm
      rcases List.mem_append.mp hm with h | h
      · exact hn h
      · exact hs (List.mem_of_mem_drop h)
    · intro hm
      rcases List.mem_cons.mp hm with h | h
      · exact hs (h ▸ List.mem_cons_self _ _)
      · exact ih (fun h2 => hs (List.mem_cons_of_mem _ h2)) h

theorem updateImport_nl (file c line original r : Str) (hc : '\n' ∉ c) (hl : '\n' ∉ line)
    (hr : updateImport file c line original = some r) : '\n' ∉ r := by
  unfold updateImport at hr
  split at hr
  · exact Option.noConfusion hr
  · rename_i value hval
    rw [← Option.some.inj hr]
    apply replaceFirst_nl _ _ _ hl
    have hv : '\n' ∉ value := relLoop_nl _ _ _ _ _ (stripTarget_nl c hc) hval
    intro hm
    rcases List.mem_append.mp hm with h | h
    · rcases List.mem_append.mp h with h1 | h1
      · exact absurd h1 (by decide)
      · exact hv h1
    · exact absurd h (by decide)


theorem shortenLoop_subset (ctx : FileContext) (fuel : Nat) (base : Str) (perms : List Str)
    (h : ∀ c ∈ perms, c ∈ ctx.AllFiles) :
    ∀ c ∈ (shortenLoop ctx fuel base perms).2, c ∈ ctx.AllFiles := by
  induction fuel generalizing base perms with
  | zero => simpa [shortenLoop] using h
  | succ n ih =>
    rw [shortenLoop]
    split
    · exact ih _ _ (fun c hc => ((mem_partialMatchesFor ctx _ c).mp hc).1)
    · exact h

/-- Every candidate of `checkImport` is a corpus path. -/
theorem candidates_subset (ctx : FileContext) (name c : Str) (h : c ∈ candidates ctx name) :
    c ∈ ctx.AllFiles :=
  shortenLoop_subset ctx _ _ _ (fun c hc => ((mem_partialMatchesFor ctx _ c).mp hc).1) c h

/-- The map `permsByDistance` holds candidates only. -/
theorem distanceLoop_subset (file : Str) (perms : List Str) (m0 m : Nat → List Str)
    (k0 k : Nat) (h : distanceLoop file perms m0 k0 = some (m, k)) :
    ∀ j, ∀ x ∈ m j, x ∈ m0 j ∨ x ∈ perms := by
  induction perms generalizing m0 k0 with
  | nil =>
    rw [distanceLoop] at h
    have := (Prod.mk.inj (Option.some.inj h)).1
    intro j x hx
    rw [← this] at hx
    exact Or.inl hx
  | cons a perms ih =>
    rw [distanceLoop] at h
    split at h
    · exact Option.noConfusion h
    · rename_i p0 hp0
      intro j x hx
      rcases ih _ _ h j x hx with h1 | h1
      · split at h1
        · rcases List.mem_append.mp h1 with h2 | h2
          · exact Or.inl h2
          · have : x = a := by simpa using h2
            exact Or.inr (this ▸ List.mem_cons_self _ _)
        · exact Or.inl h1
      · exact Or.inr (List.mem_cons_of_mem _ h1)

/-- A line returned by `checkImport` for a line without a newline has a newline
only when a corpus path has one. -/
theorem checkImport_nl (ctx : FileContext) (file line r : Str)
    (hcorpus : ∀ x ∈ ctx.AllFiles, '\n' ∉ x) (hl : '\n' ∉ line)
    (h : checkImport ctx file line = Outcome.rewritten r) : '\n' ∉ r := by
  have hrw : ∀ c, c ∈ candidates ctx (specifier (Option.getD (importRegexSubmatch line) [])) →
      ∀ m1, rewriteWith (updateImport file c line m1) = Outcome.rewritten r → '\n' ∉ r := by
    intro c hc m1 hu
    cases hup : updateImport file c line m1 with
    | none => rw [hup] at hu; exact Outcome.noConfusion hu
    | some r2 =>
      rw [hup] at hu
      have : r2 = r := Outcome.rewritten.inj hu
      rw [← this]
      exact updateImport_nl file c line m1 r2 (hcorpus c (candidates_subset ctx _ c hc)) hl hup
  cases hm : importRegexSubmatch line with
  | none => simp [checkImport, hm] at h
  | some m1 =>
    rw [hm] at hrw
    simp only [Option.getD_some] at hrw
    by_cases hrel : hasPrefix (specifier m1) ['.'] = true
    · by_cases hex : ctx.fileExistsForImport (resolve (specifier m1) file) = true
      · simp [checkImport, hm, hrel, hex] at h
      · have hex2 : ctx.fileExistsForImport (resolve (specifier m1) file) = false := by
          simpa using hex
        rw [checkImport_broken ctx file line m1 hm hrel hex2] at h
        generalize candidates ctx (specifier m1) = perms at h hrw
        split at h
        · exact hrw _ (List.mem_singleton_self _) m1 h
        · rename_i hns
          split at h
          · exact Outcome.noConfusion h
          · rename_i m k hdl
            split at h
            · rename_i perm hperm
              have hmem := distanceLoop_subset file perms _ m _ k hdl k perm
                (by rw [hperm]; exact List.mem_singleton_self _)
              rcases hmem with h1 | h1
              · simp at h1
              · exact hrw perm h1 m1 h
            · split at h <;> exact Outcome.noConfusion h
    · have hrel2 : hasPrefix (specifier m1) ['.'] = false := by simpa using hrel
      simp [checkImport, hm, hrel2] at h

/-- No line of `bytes.Split(data, "\n")` has a newline. -/
theorem splitLines_nl (s : Str) : ∀ l ∈ splitLines s, '\n' ∉ l := by
  induction s with
  | nil => simp [splitLines]
  | cons c rest ih =>
    rw [splitLines]
    split
    · intro l hl
      rcases List.mem_cons.mp hl with rfl | h
      · simp
      · exact ih l h
    · rename_i hc
      split
      · intro l hl
        have : l = [c] := by simpa using hl
        rw [this]
        intro hm
        have : '\n' = c := by simpa using hm
        exact hc this.symm
      · rename_i l0 ls hls
        rw [hls] at ih
        intro l hl
        rcases List.mem_cons.mp hl with rfl | h
        · intro hm
          rcases List.mem_cons.mp hm with h1 | h1
          · exact hc h1.symm
          · exact ih l0 (List.mem_cons_self _ _) h1
        · exact ih l (List.mem_cons_of_mem _ h)

theorem splitLines_append_nl (l rest : Str) (hl : '\n' ∉ l) :
    splitLines (l ++ '\n' :: rest) = l :: splitLines rest := by
  induction l with
  | nil => simp [splitLines]
  | cons c l2 ih =>
    have hc : c ≠ '\n' := fun h => hl (h ▸ List.mem_cons_self _ _)
    have ih2 := ih (fun h => hl (List.mem_cons_of_mem _ h))
    rw [List.cons_append, splitLines, if_neg hc, ih2]

theorem splitLines_single (l : Str) (hl : '\n' ∉ l) : splitLines l = [l] := by
  induction l with
  | nil => rfl
  | cons c l2 ih =>
    have hc : c ≠ '\n' := fun h => hl (h ▸ List.mem_cons_self _ _)
    have ih2 := ih (fun h => hl (List.mem_cons_of_mem _ h))
    rw [splitLines, if_neg hc, ih2]

/-- Splitting joined lines gives the lines back when none of them has a
newline. -/
theorem splitLines_joinLines (ls : List Str) (hne : ls ≠ []) (h : ∀ l ∈ ls, '\n' ∉ l) :
    splitLines (joinLines ls) = ls := by
  induction ls with
  | nil => exact absurd rfl hne
  | cons l rest ih =>
    cases rest with
    | nil => exact splitLines_single l (h l (List.mem_cons_self _ _))
    | cons m ms =>
      rw [joinLines_cons_ne l (List.cons_ne_nil m ms),
        splitLines_append_nl l _ (h l (List.mem_cons_self _ _)),
        ih (List.cons_ne_nil m ms) (fun x hx => h x (List.mem_cons_of_mem _ hx))]

/-- The new line of a line without a newline has a newline only when a corpus
path has one. -/
theorem newLine_nl (ctx : FileContext) (file line : Str)
    (hcorpus : ∀ x ∈ ctx.AllFiles, '\n' ∉ x) (hl : '\n' ∉ line) :
    '\n' ∉ newLine ctx file line := by
  unfold newLine
  split
  · split
    · rename_i r hr
      exact checkImport_nl ctx file line r hcorpus hl hr
    · exact hl
  · exact hl


/-! ## `processFile`: what is written -/

/-- C12, as the code has it: `processFile`, as a function of the content, the
corpus and the apply flag, never writes in dry-run mode; it writes exactly when
it is in apply mode, `checkImport` ends the run on no line and at least one
line is rewritten.  The written content is then the lines of the original
content, joined by the same newline separators, with exactly the rewritten
lines replaced, and every line that is not rewritten is kept as it is.  When no
corpus path has a newline, the lines of the written content are those lines,
one for one: the number of lines is unchanged. -/
theorem processFile_written (ctx : FileContext) (file data : Str) (apply : Bool) :
    (apply = false → ∀ w, processFile ctx file data apply ≠ FileResult.written w) ∧
    (∀ w, processFile ctx file data apply = FileResult.written w ↔
      apply = true ∧ (∀ line ∈ splitLines data, ¬ Aborts ctx file line) ∧
        (∃ line ∈ splitLines data, Rewritten ctx file line) ∧
        w = joinLines ((splitLines data).map (newLine ctx file))) ∧
    data = joinLines (splitLines data) ∧
    ((splitLines data).map (newLine ctx file)).length = (splitLines data).length ∧
    (∀ line, ¬ Rewritten ctx file line → newLine ctx file line = line) ∧
    (∀ line r, (importRegexSubmatch line).isSome = true →
      checkImport ctx file line = Outcome.rewritten r → newLine ctx file line = r) ∧
    ((∀ x ∈ ctx.AllFiles, '\n' ∉ x) →
      ∀ w, processFile ctx file data apply = FileResult.written w →
        splitLines w = (splitLines data).map (newLine ctx file) ∧
        (splitLines w).length = (splitLines data).length) := by
  have hiff : ∀ w, processFile ctx file data apply = FileResult.written w ↔
      apply = true ∧ (∀ line ∈ splitLines data, ¬ Aborts ctx file line) ∧
        (∃ line ∈ splitLines data, Rewritten ctx file line) ∧
        w = joinLines ((splitLines data).map (newLine ctx file)) := by
    intro w
    by_cases hab : ∃ line ∈ splitLines data, Aborts ctx file line
    · have hp := processLines_aborts ctx file _ hab
      constructor
      · intro h
        simp [processFile, hp] at h
      · rintro ⟨-, hna, -⟩
        obtain ⟨l, hl, ha⟩ := hab
        exact absurd ha (hna l hl)
    · have hna : ∀ line ∈ splitLines data, ¬ Aborts ctx file line :=
        fun l hl ha => hab ⟨l, hl, ha⟩
      obtain ⟨ch, hp, hch⟩ := processLines_returns ctx file _ hna
      cases ch with
      | false =>
        have hnone : ¬ ∃ line ∈ splitLines data, Rewritten ctx file line := by
          rw [← hch]; simp
        constructor
        · intro h
          simp [processFile, hp] at h
        · rintro ⟨-, -, hr, -⟩
          exact absurd hr hnone
      | true =>
        have hsome : ∃ line ∈ splitLines data, Rewritten ctx file line := hch.mp rfl
        cases apply with
        | false =>
          constructor
          · intro h
            simp [processFile, hp] at h
          · rintro ⟨h, -⟩
            exact Bool.noConfusion h
        | true =>
          constructor
          · intro h
            have hw : joinLines ((splitLines data).map (newLine ctx file)) = w := by
              simpa [processFile, hp] using h
            exact ⟨rfl, hna, hsome, hw.symm⟩
          · rintro ⟨-, -, -, hw⟩
            simp [processFile, hp, hw]
  refine ⟨?_, hiff, (joinLines_splitLines data).symm, List.length_map _ _,
    newLine_of_not_rewritten ctx file, ?_, ?_⟩
  · intro ha w hw
    have := ((hiff w).mp hw).1
    rw [ha] at this
    exact Bool.noConfusion this
  · intro line r hmatch hr
    simp [newLine, hmatch, hr]
  · intro hcorpus w hw
    have hweq := ((hiff w).mp hw).2.2.2
    have hsplit : splitLines w = (splitLines data).map (newLine ctx file) := by
      rw [hweq]
      apply splitLines_joinLines
      · intro hnil
        exact splitLines_ne_nil data (List.map_eq_nil_iff.mp hnil)
      · intro l hl
        obtain ⟨line, hline, rfl⟩ := List.mem_map.mp hl
        exact newLine_nl ctx file line hcorpus (splitLines_nl data line hline)
    exact ⟨hsplit, by rw [hsplit, List.length_map]⟩


theorem processFile_written_witness :
    processFile ⟨["/src/lib/a.ts".toList, "/src/pages/x.ts".toList]⟩ "/src/pages/x.ts".toList
      "import a from \"./a\";\nconst b = 1;\n".toList true =
      FileResult.written "import a from \"../lib/a\";\nconst b = 1;\n".toList ∧
    "import a from \"../lib/a\";\nconst b = 1;\n".toList =
      joinLines ((splitLines "import a from \"./a\";\nconst b = 1;\n".toList).map
        (newLine ⟨["/src/lib/a.ts".toList, "/src/pages/x.ts".toList]⟩ "/src/pages/x.ts".toList)) ∧
    (∀ w, processFile ⟨["/src/lib/a.ts".toList, "/src/pages/x.ts".toList]⟩
      "/src/pages/x.ts".toList "import a from \"./a\";\nconst b = 1;\n".toList false ≠
      FileResult.written w) ∧
    (∀ x ∈ (⟨["/src/lib/a.ts".toList, "/src/pages/x.ts".toList]⟩ : FileContext).AllFiles,
      '\n' ∉ x) ∧
    (splitLines "import a from \"../lib/a\";\nconst b = 1;\n".toList).length =
      (splitLines "import a from \"./a\";\nconst b = 1;\n".toList).length :=
  ⟨by decide!,
    (((processFile_written ⟨["/src/lib/a.ts".toList, "/src/pages/x.ts".toList]⟩
      "/src/pages/x.ts".toList "import a from \"./a\";\nconst b = 1;\n".toList true).2.1
      "import a from \"../lib/a\";\nconst b = 1;\n".toList).mp (by decide!)).2.2.2,
    (processFile_written ⟨["/src/lib/a.ts".toList, "/src/pages/x.ts".toList]⟩
      "/src/pages/x.ts".toList "import a from \"./a\";\nconst b = 1;\n".toList false).1 rfl,
    by decide,
    ((processFile_written ⟨["/src/lib/a.ts".toList, "/src/pages/x.ts".toList]⟩
      "/src/pages/x.ts".toList "import a from \"./a\";\nconst b = 1;\n".toList true).2.2.2.2.2.2
      (by decide) "import a from \"../lib/a\";\nconst b = 1;\n".toList (by decide!)).2⟩

/-- C12 fails as stated: the corpus path `/src/li\nb/a.ts`, with a newline in a
directory name, is a clean path; the one-line content `import a from "./a";`
is rewritten to it, and the written content has two lines. -/
theorem processFile_line_count_changes :
    clean "/src/li\nb/a.ts".toList = "/src/li\nb/a.ts".toList ∧
    processFile ⟨["/src/li\nb/a.ts".toList, "/src/pages/x.ts".toList]⟩ "/src/pages/x.ts".toList
      "import a from \"./a\";".toList true =
      FileResult.written "import a from \"../li\nb/a\";".toList ∧
    (splitLines "import a from \"./a\";".toList).length = 1 ∧
    (splitLines "import a from \"../li\nb/a\";".toList).length = 2 := by
  decide!

end FixImports
